import Mathlib

/-!
# Clementine storage core: tokenizer and schema migration

A shallow embedding of `src/core/database.cpp`.

* `QString` is a list of UTF-16 code units (`QChar`), each a natural number
  below `2^16`; a byte buffer is a list of naturals below `2^8`.
* C++ `int` variables are `Int`.  The offsets of the tokenizer never exceed
  three times the length of the string, so wrap-around is not modelled.
* The Qt library (`QString::fromUtf8`, `QString::toLower`, the `QChar`
  character database) is not part of the repository.  It enters the model as
  the parameter `QtUnicode`; `refQt` is a small concrete table used to
  evaluate the code on explicit inputs.
-/

namespace Database

/-! ## Qt interface -/

/-- The enumeration `QChar::Decomposition` of Qt 4. -/
inductive Decomposition
  | NoDecomposition | Canonical | Font | NoBreak | Initial | Medial | Final
  | Isolated | Circle | Super | Sub | Vertical | Wide | Narrow | Small
  | Square | Compat | Fraction
  deriving DecidableEq, Repr

/-- The Qt functions `FTSOpen` calls.  `fromUtf8` turns the input bytes into
UTF-16 code units, `toLower` is `QString::toLower`, and the other three are
the `QChar` member functions of the same names, indexed by code unit.  The
two laws are the only facts about Qt assumed for every table. -/
structure QtUnicode where
  fromUtf8 : List Nat → List Nat
  toLower : List Nat → List Nat
  isLetterOrNumber : Nat → Bool
  decompositionTag : Nat → Decomposition
  decomposition : Nat → List Nat
  /-- Zero bytes decode to the empty string. -/
  fromUtf8_nil : fromUtf8 [] = []
  /-- The empty string is its own lower-case form. -/
  toLower_nil : toLower [] = []

/-! ## `Database::FTSOpen` -/

/-- The class `Database::Token`: normalised text and the two offsets. -/
structure Token where
  token : List Nat
  start_offset : Int
  end_offset : Int
  deriving DecidableEq, Repr

/-- The local variables of `FTSOpen` that live across loop iterations. -/
structure Cursor where
  tokens : List Token
  token : List Nat
  start_offset : Int
  offset : Int
  deriving DecidableEq, Repr

/-- Lines 142-148: the number added to `offset` for one code unit. -/
def advance (unicode : Nat) : Int :=
  if unicode ≤ 0x007f then 1
  else if unicode ≥ 0x0080 ∧ unicode ≤ 0x07ff then 2
  else if unicode ≥ 0x0800 then 3
  else 0

/-- Lines 164-168: the code unit pushed on `token` for a letter or number.
`decomposition()[0]` is read as the head of the decomposition; Qt returns a
non-empty decomposition whenever the tag is not `NoDecomposition`. -/
def pushed (U : QtUnicode) (c : Nat) : Nat :=
  if U.decompositionTag c ≠ Decomposition.NoDecomposition then
    (U.decomposition c).headD 0
  else c

/-- Lines 154-169: the separator / letter branch of the loop body, run after
`offset` has been advanced (`st.offset` is the advanced value). -/
def classify (U : QtUnicode) (c : Nat) (st : Cursor) : Cursor :=
  if !U.isLetterOrNumber c then
    if st.token.length ≠ 0 then
      { tokens := st.tokens ++ [⟨st.token, st.start_offset, st.offset - 1⟩],
        token := [],
        start_offset := st.offset,
        offset := st.offset }
    else
      { st with start_offset := st.start_offset + 1 }
  else
    { st with token := st.token ++ [pushed U c] }

/-- Lines 171-176: the flush executed when `i == str.length() - 1`. -/
def flush (st : Cursor) : Cursor :=
  if st.token.length ≠ 0 then
    { st with
      tokens := st.tokens ++ [⟨st.token, st.start_offset, st.offset⟩],
      token := [] }
  else st

/-- One iteration of the loop of lines 139-177 on code unit `c`; `last` says
whether `i == str.length() - 1`. -/
def ftsStep (U : QtUnicode) (c : Nat) (last : Bool) (st : Cursor) : Cursor :=
  let st1 := classify U c { st with offset := st.offset + advance c }
  if last then flush st1 else st1

/-- The loop of lines 139-177 over the code units that remain. -/
def ftsLoop (U : QtUnicode) : List Nat → Cursor → Cursor
  | [], st => st
  | c :: rest, st => ftsLoop U rest (ftsStep U c rest.isEmpty st)

/-- The token list `Database::FTSOpen` stores in the new cursor, for the
input buffer `input` (its `bytes` bytes). -/
def FTSOpen (U : QtUnicode) (input : List Nat) : List Token :=
  (ftsLoop U (U.toLower (U.fromUtf8 input)) ⟨[], [], 0, 0⟩).tokens

/-! ## A reference character table -/

/-- UTF-8 encoding of one Unicode scalar value. -/
def utf8Char (c : Nat) : List Nat :=
  if c < 0x80 then [c]
  else if c < 0x800 then [0xC0 + c / 64, 0x80 + c % 64]
  else if c < 0x10000 then [0xE0 + c / 4096, 0x80 + c / 64 % 64, 0x80 + c % 64]
  else [0xF0 + c / 262144, 0x80 + c / 4096 % 64, 0x80 + c / 64 % 64, 0x80 + c % 64]

/-- UTF-8 encoding of a sequence of scalar values. -/
def utf8Encode (cs : List Nat) : List Nat := cs.flatMap utf8Char

/-- UTF-16 code units of one scalar value (a surrogate pair above U+FFFF). -/
def utf16Char (c : Nat) : List Nat :=
  if c < 0x10000 then [c]
  else [0xD800 + (c - 0x10000) / 1024, 0xDC00 + (c - 0x10000) % 1024]

/-- Decoding of well-formed UTF-8 into UTF-16 code units; a byte that does not
start a complete sequence becomes U+FFFD. -/
def decodeUtf8 : List Nat → List Nat
  | [] => []
  | b0 :: rest =>
    if b0 < 0x80 then b0 :: decodeUtf8 rest
    else if 0xC0 ≤ b0 ∧ b0 < 0xE0 then
      match rest with
      | b1 :: r1 => ((b0 % 32) * 64 + b1 % 64) :: decodeUtf8 r1
      | [] => [0xFFFD]
    else if 0xE0 ≤ b0 ∧ b0 < 0xF0 then
      match rest with
      | b1 :: b2 :: r2 => ((b0 % 16) * 4096 + (b1 % 64) * 64 + b2 % 64) :: decodeUtf8 r2
      | _ => [0xFFFD]
    else if 0xF0 ≤ b0 ∧ b0 < 0xF8 then
      match rest with
      | b1 :: b2 :: b3 :: r3 =>
        utf16Char ((b0 % 8) * 262144 + (b1 % 64) * 4096 + (b2 % 64) * 64 + b3 % 64)
          ++ decodeUtf8 r3
      | _ => [0xFFFD]
    else 0xFFFD :: decodeUtf8 rest

/-- Lower-case mapping of the reference table: ASCII capitals, and two
characters whose lower-case form has another encoded length, U+023A (two
bytes, lower-case U+2C65 of three) and U+212A KELVIN SIGN (three bytes,
lower-case `k`). -/
def refLower (c : Nat) : Nat :=
  if 0x41 ≤ c ∧ c ≤ 0x5A then c + 32
  else if c = 0x023A then 0x2C65
  else if c = 0x212A then 0x6B
  else c

/-- Letters and numbers of the reference table: ASCII letters and digits,
U+00B2 SUPERSCRIPT TWO, U+00E9, U+2C65. -/
def refIsLetterOrNumber (c : Nat) : Bool :=
  (0x30 ≤ c ∧ c ≤ 0x39) ∨ (0x41 ≤ c ∧ c ≤ 0x5A) ∨ (0x61 ≤ c ∧ c ≤ 0x7A)
    ∨ c = 0xB2 ∨ c = 0xE9 ∨ c = 0x2C65

/-- Decomposition tags of the reference table: U+00E9 decomposes canonically,
U+00B2 has the compatibility decomposition `<super> 0032`. -/
def refDecompositionTag (c : Nat) : Decomposition :=
  if c = 0xE9 then Decomposition.Canonical
  else if c = 0xB2 then Decomposition.Super
  else Decomposition.NoDecomposition

/-- Decompositions of the reference table. -/
def refDecomposition (c : Nat) : List Nat :=
  if c = 0xE9 then [0x65, 0x0301]
  else if c = 0xB2 then [0x32]
  else []

/-- An excerpt of the Unicode character data Qt ships, enough to run the
tokenizer on the inputs used below: ASCII, U+00B2, U+00B7 (a separator),
U+00E9, U+023A, U+212A, U+2C65 and the surrogates.  Characters outside
the excerpt are caseless separators here. -/
def refQt : QtUnicode where
  fromUtf8 := decodeUtf8
  toLower := fun s => s.map refLower
  isLetterOrNumber := refIsLetterOrNumber
  decompositionTag := refDecompositionTag
  decomposition := refDecomposition
  fromUtf8_nil := rfl
  toLower_nil := rfl

/-! ## Notions used to state and prove the tokenizer properties -/

/-- The loop body without the end-of-input flush: advance `offset`, then
classify. -/
def body (U : QtUnicode) (st : Cursor) (c : Nat) : Cursor :=
  classify U c { st with offset := st.offset + advance c }

/-- The number of bytes the loop counts for a whole string. -/
def codedLength (s : List Nat) : Int := (s.map advance).sum

/-- The ordering invariant of the loop. -/
structure Ordered (st : Cursor) : Prop where
  pairwise : st.tokens.Pairwise (fun a b => a.end_offset ≤ b.start_offset)
  each : ∀ t ∈ st.tokens, 0 ≤ t.start_offset ∧ t.start_offset < t.end_offset
    ∧ t.end_offset ≤ st.start_offset
  start_nonneg : 0 ≤ st.start_offset
  room : st.start_offset + st.token.length ≤ st.offset

/-- The maximal runs of consecutive elements satisfying `p`, in order: the
list is cut at every element that fails `p` and the empty pieces are dropped. -/
def maximalRuns {α : Type} (p : α → Bool) (s : List α) : List (List α) :=
  (s.splitOnP (fun c => !p c)).filter (fun r => !r.isEmpty)

/-- The elements of a list carry consecutive spans `[lo, hi)` that start at `n`,
each as wide as the loop advances `offset` for its code unit. -/
def Spans {α : Type} (code : α → Nat) (lo hi : α → Int) : Int → List α → Prop
  | _, [] => True
  | n, a :: l => lo a = n ∧ hi a = n + advance (code a) ∧ Spans code lo hi (hi a) l

/-- Lower end of the first span of a run (`d` for the empty run). -/
def firstLo {α : Type} (lo : α → Int) (d : Int) (r : List α) : Int := (r.head?.map lo).getD d

/-- Upper end of the last span of a run (`d` for the empty run). -/
def lastHi {α : Type} (hi : α → Int) (d : Int) (r : List α) : Int := (r.getLast?.map hi).getD d

/-- The token that covers a run of annotated characters: the pushed code units,
from the start of the first span to the end of the last. -/
def spanToken {α : Type} (U : QtUnicode) (code : α → Nat) (lo hi : α → Int) (r : List α) : Token :=
  ⟨r.map (fun a => pushed U (code a)), firstLo lo 0 r, lastHi hi 0 r⟩

/-- Total advance of `offset` over annotated characters. -/
def spanWidth {α : Type} (code : α → Nat) (l : List α) : Int := (l.map (fun a => advance (code a))).sum

/-- The bytes `[a, b)` of a buffer. -/
def slice (buf : List Nat) (a b : Int) : List Nat := (buf.take b.toNat).drop a.toNat

/-- A character of the input with its place: the original code unit, the code
unit at the same index of the lower-cased string, and the offset of its first
byte in the input buffer. -/
structure Placed where
  orig : Nat
  low : Nat
  lo : Int

/-- Offset just past the last byte of a placed character. -/
def Placed.hi (p : Placed) : Int := p.lo + (utf8Char p.orig).length

/-- Places the paired characters (original, lower-cased) one after the other
from byte offset `n`. -/
def place : Int → List (Nat × Nat) → List Placed
  | _, [] => []
  | n, x :: rest => ⟨x.1, x.2, n⟩ :: place (n + (utf8Char x.1).length) rest

/-- Lower-case form of an ASCII byte. -/
def asciiLower (b : Nat) : Nat := if 0x41 ≤ b ∧ b ≤ 0x5A then b + 32 else b

/-- ASCII letters and digits. -/
def isAsciiAlnum (b : Nat) : Bool :=
  (0x30 ≤ b ∧ b ≤ 0x39) ∨ (0x41 ≤ b ∧ b ≤ 0x5A) ∨ (0x61 ≤ b ∧ b ≤ 0x7A)

/-- The tokens the specification asks for on ASCII input: one per maximal run
of letters and digits of the indexed input, with the run lower-cased, the index
of its first byte and the index just past its last byte. -/
def asciiTokens (input : List Nat) : List Token :=
  (maximalRuns (fun x : Nat × Nat => isAsciiAlnum x.2) input.enum).map
    (fun r => ⟨r.map (fun x => asciiLower x.2),
               firstLo (fun x : Nat × Nat => (x.1 : Int)) 0 r,
               lastHi (fun x : Nat × Nat => (x.1 : Int) + 1) 0 r⟩)

/-! ## Characters of a UTF-16 string -/

/-- The characters of the code units that remain, with the high surrogate read
just before, if any, still waiting for its low surrogate. -/
def utf16DecodeFrom : Option Nat → List Nat → List Nat
  | none, [] => []
  | some hi, [] => [hi]
  | none, c :: rest =>
    if 0xD800 ≤ c ∧ c ≤ 0xDBFF then utf16DecodeFrom (some c) rest
    else c :: utf16DecodeFrom none rest
  | some hi, c :: rest =>
    if 0xDC00 ≤ c ∧ c ≤ 0xDFFF then
      (0x10000 + (hi - 0xD800) * 1024 + (c - 0xDC00)) :: utf16DecodeFrom none rest
    else if 0xD800 ≤ c ∧ c ≤ 0xDBFF then hi :: utf16DecodeFrom (some c) rest
    else hi :: c :: utf16DecodeFrom none rest

/-- The characters (Unicode scalar values) a string of UTF-16 code units
holds: a high surrogate followed by a low surrogate is one character beyond
the basic plane, every other code unit is a character by itself. -/
def utf16Decode (s : List Nat) : List Nat := utf16DecodeFrom none s

/-- Letters and numbers of the reference table by character: in the basic
plane those of `refIsLetterOrNumber`, beyond it U+20000, a CJK ideograph
(category Lo), and U+1D7CE MATHEMATICAL BOLD DIGIT ZERO (category Nd). -/
def refIsLetterOrNumberUcs4 (c : Nat) : Bool :=
  if c < 0x10000 then refIsLetterOrNumber c else (c = 0x20000 ∨ c = 0x1D7CE)

/-! ## Schema migration: the SQL engine and the `Database` object -/

/-- Constant `Database::kSchemaVersion`. -/
def kSchemaVersion : Int := 43

/-- Constant `Database::kMagicAllSongsTables`. -/
def kMagicAllSongsTables : String := "%allsongstables"

/-- What the migration code asks of the outside world, in the order it asks:
queries that read, `QSqlDatabase::transaction` and `commit`, statements run
with `db.exec`, the bound `UPDATE` of `UrlEncodeFilenameColumn`, the opening
of a schema resource, `QSqlDatabase::open` on a database name, and the bound
statements of `Connect`, `SELECT fts3_tokenizer(:name, :pointer)` and
`ATTACH DATABASE :filename AS :alias`, and that of `RecreateAttachedDb`,
`DETACH DATABASE :alias`. -/
inductive DbAction
  | select (sql : String)
  | transaction
  | commit
  | exec (sql : String)
  | update (sql : String) (filename : String) (rowid : Int)
  | openResource (filename : String)
  | openDatabase (databaseName : String)
  | registerTokenizer
  | attach (filename : String) (key : String)
  | detach (key : String)
  deriving DecidableEq, Repr

/-- The SQLite engine behind `QSqlDatabase`, the Qt resource system and `QUrl`,
none of them part of the repository.  `σ` is the state of the database file.
* `versionRows`: the rows of `SELECT version FROM schema_version` (none when
  the table is missing or empty);
* `tables`: `db.tables()`;
* `sqliteMaster alias`: the `(type, name)` rows of `alias.sqlite_master`, or
  `none` when the query cannot be run;
* `filenameRows table`: the rows of `SELECT ROWID, filename FROM table`, or
  the error text;
* `run`: the state after a transaction call or a statement, and the text of
  `lastError()` when it is valid;
* `resource`: the content of a resource file, `none` when it cannot be opened;
* `fromLocalFile`: `QUrl::fromLocalFile(f).toEncoded()`. -/
structure SqlEngine (σ : Type) where
  versionRows : σ → List Int
  tables : σ → List String
  sqliteMaster : String → σ → Option (List (String × String))
  filenameRows : String → σ → Except String (List (Int × String))
  run : DbAction → σ → σ × Option String
  resource : String → Option String
  fromLocalFile : String → String

/-- The struct `Database::AttachedDatabase`. -/
structure AttachedDatabase where
  filename_ : String
  schema_ : String
  deriving DecidableEq, Repr

/-- The member variables of a `Database` object the migration and `Connect`
read or write.  `attached_databases_` is the `QMap`, as its list of entries in
key order; `injected_database_name_` is `none` for the null string. -/
structure DatabaseState where
  attached_databases_ : List (String × AttachedDatabase)
  injected_database_name_ : Option String
  startup_schema_version_ : Int
  directory_ : String
  connection_id_ : Int
  deriving DecidableEq, Repr

/-- A connection as the code sees it: the database behind it, the actions
issued so far, and the messages handed to `Application::AddError`.  A query
object that only reads is recorded once, however often it is executed. -/
structure Conn (σ : Type) where
  db : σ
  trace : List DbAction
  errors : List String

section migration
variable {σ : Type}

/-- Records a query that only reads. -/
def noteSelect (sql : String) (cn : Conn σ) : Conn σ :=
  { cn with trace := cn.trace ++ [DbAction.select sql] }

/-- Issues a state-changing action: the engine runs it, the trace records it;
the second component is the text of `lastError()` when valid. -/
def issue (E : SqlEngine σ) (a : DbAction) (cn : Conn σ) : Conn σ × Option String :=
  ({ cn with db := (E.run a cn.db).1, trace := cn.trace ++ [a] }, (E.run a cn.db).2)

/-- Function `Database::CheckErrors`, lines 595-607, on the `lastError()` of a query. -/
def CheckErrors (lastError : Option String) (cn : Conn σ) : Conn σ × Bool :=
  match lastError with
  | some text => ({ cn with errors := cn.errors ++ ["LibraryBackend: " ++ text] }, true)
  | none => (cn, false)

/-- Modelled from the spec: the constructor of `ScopedTransaction`
(`scopedtransaction.h` is not among the sources), which opens the transaction
of "one transaction per version". -/
def ScopedTransaction (E : SqlEngine σ) (cn : Conn σ) : Conn σ :=
  (issue E DbAction.transaction cn).1

/-- Modelled from the spec: `ScopedTransaction::Commit`, which commits the
transaction of the version step. -/
def ScopedTransaction.Commit (E : SqlEngine σ) (cn : Conn σ) : Conn σ :=
  (issue E DbAction.commit cn).1

/-- Qt function `QString::contains(needle)`. -/
def qContains (s needle : String) : Bool :=
  s.data.tails.any (fun t => needle.data.isPrefixOf t)

/-- Qt function `QString::startsWith(t)`. -/
def qStartsWith (s t : String) : Bool := t.data.isPrefixOf s.data

/-- Qt function `QString::endsWith(t)`. -/
def qEndsWith (s t : String) : Bool := t.data.isSuffixOf s.data

/-- Splitting of a character list at every occurrence of a non-empty separator,
left to right, empty pieces kept; `skip` counts the characters of a separator
just matched that are still to be passed over. -/
def qSplitL (sep : List Char) : List Char → Nat → List (List Char)
  | [], _ => [[]]
  | _ :: rest, skip + 1 => qSplitL sep rest skip
  | c :: rest, 0 =>
    if sep.isPrefixOf (c :: rest) then [] :: qSplitL sep rest (sep.length - 1)
    else
      match qSplitL sep rest 0 with
      | p :: ps => (c :: p) :: ps
      | [] => [[c]]

/-- Qt function `QString::split(sep)` for a non-empty separator (empty parts are kept). -/
def qSplit (s sep : String) : List String := (qSplitL sep.data s.data 0).map String.mk

/-- Replacement of every occurrence of a non-empty `before` by `after`, left to
right; `skip` as in `qSplitL`. -/
def qReplaceL (before after : List Char) : List Char → Nat → List Char
  | [], _ => []
  | _ :: rest, skip + 1 => qReplaceL before after rest skip
  | c :: rest, 0 =>
    if before.isPrefixOf (c :: rest) then
      after ++ qReplaceL before after rest (before.length - 1)
    else c :: qReplaceL before after rest 0

/-- Qt function `QString::replace(before, after)` for a non-empty `before`. -/
def qReplace (s before after : String) : String :=
  String.mk (qReplaceL before.data after.data s.data 0)

/-- SQLite `name LIKE '%songs'`: the name ends in `songs`, ASCII letters
compared without case. -/
def likeSongs (name : String) : Bool :=
  qEndsWith (String.mk (name.data.map Char.toLower)) "songs"

/-- The `WHERE` clause of line 578, `type='table' AND name='songs' OR name
LIKE '%songs'`; `AND` binds tighter than `OR`. -/
def songsWhere (row : String × String) : Bool :=
  (row.1 == "table" && row.2 == "songs") || likeSongs row.2

/-- Function `Database::SongsTables`, lines 566-593. -/
def SongsTables (E : SqlEngine σ) (D : DatabaseState) (schema_version : Int) (cn : Conn σ) :
    List String × Conn σ :=
  let ret := (E.tables cn.db).filter (fun table => table == "songs" || qEndsWith table "_songs")
  let r := D.attached_databases_.foldl
    (fun (acc : List String × Conn σ) kv =>
      let cn1 := noteSelect ("SELECT NAME FROM " ++ kv.1 ++ ".sqlite_master"
        ++ " WHERE type='table' AND name='songs' OR name LIKE '%songs'") acc.2
      match E.sqliteMaster kv.1 cn1.db with
      | some rows => (acc.1 ++ (rows.filter songsWhere).map (fun row => kv.1 ++ "." ++ row.2), cn1)
      | none => (acc.1, cn1))
    (ret, cn)
  if schema_version > 29 then (r.1 ++ ["playlist_items"], r.2) else r

/-- Lines 554-561: run one statement; an error is fatal (`qFatal`). -/
def execOrDie (E : SqlEngine σ) (command : String) (cn : Conn σ) : Except String (Conn σ) :=
  let r := issue E (DbAction.exec command) cn
  let c := CheckErrors r.2 r.1
  if c.2 then Except.error "Unable to update music library database" else Except.ok c.1

/-- The loop of lines 550-557 over the songs tables, for a command that
contains the magic value. -/
def execForTables (E : SqlEngine σ) (command : String) :
    List String → Conn σ → Except String (Conn σ)
  | [], cn => Except.ok cn
  | table :: rest, cn =>
    match execOrDie E (qReplace command kMagicAllSongsTables table) cn with
    | Except.ok cn1 => execForTables E command rest cn1
    | Except.error e => Except.error e

/-- The loop of lines 545-563 over the commands of a script. -/
def execEach (E : SqlEngine σ) (tables : List String) :
    List String → Conn σ → Except String (Conn σ)
  | [], cn => Except.ok cn
  | command :: rest, cn =>
    match (if qContains command kMagicAllSongsTables then execForTables E command tables cn
           else execOrDie E command cn) with
    | Except.ok cn1 => execEach E tables rest cn1
    | Except.error e => Except.error e

/-- Function `Database::ExecCommands`, lines 536-564. -/
def ExecCommands (E : SqlEngine σ) (D : DatabaseState) (schema : String) (schema_version : Int)
    (cn : Conn σ) : Except String (Conn σ) :=
  let commands := qSplit schema ";\n\n"
  let t := SongsTables E D schema_version cn
  execEach E t.1 commands t.2

/-- Function `Database::ExecFromFile`, lines 527-534; a resource that cannot be opened
is fatal. -/
def ExecFromFile (E : SqlEngine σ) (D : DatabaseState) (filename : String) (schema_version : Int)
    (cn : Conn σ) : Except String (Conn σ) :=
  let cn1 : Conn σ := { cn with trace := cn.trace ++ [DbAction.openResource filename] }
  match E.resource filename with
  | none => Except.error ("Couldn't open schema file " ++ filename)
  | some schema => ExecCommands E D schema schema_version cn1

/-- The body of the `while (select.next())` loop of lines 510-524 for one row. -/
def urlEncodeRow (E : SqlEngine σ) (table : String) (cn : Conn σ) (row : Int × String) : Conn σ :=
  if row.2.isEmpty || qContains row.2 "://" then cn
  else
    let r := issue E (DbAction.update ("UPDATE " ++ table ++ " SET filename=:filename WHERE ROWID=:id")
      (E.fromLocalFile row.2) row.1) cn
    (CheckErrors r.2 r.1).1

/-- Function `Database::UrlEncodeFilenameColumn`, lines 504-525.  The rows are
those the `SELECT` returns when it is executed; the `UPDATE` takes effect each
time it is executed with its two values bound. -/
def UrlEncodeFilenameColumn (E : SqlEngine σ) (table : String) (cn : Conn σ) : Conn σ :=
  let cn1 := noteSelect ("SELECT ROWID, filename FROM " ++ table) cn
  match E.filenameRows table cn1.db with
  | Except.error text => (CheckErrors (some text) cn1).1
  | Except.ok rows => rows.foldl (urlEncodeRow E table) cn1

/-- Decimal digits of `n`, most significant first; `fuel` bounds the number of
digits. -/
def decimalDigits : Nat → Nat → List Char
  | 0, _ => []
  | fuel + 1, n =>
    if n < 10 then [Nat.digitChar n]
    else decimalDigits fuel (n / 10) ++ [Nat.digitChar (n % 10)]

/-- A natural number in decimal. -/
def decimal (n : Nat) : String := String.mk (decimalDigits (n + 1) n)

/-- Qt function `QString::arg(int)`: the number in decimal, with a minus sign when
negative. -/
def argInt (v : Int) : String :=
  if v < 0 then "-" ++ decimal v.natAbs else decimal v.natAbs

/-- Lines 476-480: the resource that holds the script of a version. -/
def schemaFilename (version : Int) : String :=
  if version = 0 then ":/schema/schema.sql"
  else ":/schema/schema-" ++ argInt version ++ ".sql"

/-- Lines 484-496: the rewriting of file names into URLs done for version 31. -/
def urlEncodeAll (E : SqlEngine σ) (cn : Conn σ) : Conn σ :=
  let cn1 := UrlEncodeFilenameColumn E "songs" cn
  let cn2 := UrlEncodeFilenameColumn E "playlist_items" cn1
  (E.tables cn2.db).foldl
    (fun c table =>
      if qStartsWith table "device_" && qEndsWith table "_songs" then
        UrlEncodeFilenameColumn E table c
      else c)
    cn2

/-- Function `Database::UpdateDatabaseSchema`, lines 475-502. -/
def UpdateDatabaseSchema (E : SqlEngine σ) (D : DatabaseState) (version : Int) (cn : Conn σ) :
    Except String (Conn σ) :=
  let filename := schemaFilename version
  let t := ScopedTransaction E cn
  let cn1 := if version = 31 then urlEncodeAll E t else t
  match ExecFromFile E D filename (version - 1) cn1 with
  | Except.ok cn2 => Except.ok (ScopedTransaction.Commit E cn2)
  | Except.error e => Except.error e

/-- The `for` loop of lines 437-439 with the loop variable at `v` and `fuel`
iterations left to run. -/
def updateLoopN (E : SqlEngine σ) (D : DatabaseState) :
    Nat → Int → Conn σ → Except String (Conn σ)
  | 0, _, cn => Except.ok cn
  | fuel + 1, v, cn =>
    if v ≤ kSchemaVersion then
      match UpdateDatabaseSchema E D v cn with
      | Except.ok cn1 => updateLoopN E D fuel (v + 1) cn1
      | Except.error e => Except.error e
    else Except.ok cn

/-- The `for` loop of lines 437-439, entered with the loop variable at `v`: it
has `kSchemaVersion + 1 - v` iterations to run (none when `v` is past
`kSchemaVersion`), see `updateLoop_eq`. -/
def updateLoop (E : SqlEngine σ) (D : DatabaseState) (v : Int) (cn : Conn σ) :
    Except String (Conn σ) :=
  updateLoopN E D (kSchemaVersion + 1 - v).toNat v cn

/-- Function `Database::UpdateMainSchema`, lines 422-441: the object with
`startup_schema_version_` set, and the connection afterwards. -/
def UpdateMainSchema (E : SqlEngine σ) (D : DatabaseState) (cn : Conn σ) :
    Except String (DatabaseState × Conn σ) :=
  let cn1 := noteSelect "SELECT version FROM schema_version" cn
  let schema_version : Int := (E.versionRows cn1.db).headD 0
  let D1 := { D with startup_schema_version_ := schema_version }
  if schema_version > kSchemaVersion then Except.ok (D1, cn1)
  else if schema_version < kSchemaVersion then
    match updateLoop E D1 (schema_version + 1) cn1 with
    | Except.ok cn2 => Except.ok (D1, cn2)
    | Except.error e => Except.error e
  else Except.ok (D1, cn1)

end migration

/-! ## A reference engine -/

/-- A toy engine for running the migration on explicit inputs: the state is the
recorded schema version (none before the first script ran); every script is
the single statement `bump`, which records the next version; there are no
tables, and nothing fails. -/
def refEngine : SqlEngine (Option Int) where
  versionRows := fun s => s.toList
  tables := fun _ => []
  sqliteMaster := fun _ _ => some []
  filenameRows := fun _ _ => Except.ok []
  run := fun a s =>
    (match a with
     | DbAction.exec "bump" => some (s.getD 0 + 1)
     | _ => s, none)
  resource := fun _ => some "bump"
  fromLocalFile := fun f => "file://" ++ f

/-- A `Database` object as its constructor leaves it, with the `jamendo`
attachment. -/
def refDatabase : DatabaseState where
  attached_databases_ := [("jamendo", ⟨"/jamendo.db", ":/schema/jamendo.sql"⟩)]
  injected_database_name_ := none
  startup_schema_version_ := -1
  directory_ := ""
  connection_id_ := 0

/-! ## The shape of a migration trace -/

/-- Actions that are neither transaction control nor the opening of a script:
queries, statements and bound updates. -/
def DbAction.plain : DbAction → Bool
  | DbAction.select _ => true
  | DbAction.exec _ => true
  | DbAction.update _ _ _ => true
  | _ => false

/-- The connection `cn2` continues `cn1` by plain actions only. -/
def PlainExt {σ : Type} (cn1 cn2 : Conn σ) : Prop :=
  ∃ l : List DbAction, cn2.trace = cn1.trace ++ l ∧ l.all DbAction.plain = true

/-- The trace of one version step: the transaction is opened, plain actions
`pre` (none unless the version is 31), the script of the version is opened and
executed with plain actions `ex`, the transaction is committed.  The actions
`ex` are those of a run of `ExecCommands` on the content of the script, with
`version - 1` as schema version, on the connection whose trace ends with the
opening of this transaction, `pre` and the opening of the script. -/
def StepShape {σ : Type} (E : SqlEngine σ) (D : DatabaseState) (v : Int) (t : List DbAction) :
    Prop :=
  ∃ pre ex : List DbAction,
    t = [DbAction.transaction] ++ pre ++ [DbAction.openResource (schemaFilename v)] ++ ex
          ++ [DbAction.commit]
    ∧ pre.all DbAction.plain = true ∧ ex.all DbAction.plain = true
    ∧ (v ≠ 31 → pre = [])
    ∧ ∃ (schema : String) (a b : Conn σ) (before : List DbAction),
        E.resource (schemaFilename v) = some schema
        ∧ a.trace = before ++ [DbAction.transaction] ++ pre
            ++ [DbAction.openResource (schemaFilename v)]
        ∧ ExecCommands E D schema (v - 1) a = Except.ok b
        ∧ b.trace = a.trace ++ ex

/-- The versions after `c` up to `kSchemaVersion`, ascending. -/
def versionsAfter (c : Int) : List Int :=
  (List.range (kSchemaVersion - c).toNat).map (fun (i : Nat) => c + 1 + Int.ofNat i)

/-! ## Reading decimal numbers -/

/-- The number a string of decimal digits stands for. -/
def decimalValue (cs : List Char) : Nat :=
  cs.foldl (fun acc c => acc * 10 + (c.toNat - 48)) 0

/-! ## The statements of a script and the songs tables -/

/-- The statements one piece of a script stands for, given the list of songs
tables: the piece itself when it does not contain the magic value, and
otherwise the piece once per table, the magic value replaced by the table. -/
def expandCommand (tables : List String) (command : String) : List String :=
  if qContains command kMagicAllSongsTables then
    tables.map (fun table => qReplace command kMagicAllSongsTables table)
  else [command]

/-- The statements a script stands for: its pieces between `";\n\n"`, in order,
each expanded for the list of songs tables. -/
def scriptStatements (tables : List String) (schema : String) : List String :=
  (qSplit schema ";\n\n").flatMap (expandCommand tables)

/-- The query of lines 577-578 for one attached database. -/
def attachedQuery (key : String) : String :=
  "SELECT NAME FROM " ++ key ++ ".sqlite_master"
    ++ " WHERE type='table' AND name='songs' OR name LIKE '%songs'"

/-- The entries one attached database contributes to the result of
`SongsTables`: the names its query selects, each qualified by the alias; none
when the query cannot be run. -/
def attachedEntries {σ : Type} (E : SqlEngine σ) (db : σ) (kv : String × AttachedDatabase) :
    List String :=
  match E.sqliteMaster kv.1 db with
  | some rows => (rows.filter songsWhere).map (fun row => kv.1 ++ "." ++ row.2)
  | none => []

/-- The body of the loop of lines 576-585, as `SongsTables` folds it over the
attached databases. -/
def songsTablesStep {σ : Type} (E : SqlEngine σ) (acc : List String × Conn σ)
    (kv : String × AttachedDatabase) : List String × Conn σ :=
  let cn1 := noteSelect ("SELECT NAME FROM " ++ kv.1 ++ ".sqlite_master"
    ++ " WHERE type='table' AND name='songs' OR name LIKE '%songs'") acc.2
  match E.sqliteMaster kv.1 cn1.db with
  | some rows => (acc.1 ++ (rows.filter songsWhere).map (fun row => kv.1 ++ "." ++ row.2), cn1)
  | none => (acc.1, cn1)

/-! ## The world around a `Database` object -/

/-- Calls the backup and integrity code makes outside the SQL layer, in the
order it makes them: calls to the task manager, calls of the `_sqlite3_*`
function pointers (a connection pointer is `none` when it is `NULL`),
`QDir::mkpath` and `QFile::remove`. -/
inductive Event
  | startTask (label : String) (id : Int)
  | setTaskProgress (id : Int) (progress : Int) (max : Int)
  | setTaskFinished (id : Int)
  | sqlite3_open (filename : String)
  | sqlite3_errmsg (connection : Option Nat)
  | sqlite3_close (connection : Option Nat)
  | sqlite3_backup_init (dest source : Option Nat)
  | sqlite3_backup_step (backup : Nat) (pages : Int)
  | sqlite3_backup_pagecount (backup : Nat)
  | sqlite3_backup_remaining (backup : Nat)
  | sqlite3_backup_finish (backup : Nat)
  | mkpath (directory : String)
  | removeFile (filename : String)
  deriving DecidableEq, Repr

/-- A `QSqlDatabase` handle: the connection name it is registered under, the
database name set on it, and whether it is open. -/
structure QSqlDatabase where
  connectionName : String
  databaseName : String
  isOpen : Bool
  deriving DecidableEq, Repr

/-- The static members of `Database` that `StaticInit` sets: the two flags,
whether `sFTSTokenizer` is set, and the names of the `_sqlite3_*` function
pointers that are not `NULL`. -/
structure Statics where
  sStaticInitDone : Bool
  sLoadedSqliteSymbols : Bool
  sFTSTokenizer : Bool
  resolved : List String
  deriving DecidableEq, Repr

/-- The parts of Qt and of the platform, other than the SQL engine, that the
code consults; none of them is part of the repository.
* `tr`: `QObject::tr`;
* `integrityRows`: the rows of `PRAGMA integrity_check(10)`;
* `mkpath`: whether `QDir::mkpath` succeeds;
* `openError`: `QSqlDatabase::open` on a database name, `none` when it
  succeeds and else the text of `lastError()`;
* `haveStaticSqlite`: whether `HAVE_STATIC_SQLITE` is defined;
* `libraryLoads`, `resolves`: `QLibrary::load` and whether
  `QLibrary::resolve` finds a symbol;
* `removeFile`: the state of the files after `QFile::remove` on a file name,
  whether it succeeded or not. -/
structure QtEnv (σ : Type) where
  tr : String → String
  integrityRows : σ → List String
  mkpath : String → Bool
  openError : String → σ → Option String
  haveStaticSqlite : Bool
  libraryLoads : Bool
  resolves : String → Bool
  removeFile : String → σ → σ

/-- The state the code runs in: the connection to the database with its trace
and error sink, the calls made outside the SQL layer, the next task id the task
manager hands out, whether `directory_` exists, the connections Qt has
registered, and the static members of `Database`. -/
structure World (σ : Type) where
  cn : Conn σ
  log : List Event
  nextTaskId : Int
  directoryExists : Bool
  registry : List QSqlDatabase
  statics : Statics

section world
variable {σ : Type}

/-- Modelled from the spec: `Application::AddError(message)`, the process-wide
error sink (`core/application.h` is not among the sources). -/
def AddError (message : String) (w : World σ) : World σ :=
  { w with cn := { w.cn with errors := w.cn.errors ++ [message] } }

/-- Modelled from the spec: `TaskManager::StartTask(label) -> id`
(`core/taskmanager.h` is not among the sources); the id is the next one the
task manager has to give. -/
def StartTask (label : String) (w : World σ) : Int × World σ :=
  (w.nextTaskId,
   { w with log := w.log ++ [Event.startTask label w.nextTaskId],
            nextTaskId := w.nextTaskId + 1 })

/-- Modelled from the spec: `TaskManager::SetTaskProgress(id, current, total)`. -/
def SetTaskProgress (id progress max : Int) (w : World σ) : World σ :=
  { w with log := w.log ++ [Event.setTaskProgress id progress max] }

/-- Modelled from the spec: `TaskManager::SetTaskFinished(id)`. -/
def SetTaskFinished (id : Int) (w : World σ) : World σ :=
  { w with log := w.log ++ [Event.setTaskFinished id] }

/-! ## `Database::IntegrityCheck` -/

/-- The text of lines 626-628, before translation. -/
def kCorruptionGuidance : String :=
  "Database corruption detected. Please read "
    ++ "https://code.google.com/p/clementine-player/wiki/DatabaseCorruption "
    ++ "for instructions on how to recover your database"

/-- The `while (q.next())` loop of lines 617-633 over the rows that remain,
with the current value of `error_reported`; the result is the final value of
`ok`. -/
def integrityLoop (Q : QtEnv σ) : List String → Bool → World σ → Bool × World σ
  | [], _, w => (false, w)
  | message :: rest, error_reported, w =>
    if message = "ok" then (true, w)
    else
      let w1 := if !error_reported then AddError (Q.tr kCorruptionGuidance) w else w
      let w2 := AddError ("Database: " ++ message) w1
      integrityLoop Q rest true w2

/-- Function `Database::IntegrityCheck`, lines 609-638.  A query on a handle
that is not open returns no row. -/
def IntegrityCheck (Q : QtEnv σ) (db : QSqlDatabase) (w : World σ) : Bool × World σ :=
  let t := StartTask (Q.tr "Integrity check") w
  let w1 : World σ := { t.2 with cn := noteSelect "PRAGMA integrity_check(10)" t.2.cn }
  let rows := if db.isOpen then Q.integrityRows w1.cn.db else []
  let r := integrityLoop Q rows false w1
  (r.1, SetTaskFinished t.1 r.2)

end world

/-- A Qt environment in which the integrity pragma
returns the given rows, directories can be created, every database opens and
SQLite is linked statically. -/
def refQtEnv {σ : Type} (rows : List String) : QtEnv σ where
  tr := fun s => s
  integrityRows := fun _ => rows
  mkpath := fun _ => true
  openError := fun _ _ => none
  haveStaticSqlite := true
  libraryLoads := true
  resolves := fun _ => true
  removeFile := fun _ s => s

/-- A world at the start: nothing recorded, no connection registered, no static
member initialised, the directory present. -/
def refWorld (db : Option Int) : World (Option Int) where
  cn := ⟨db, [], []⟩
  log := []
  nextTaskId := 1
  directoryExists := true
  registry := []
  statics := ⟨false, false, false, []⟩

/-- The rows of a check the loop handles: those before the first `ok`. -/
def processedRows (rows : List String) : List String :=
  rows.takeWhile (fun message => message != "ok")

/-- What `PRAGMA integrity_check` returns: the single row `ok` when no error is
found (comment at line 620), and otherwise rows that describe the errors, none
of them `ok`. -/
def PragmaRows (rows : List String) : Prop := rows = ["ok"] ∨ "ok" ∉ rows

/-- The messages `IntegrityCheck` hands to `AddError` for the rows it handles:
the guidance once, then one message per row. -/
def integrityErrors {σ : Type} (Q : QtEnv σ) (processed : List String) : List String :=
  if processed = [] then []
  else Q.tr kCorruptionGuidance :: processed.map (fun message => "Database: " ++ message)

/-! ## `Database::StaticInit` and the `_sqlite3_*` function pointers -/

/-- The thirteen symbols `StaticInit` resolves, in the order of lines 256-296. -/
def sqliteSymbols : List String :=
  ["sqlite3_value_type", "sqlite3_value_int64", "sqlite3_value_text",
   "sqlite3_result_int64", "sqlite3_user_data", "sqlite3_open", "sqlite3_errmsg",
   "sqlite3_close", "sqlite3_backup_init", "sqlite3_backup_step",
   "sqlite3_backup_finish", "sqlite3_backup_pagecount", "sqlite3_backup_remaining"]

/-- Function `Database::StaticInit`, lines 220-312, on the static members. -/
def StaticInit {σ : Type} (Q : QtEnv σ) (s : Statics) : Statics :=
  if s.sStaticInitDone then s
  else
    let s1 := { s with sStaticInitDone := true, sFTSTokenizer := true }
    if Q.haveStaticSqlite then
      { s1 with resolved := sqliteSymbols, sLoadedSqliteSymbols := true }
    else if !Q.libraryLoads then s1
    else
      let s2 := { s1 with resolved := sqliteSymbols.filter Q.resolves }
      if sqliteSymbols.any (fun symbol => !(s2.resolved.contains symbol)) then
        { s2 with sLoadedSqliteSymbols := false }
      else { s2 with sLoadedSqliteSymbols := true }

/-- The static members once every symbol is resolved. -/
def loadedStatics : Statics := ⟨true, true, true, sqliteSymbols⟩

/-- The SQLite C library behind the `_sqlite3_*` function pointers, on the
state `σ` of the files; a connection is a number, a `NULL` pointer is `none`.
* `sqlite3_open`: the new state, the return code and the value left in
  `*ppDb`;
* `sqlite3_backup_init dest source`: the backup object, `none` for `NULL`;
* `sqlite3_backup_step backup pages`: the new state and the return code. -/
structure Sqlite3 (σ : Type) where
  sqlite3_open : String → σ → σ × Int × Option Nat
  sqlite3_close : Option Nat → σ → σ
  sqlite3_backup_init : Option Nat → Option Nat → σ → σ × Option Nat
  sqlite3_backup_step : Nat → Int → σ → σ × Int
  sqlite3_backup_pagecount : Nat → σ → Int
  sqlite3_backup_remaining : Nat → σ → Int
  sqlite3_backup_finish : Nat → σ → σ

/-- Constant `SQLITE_OK`. -/
def SQLITE_OK : Int := 0

/-- Constant `SQLITE_DONE`. -/
def SQLITE_DONE : Int := 101

section backup
variable {σ : Type}

/-- A call through the function pointer of a symbol: through a pointer that is
`NULL` the process ends. -/
def viaPointer (symbol : String) (w : World σ) : Except String Unit :=
  if w.statics.resolved.contains symbol then Except.ok ()
  else Except.error ("call through the NULL pointer _" ++ symbol)

/-- Records a call made outside the SQL layer and the state it leaves. -/
def record (e : Event) (db : σ) (w : World σ) : World σ :=
  { w with cn := { w.cn with db := db }, log := w.log ++ [e] }

/-- Function `Database::OpenDatabase`, lines 652-667: whether it succeeded,
the value left in `*connection`, and the world afterwards. -/
def OpenDatabase (S : Sqlite3 σ) (filename : String) (w : World σ) :
    Except String (Bool × Option Nat × World σ) := do
  viaPointer "sqlite3_open" w
  let r := S.sqlite3_open filename w.cn.db
  let w1 := record (Event.sqlite3_open filename) r.1 w
  if r.2.1 ≠ 0 then
    match r.2.2 with
    | some connection => do
      viaPointer "sqlite3_errmsg" w1
      pure (false, some connection, record (Event.sqlite3_errmsg (some connection)) w1.cn.db w1)
    | none => pure (false, none, w1)
  else pure (true, r.2.2, w1)

/-- A call of `_sqlite3_close`. -/
def closeConnection (S : Sqlite3 σ) (connection : Option Nat) (w : World σ) :
    Except String (World σ) := do
  viaPointer "sqlite3_close" w
  pure (record (Event.sqlite3_close connection) (S.sqlite3_close connection w.cn.db) w)

/-- The body of the `BOOST_SCOPE_EXIT` block of lines 677-682, run with the
captured values of `source_connection`, `dest_connection` and `task_id`. -/
def scopeExit (S : Sqlite3 σ) (source_connection dest_connection : Option Nat) (task_id : Int)
    (w : World σ) : Except String (World σ) := do
  let w1 ← closeConnection S source_connection w
  let w2 ← closeConnection S dest_connection w1
  pure (SetTaskFinished task_id w2)

/-- One round of the `do ... while` loop of lines 703-709: the return code of
the step and the world after the progress report. -/
def backupStep (S : Sqlite3 σ) (task_id : Int) (backup : Nat) (w : World σ) :
    Except String (Int × World σ) := do
  viaPointer "sqlite3_backup_step" w
  let r := S.sqlite3_backup_step backup 16 w.cn.db
  let w1 := record (Event.sqlite3_backup_step backup 16) r.1 w
  viaPointer "sqlite3_backup_pagecount" w1
  let page_count := S.sqlite3_backup_pagecount backup w1.cn.db
  let w2 := record (Event.sqlite3_backup_pagecount backup) w1.cn.db w1
  viaPointer "sqlite3_backup_remaining" w2
  let remaining := S.sqlite3_backup_remaining backup w2.cn.db
  let w3 := record (Event.sqlite3_backup_remaining backup) w2.cn.db w2
  pure (r.2, SetTaskProgress task_id (page_count - remaining) page_count w3)

/-- The `do ... while (ret == SQLITE_OK)` loop of lines 703-709 with a bound on
the number of rounds: the last return code and the world, `none` when the
bound is reached before the loop ends. -/
def backupLoop (S : Sqlite3 σ) (task_id : Int) (backup : Nat) :
    Nat → World σ → Except String (Option (Int × World σ))
  | 0, _ => Except.ok none
  | fuel + 1, w =>
    match backupStep S task_id backup w with
    | Except.error e => Except.error e
    | Except.ok r =>
      if r.1 = SQLITE_OK then backupLoop S task_id backup fuel r.2
      else Except.ok (some r)

/-- Function `Database::BackupFile`, lines 669-716, with a bound on the rounds
of the copy loop (`none`: the bound was reached).

`BOOST_SCOPE_EXIT((source_connection)(dest_connection)(task_id)(app_))` lists
its variables without `&`, so Boost.ScopeExit captures each of them by value,
copied where the block is declared (line 677); both connection pointers are
`NULL` there, and the pointers `OpenDatabase` stores later in the two local
variables do not reach the block. -/
def BackupFile (S : Sqlite3 σ) (Q : QtEnv σ) (filename : String) (fuel : Nat) (w : World σ) :
    Except String (Option (World σ)) :=
  let dest_filename := filename ++ ".bak"
  let t := StartTask (Q.tr "Backing up database") w
  let task_id := t.1
  let source_connection : Option Nat := none
  let dest_connection : Option Nat := none
  let atExit := scopeExit S source_connection dest_connection task_id
  match OpenDatabase S filename t.2 with
  | Except.error e => Except.error e
  | Except.ok (success, source_connection, w1) =>
    if !success then (atExit w1).map some
    else
      match OpenDatabase S dest_filename w1 with
      | Except.error e => Except.error e
      | Except.ok (success, dest_connection, w2) =>
        if !success then (atExit w2).map some
        else
          match viaPointer "sqlite3_backup_init" w2 with
          | Except.error e => Except.error e
          | Except.ok _ =>
            let b := S.sqlite3_backup_init dest_connection source_connection w2.cn.db
            let w3 := record (Event.sqlite3_backup_init dest_connection source_connection) b.1 w2
            match b.2 with
            | none =>
              match viaPointer "sqlite3_errmsg" w3 with
              | Except.error e => Except.error e
              | Except.ok _ =>
                (atExit (record (Event.sqlite3_errmsg dest_connection) w3.cn.db w3)).map some
            | some backup =>
              match backupLoop S task_id backup fuel w3 with
              | Except.error e => Except.error e
              | Except.ok none => Except.ok none
              | Except.ok (some r) =>
                match viaPointer "sqlite3_backup_finish" r.2 with
                | Except.error e => Except.error e
                | Except.ok _ =>
                  (atExit (record (Event.sqlite3_backup_finish backup)
                    (S.sqlite3_backup_finish backup r.2.cn.db) r.2)).map some

end backup

/-- The state of the files for the backup primitive of a healthy source: how
many connections were opened and how many pages are copied. -/
structure BackupState where
  opened : Nat
  copied : Nat
  deriving DecidableEq, Repr

/-- A backup primitive for a source of `N` pages that is not modified: every
database opens, a step copies the pages asked for or those that remain, and
returns `SQLITE_DONE` on the step that copies the last page. -/
def idealSqlite (N : Nat) : Sqlite3 BackupState where
  sqlite3_open := fun _ s => (⟨s.opened + 1, s.copied⟩, 0, some (s.opened + 1))
  sqlite3_close := fun _ s => s
  sqlite3_backup_init := fun _ _ s => (⟨s.opened, 0⟩, some 1)
  sqlite3_backup_step := fun _ pages s =>
    (⟨s.opened, min N (s.copied + pages.toNat)⟩,
     if min N (s.copied + pages.toNat) = N then SQLITE_DONE else SQLITE_OK)
  sqlite3_backup_pagecount := fun _ _ => N
  sqlite3_backup_remaining := fun _ s => (N : Int) - s.copied
  sqlite3_backup_finish := fun _ s => s

/-- A world for a backup: nothing recorded, every symbol resolved. -/
def backupWorld : World BackupState where
  cn := ⟨⟨0, 0⟩, [], []⟩
  log := []
  nextTaskId := 1
  directoryExists := true
  registry := []
  statics := loadedStatics

/-- The contract of the backup primitive for a source of `N` pages that is not
modified, with `copied` the number of pages a state has copied: the two
databases open and the backup object is made, with no page copied yet; a step
of 16 takes no page back, copies at most 16 pages and at least one while
pages remain, never more than `N` in all; it returns `SQLITE_DONE` when the last page is copied
and `SQLITE_OK` before; the page count is `N` and the remaining count is what
is left. -/
structure IdealBackup {σ : Type} (S : Sqlite3 σ) (copied : σ → Nat) (N : Nat) : Prop where
  open_ok : ∀ f st, (S.sqlite3_open f st).2.1 = 0
  init_ok : ∀ d s st, (S.sqlite3_backup_init d s st).2 ≠ none
  init_copied : ∀ d s st, copied (S.sqlite3_backup_init d s st).1 = 0
  step_least : ∀ b st, copied st ≤ N → copied st ≤ copied (S.sqlite3_backup_step b 16 st).1
  step_most : ∀ b st, copied (S.sqlite3_backup_step b 16 st).1 ≤ copied st + 16
  step_bound : ∀ b st, copied (S.sqlite3_backup_step b 16 st).1 ≤ N
  step_advances : ∀ b st, copied st < N → copied st < copied (S.sqlite3_backup_step b 16 st).1
  step_code : ∀ b st, (S.sqlite3_backup_step b 16 st).2
      = if copied (S.sqlite3_backup_step b 16 st).1 = N then SQLITE_DONE else SQLITE_OK
  pagecount : ∀ b st, S.sqlite3_backup_pagecount b st = N
  remaining : ∀ b st, S.sqlite3_backup_remaining b st = (N : Int) - copied st

/-- The calls of one round of the copy loop that reports `c` of `N` pages. -/
def roundEvents (task_id : Int) (backup : Nat) (N : Nat) (c : Nat) : List Event :=
  [Event.sqlite3_backup_step backup 16, Event.sqlite3_backup_pagecount backup,
   Event.sqlite3_backup_remaining backup, Event.setTaskProgress task_id c N]

/-! ## `Database::Connect` and `Database::DoBackup` -/

/-- Constant `Database::kDatabaseFilename`. -/
def kDatabaseFilename : String := "clementine.db"

/-- The actions `Connect` issues itself, outside the migration: the opening of
the database, the registration of the tokenizer and the attaching. -/
def DbAction.connects : DbAction → Bool
  | DbAction.openDatabase _ => true
  | DbAction.registerTokenizer => true
  | DbAction.attach _ _ => true
  | _ => false

section connect
variable {σ : Type}

/-- Lines 347-349: the name of the connection of a thread, the thread given by
the number its pointer is cast to. -/
def connectionName (D : DatabaseState) (thread : Nat) : String :=
  argInt D.connection_id_ ++ "_thread_" ++ decimal thread

/-- Qt keeps one handle per connection name: a handle registered under a name
takes the place of the one registered before. -/
def register (h : QSqlDatabase) (w : World σ) : World σ :=
  { w with registry := h :: w.registry.filter (fun g => g.connectionName != h.connectionName) }

/-- A call of `QSqlDatabase::open` on a database name, recorded in the trace. -/
def noteOpen (databaseName : String) (w : World σ) : World σ :=
  { w with cn := { w.cn with trace := w.cn.trace ++ [DbAction.openDatabase databaseName] } }

/-- Qt function `QSqlDatabase::database(connectionName)`: the handle registered
under the name, `none` when there is none (an invalid handle, which is not
open); a handle found closed is opened if it can be. -/
def QSqlDatabase.database (Q : QtEnv σ) (connectionName : String) (w : World σ) :
    Option QSqlDatabase × World σ :=
  match w.registry.find? (fun h => h.connectionName == connectionName) with
  | none => (none, w)
  | some h =>
    if h.isOpen then (some h, w)
    else
      match Q.openError h.databaseName w.cn.db with
      | none => (some { h with isOpen := true }, register { h with isOpen := true }
                  (noteOpen h.databaseName w))
      | some _ => (some h, noteOpen h.databaseName w)

/-- Lines 357-360: the database name set on a new handle. -/
def mainDatabaseName (D : DatabaseState) : String :=
  match D.injected_database_name_ with
  | some injected => injected
  | none => D.directory_ ++ "/" ++ kDatabaseFilename

/-- Lines 388-391: the file attached for an entry of `attached_databases_`. -/
def attachedFilename (D : DatabaseState) (kv : String × AttachedDatabase) : String :=
  match D.injected_database_name_ with
  | some injected => injected
  | none => kv.2.filename_

/-- The loop of lines 387-400 over the entries that remain; a statement that
fails is fatal (`qFatal`).  The statement takes effect when it is executed
with its two values bound. -/
def attachAll (E : SqlEngine σ) (D : DatabaseState) :
    List (String × AttachedDatabase) → Conn σ → Except String (Conn σ)
  | [], cn => Except.ok cn
  | kv :: rest, cn =>
    let r := issue E (DbAction.attach (attachedFilename D kv) kv.1) cn
    match r.2 with
    | some _ => Except.error ("Couldn't attach external database '" ++ kv.1 ++ "'")
    | none => attachAll E D rest r.1

/-- The query of lines 410-411 for an attached database. -/
def attachedTablesQuery (key : String) : String :=
  "SELECT ROWID FROM " ++ key ++ ".sqlite_master WHERE type='table'"

/-- The loop of lines 408-417 over the entries that remain: the schema of an
attached database without tables is run in a transaction. -/
def initAttached (E : SqlEngine σ) (D : DatabaseState) :
    List (String × AttachedDatabase) → Conn σ → Except String (Conn σ)
  | [], cn => Except.ok cn
  | kv :: rest, cn =>
    let cn1 := noteSelect (attachedTablesQuery kv.1) cn
    let found := match E.sqliteMaster kv.1 cn1.db with
      | some rows => rows.any (fun row => row.1 == "table")
      | none => false
    if !found then
      match ExecFromFile E D kv.2.schema_ 0 (ScopedTransaction E cn1) with
      | Except.error e => Except.error e
      | Except.ok cn2 => initAttached E D rest (ScopedTransaction.Commit E cn2)
    else initAttached E D rest cn1

/-- Lines 355-419 of `Database::Connect`: a new handle is registered under the
connection name, named, opened and set up. -/
def connectNew (E : SqlEngine σ) (Q : QtEnv σ) (D : DatabaseState) (connection_id : String)
    (w : World σ) : Except String (QSqlDatabase × DatabaseState × World σ) :=
  let db0 : QSqlDatabase := ⟨connection_id, mainDatabaseName D, false⟩
  let w1 := noteOpen db0.databaseName w
  match Q.openError db0.databaseName w.cn.db with
  | some text => Except.ok (db0, D, AddError ("Database: " ++ text) (register db0 w1))
  | none =>
    let db : QSqlDatabase := { db0 with isOpen := true }
    let w2 : World σ := { register db w1 with statics := StaticInit Q w1.statics }
    let cn3 := (issue E DbAction.registerTokenizer w2.cn).1
    match (if (E.tables cn3.db).length = 0 then UpdateDatabaseSchema E D 0 cn3
           else Except.ok cn3) with
    | Except.error e => Except.error e
    | Except.ok cn4 =>
      match attachAll E D D.attached_databases_ cn4 with
      | Except.error e => Except.error e
      | Except.ok cn5 =>
        match (if D.startup_schema_version_ = -1 then UpdateMainSchema E D cn5
               else Except.ok (D, cn5)) with
        | Except.error e => Except.error e
        | Except.ok (D1, cn6) =>
          match initAttached E D1 D1.attached_databases_ cn6 with
          | Except.error e => Except.error e
          | Except.ok cn7 => Except.ok (db, D1, { w2 with cn := cn7 })

/-- Lines 340-345: the directory is made when it does not exist; nothing is
done when that fails. -/
def makeDirectory (Q : QtEnv σ) (D : DatabaseState) (w : World σ) : World σ :=
  if !w.directoryExists then
    let w1 := { w with log := w.log ++ [Event.mkpath D.directory_] }
    if !Q.mkpath D.directory_ then w1 else { w1 with directoryExists := true }
  else w

/-- Function `Database::Connect`, lines 337-420, called on the thread `thread`:
the handle returned, the object, whose `startup_schema_version_` the migration
sets, and the world afterwards; `qFatal` is an error. -/
def Connect (E : SqlEngine σ) (Q : QtEnv σ) (D : DatabaseState) (thread : Nat) (w : World σ) :
    Except String (QSqlDatabase × DatabaseState × World σ) :=
  let w0 := makeDirectory Q D w
  let connection_id := connectionName D thread
  let found := QSqlDatabase.database Q connection_id w0
  match found.1 with
  | some db => if db.isOpen then Except.ok (db, D, found.2) else connectNew E Q D connection_id found.2
  | none => connectNew E Q D connection_id found.2

/-- Function `Database::DoBackup`, lines 640-650, with a bound on the rounds of
the copy loop (`none`: the bound was reached). -/
def DoBackup (E : SqlEngine σ) (S : Sqlite3 σ) (Q : QtEnv σ) (D : DatabaseState) (thread : Nat)
    (fuel : Nat) (w : World σ) : Except String (Option (DatabaseState × World σ)) :=
  match Connect E Q D thread w with
  | Except.error e => Except.error e
  | Except.ok (db, D1, w1) =>
    let r := IntegrityCheck Q db w1
    if r.1 then
      match BackupFile S Q db.databaseName fuel r.2 with
      | Except.error e => Except.error e
      | Except.ok none => Except.ok none
      | Except.ok (some w2) => Except.ok (some (D1, w2))
    else Except.ok (some (D1, r.2))

end connect

/-- The connection `cn2` continues `cn1` by actions of the migration only: none
of them opens, registers the tokenizer or attaches. -/
def QuietExt {σ : Type} (cn1 cn2 : Conn σ) : Prop :=
  ∃ l : List DbAction, cn2.trace = cn1.trace ++ l ∧ l.filter DbAction.connects = []

/-- A Qt environment in which the directory cannot be made; databases open. -/
def noDirectoryEnv {σ : Type} : QtEnv σ :=
  { (refQtEnv [] : QtEnv σ) with mkpath := fun _ => false }

/-- The constructor `Database::Database`, lines 314-335, up to its call of
`Connect`: the object for a configuration directory, the connection id drawn
from `sNextConnectionId` and the injected database name (`none` when null). -/
def construct (directory : String) (connection_id : Int) (database_name : Option String) :
    DatabaseState where
  attached_databases_ := [("jamendo", ⟨directory ++ "/jamendo.db", ":/schema/jamendo.sql"⟩)]
  injected_database_name_ := database_name
  startup_schema_version_ := -1
  directory_ := directory
  connection_id_ := connection_id

/-- A `Database` object constructed with the injected name `:memory:`. -/
def injectedDatabase : DatabaseState := construct "/config" 0 (some ":memory:")

/-- Every handle registered under a connection name of the object carries the
database name of the object, as the handles `Connect` registers do. -/
def NamedByObject {σ : Type} (D : DatabaseState) (w : World σ) : Prop :=
  ∀ h ∈ w.registry, ∀ thread : Nat,
    h.connectionName = connectionName D thread → h.databaseName = mainDatabaseName D

/-- A SQLite library in which no database can be opened (`SQLITE_CANTOPEN`). -/
def closedSqlite {σ : Type} : Sqlite3 σ where
  sqlite3_open := fun _ s => (s, 14, none)
  sqlite3_close := fun _ s => s
  sqlite3_backup_init := fun _ _ s => (s, none)
  sqlite3_backup_step := fun _ _ s => (s, 1)
  sqlite3_backup_pagecount := fun _ _ => 0
  sqlite3_backup_remaining := fun _ _ => 0
  sqlite3_backup_finish := fun _ s => s

/-! ## The predicates compared for `SongsTables` -/

/-- The predicate `name LIKE '%songs'` alone, on a row `(type, name)` of
`sqlite_master`; stated from the words of the claim, to be compared with
`songsWhere`. -/
def songsWhereLikeOnly (row : String × String) : Bool := likeSongs row.2

/-- The reference engine with one script for every resource: a statement with
the magic value, then `bump`. -/
def fanOutEngine : SqlEngine (Option Int) :=
  { refEngine with resource := fun _ => some "ALTER TABLE %allsongstables ADD x;\n\nbump" }

/-- The connection on which `UpdateDatabaseSchema` hands the script of a version
to `ExecCommands`: the transaction is open, the file names are rewritten when
the version is 31, and the resource of the script is opened. -/
def stepStart {σ : Type} (E : SqlEngine σ) (version : Int) (cn : Conn σ) : Conn σ :=
  let t := ScopedTransaction E cn
  let cn1 := if version = 31 then urlEncodeAll E t else t
  { cn1 with trace := cn1.trace ++ [DbAction.openResource (schemaFilename version)] }

/-! ## The rewriting of file names, on the content of a table -/

/-- The text of the `UPDATE` of line 506 for a table. -/
def updateFilenameSql (table : String) : String :=
  "UPDATE " ++ table ++ " SET filename=:filename WHERE ROWID=:id"

/-- What SQL says of the two statements of `UrlEncodeFilenameColumn` on a
table, with `content` the rows `(ROWID, filename)` of the table in a state of
the database: the `SELECT` returns them, and the `UPDATE` gives the bound file
name to the row with the bound id and leaves the other rows. -/
structure FilenameTable {σ : Type} (E : SqlEngine σ) (table : String)
    (content : σ → List (Int × String)) : Prop where
  select : ∀ s, E.filenameRows table s = Except.ok (content s)
  update : ∀ s filename rowid,
    content (E.run (DbAction.update (updateFilenameSql table) filename rowid) s).1
      = (content s).map (fun row => if row.1 = rowid then (row.1, filename) else row)

/-- What the rewriting makes of a row: a row whose file name is empty or
contains `://` is left, every other row gets the encoded URL of its file
name. -/
def encodeRow {σ : Type} (E : SqlEngine σ) (row : Int × String) : Int × String :=
  if row.2.isEmpty || qContains row.2 "://" then row else (row.1, E.fromLocalFile row.2)

/-- Qt function `QUrl::fromLocalFile(f).toEncoded()` for a file name without
characters to escape, drive letter or host: the scheme `file:`, then `//` when
the path starts with `/` (only then is the authority of a `file` URL
written), then the path.  So `/music/a.mp3` gives `file:///music/a.mp3` and
`music/a.mp3` gives `file:music/a.mp3`. -/
def qtFromLocalFile (f : String) : String :=
  if qStartsWith f "/" then "file://" ++ f else "file:" ++ f

/-- An engine whose state is the content of its one table, a list of rows
`(ROWID, filename)`: the `SELECT` returns it, the bound `UPDATE` rewrites the
row with the id, nothing else changes it and nothing fails. -/
def tableEngine : SqlEngine (List (Int × String)) where
  versionRows := fun _ => []
  tables := fun _ => ["songs"]
  sqliteMaster := fun _ _ => some []
  filenameRows := fun _ s => Except.ok s
  run := fun a s =>
    (match a with
     | DbAction.update _ filename rowid =>
       s.map (fun row => if row.1 = rowid then (row.1, filename) else row)
     | _ => s, none)
  resource := fun _ => none
  fromLocalFile := qtFromLocalFile

/-! ## Traces and the states they leave -/

/-- Whether the engine runs an action: a query that reads and the opening of a
resource or of a database are recorded only. -/
def DbAction.issued : DbAction → Bool
  | DbAction.select _ => false
  | DbAction.openResource _ => false
  | DbAction.openDatabase _ => false
  | _ => true

/-- The state of the database after a list of actions. -/
def replay {σ : Type} (E : SqlEngine σ) (l : List DbAction) (db : σ) : σ :=
  l.foldl (fun s a => if a.issued then (E.run a s).1 else s) db

/-- The connection `cn2` continues `cn1` by actions that all satisfy `P`, and
its database is in the state these actions leave. -/
def Ext {σ : Type} (E : SqlEngine σ) (P : DbAction → Prop) (cn1 cn2 : Conn σ) : Prop :=
  ∃ l : List DbAction, cn2.trace = cn1.trace ++ l ∧ cn2.db = replay E l cn1.db ∧ ∀ a ∈ l, P a

/-- The query of line 505 for a table. -/
def filenameQuery (table : String) : String := "SELECT ROWID, filename FROM " ++ table

/-- The query of line 426. -/
def kVersionQuery : String := "SELECT version FROM schema_version"

/-- The actions a version step or a run of a script is made of: transaction
calls, statements, the bound `UPDATE`, the opening of a script, the query of
`SongsTables` and the query of `UrlEncodeFilenameColumn`. -/
def StepAction (a : DbAction) : Prop :=
  a = DbAction.transaction ∨ a = DbAction.commit ∨ (∃ sql, a = DbAction.exec sql)
  ∨ (∃ sql filename rowid, a = DbAction.update sql filename rowid)
  ∨ (∃ filename, a = DbAction.openResource filename)
  ∨ (∃ key, a = DbAction.select (attachedQuery key))
  ∨ (∃ table, a = DbAction.select (filenameQuery table))

/-- The actions of the loop of lines 408-417: those of a run of a script and the
query for the tables of an attached database. -/
def BootAction (a : DbAction) : Prop :=
  StepAction a ∨ ∃ key, a = DbAction.select (attachedTablesQuery key)

/-! ## The shape of the rewriting of file names -/

/-- The trace of `UrlEncodeFilenameColumn` on a table: its query, then bound
`UPDATE`s of that table. -/
def RewriteShape (table : String) (seg : List DbAction) : Prop :=
  ∃ ups, seg = DbAction.select (filenameQuery table) :: ups
    ∧ ∀ a ∈ ups, ∃ filename rowid, a = DbAction.update (updateFilenameSql table) filename rowid

/-- The actions of the rewriting of file names: the query of
`UrlEncodeFilenameColumn` and a bound `UPDATE`. -/
def RewriteAction (a : DbAction) : Prop :=
  (∃ table, a = DbAction.select (filenameQuery table))
  ∨ ∃ sql filename rowid, a = DbAction.update sql filename rowid

/-- The tables of a list whose name starts with `device_` and ends with
`_songs`, in the order of the list. -/
def deviceSongsTables (tables : List String) : List String :=
  tables.filter (fun table => qStartsWith table "device_" && qEndsWith table "_songs")

/-- The engine `tableEngine` with three tables, one of them a device table, and
the script `bump` for every resource. -/
def deviceEngine : SqlEngine (List (Int × String)) :=
  { tableEngine with
    tables := fun _ => ["devices", "device_1_songs", "songs"],
    resource := fun _ => some "bump" }

/-! ## Sequences of calls on one `Database` object -/

/-- What happens to a `Database` object from outside: `Connect` is called on a
thread, or the connections Qt has registered are changed (removed, closed) to
the given ones. -/
inductive Call
  | connect (thread : Nat)
  | invalidate (registry : List QSqlDatabase)
  deriving DecidableEq, Repr

/-- A sequence of calls on one object, from the object and the world it starts
in; `qFatal` ends it. -/
def runCalls {σ : Type} (E : SqlEngine σ) (Q : QtEnv σ) :
    List Call → DatabaseState × World σ → Except String (DatabaseState × World σ)
  | [], s => Except.ok s
  | Call.connect thread :: rest, s =>
    match Connect E Q s.1 thread s.2 with
    | Except.error e => Except.error e
    | Except.ok r => runCalls E Q rest (r.2.1, r.2.2)
  | Call.invalidate registry :: rest, s =>
    runCalls E Q rest (s.1, { s.2 with registry := registry })

/-- How often the version query, the first thing `UpdateMainSchema` does, is in
a trace. -/
def versionQueries (t : List DbAction) : Nat := t.count (DbAction.select kVersionQuery)

/-- The reference engine with a main database and attached databases that have
tables: nothing is created or bootstrapped on connecting. -/
def populatedEngine : SqlEngine (Option Int) :=
  { refEngine with
    tables := fun _ => ["schema_version", "songs"],
    sqliteMaster := fun _ _ => some [("table", "songs")] }

/-- An engine like `populatedEngine` whose state is the recorded version, a
natural number. -/
def countingEngine : SqlEngine Nat where
  versionRows := fun s => [(s : Int)]
  tables := fun _ => ["schema_version", "songs"]
  sqliteMaster := fun _ _ => some [("table", "songs")]
  filenameRows := fun _ _ => Except.ok []
  run := fun a s =>
    (match a with
     | DbAction.exec "bump" => s + 1
     | _ => s, none)
  resource := fun _ => some "bump"
  fromLocalFile := fun f => "file://" ++ f

/-- A world at the start, for any engine: nothing recorded, no connection
registered, no static member initialised, the directory present. -/
def startWorld {σ : Type} (db : σ) : World σ where
  cn := ⟨db, [], []⟩
  log := []
  nextTaskId := 1
  directoryExists := true
  registry := []
  statics := ⟨false, false, false, []⟩

/-! ## `Database::RecreateAttachedDb` -/

/-- How a call of `RecreateAttachedDb` ended: at the `return` of line 446 (the
alias is not declared), at that of line 460 (the `DETACH` failed), or at the
end of the function. -/
inductive Recreated
  | notDeclared
  | detachFailed
  | detached
  deriving DecidableEq, Repr

/-- Function `Database::RecreateAttachedDb`, lines 443-473, called on the
thread `thread`.  The file removed is the declared one; a statement on a handle
that is not open fails; whether the removal succeeded changes nothing in what
the function does next.  At the end every connection Qt has registered is
removed. -/
def RecreateAttachedDb {σ : Type} (E : SqlEngine σ) (Q : QtEnv σ) (D : DatabaseState)
    (database_name : String) (thread : Nat) (w : World σ) :
    Except String (Recreated × DatabaseState × World σ) :=
  match D.attached_databases_.lookup database_name with
  | none => Except.ok (Recreated.notDeclared, D, w)
  | some entry =>
    match Connect E Q D thread w with
    | Except.error e => Except.error e
    | Except.ok (db, D1, w1) =>
      if !db.isOpen then Except.ok (Recreated.detachFailed, D1, w1)
      else
        let r := issue E (DbAction.detach database_name) w1.cn
        match r.2 with
        | some _ => Except.ok (Recreated.detachFailed, D1, { w1 with cn := r.1 })
        | none =>
          let cn2 : Conn σ := { r.1 with db := Q.removeFile entry.filename_ r.1.db }
          Except.ok (Recreated.detached, D1,
            { w1 with cn := cn2, log := w1.log ++ [Event.removeFile entry.filename_],
                      registry := [] })

/-- Whether the query of lines 410-411 finds a table in an attached database
(`q.exec() && q.next()`). -/
def hasTables {σ : Type} (E : SqlEngine σ) (key : String) (db : σ) : Bool :=
  match E.sqliteMaster key db with
  | some rows => rows.any (fun row => row.1 == "table")
  | none => false

/-- An engine whose state is the version the main database records and the
tables in the file of the attached database: the script of the attached
database creates the table `songs` there, every other script raises the
version. -/
def fileEngine : SqlEngine (Int × List String) where
  versionRows := fun s => [s.1]
  tables := fun _ => ["schema_version", "songs"]
  sqliteMaster := fun _ s => some (s.2.map (fun table => ("table", table)))
  filenameRows := fun _ _ => Except.ok []
  run := fun a s =>
    (match a with
     | DbAction.exec "bump" => (s.1 + 1, s.2)
     | DbAction.exec "CREATE TABLE jamendo.songs" => (s.1, ["songs"])
     | _ => s, none)
  resource := fun f =>
    if f = ":/schema/jamendo.sql" then some "CREATE TABLE jamendo.songs" else some "bump"
  fromLocalFile := fun f => "file://" ++ f

/-- A Qt environment in which the removal of the file of the attached database
leaves it without tables. -/
def fileQtEnv : QtEnv (Int × List String) :=
  { (refQtEnv [] : QtEnv (Int × List String)) with
    removeFile := fun f s => if f = "/jamendo.db" then (s.1, []) else s }

/-- A world in which thread 7 has an open connection of the reference object:
the main database at the current version, the attached one with its table. -/
def cachedWorld : World (Int × List String) :=
  { startWorld ((43 : Int), ["songs"]) with
    registry := [⟨connectionName refDatabase 7, mainDatabaseName refDatabase, true⟩] }

/-- A Qt environment of a build without static SQLite in which the library
loads and lacks one symbol, `sqlite3_user_data`; the integrity pragma returns
the row `ok`. -/
def partialEnv {σ : Type} : QtEnv σ :=
  { (refQtEnv ["ok"] : QtEnv σ) with
    haveStaticSqlite := false,
    resolves := fun symbol => symbol != "sqlite3_user_data" }

/-- A Qt environment of a build without static SQLite in which the library
does not load; the integrity pragma returns the row `ok`. -/
def noLibraryEnv {σ : Type} : QtEnv σ :=
  { (refQtEnv ["ok"] : QtEnv σ) with haveStaticSqlite := false, libraryLoads := false }

end Database

/-! # `CommandlineOptions` -/

/-- A `QUrl`, given by its encoded form, which is what `QDataStream` carries
and what `QUrl::operator==` compares. -/
structure QUrl where
  encoded : String
  deriving DecidableEq, Repr

/-- The members of a `CommandlineOptions` object as `commandlineoptions.cpp`
uses them.  `argv_` is the array the pointer points to, `none` for a `NULL`
entry; the two actions are given by the values of their enumerators. -/
structure CommandlineOptions where
  argc_ : Int
  argv_ : List (Option String)
  url_list_action_ : Int
  player_action_ : Int
  set_volume_ : Int
  volume_modifier_ : Int
  seek_to_ : Int
  seek_by_ : Int
  play_track_at_ : Int
  show_osd_ : Bool
  toggle_pretty_osd_ : Bool
  urls_ : List QUrl
  language_ : String
  log_levels_ : String
  deriving DecidableEq, Repr

namespace CommandlineOptions

/-- The arguments of the object: the first `argc_` entries of `argv_`. -/
def args (a : CommandlineOptions) : List (Option String) := a.argv_.take a.argc_.toNat

/-- The loop of lines 92-94 with the loop variable at `j` and `rounds` rounds
left to run: `argv_[j] = argv_[j+count]`. -/
def shiftArgs (count : Int) : Nat → Nat → List (Option String) → List (Option String)
  | 0, _, argv => argv
  | rounds + 1, j, argv =>
    shiftArgs count rounds (j + 1) (argv.set j (argv.getD ((j : Int) + count).toNat none))

/-- Function `CommandlineOptions::RemoveArg`, lines 88-99.  The outer loop stops
at the first `i < argc_` whose argument starts with `starts_with`; the inner
loop then runs for `j = i, …, argc_ - count`. -/
def RemoveArg (starts_with : String) (count : Int) (a : CommandlineOptions) :
    CommandlineOptions :=
  match (List.range a.argc_.toNat).find?
      (fun i => Database.qStartsWith ((a.argv_.getD i none).getD "") starts_with) with
  | none => a
  | some i =>
    { a with
      argv_ := shiftArgs count (a.argc_ - count + 1 - (i : Int)).toNat i a.argv_,
      argc_ := a.argc_ - count }

/-- The constructor, lines 65-86, for the arguments of `main`; `darwin` says
whether `Q_OS_DARWIN` is defined, `kDefaultLogLevels` is the constant of
`core/logging.h`.  `UrlList_Append` and `Player_None` are the first
enumerators of their types. -/
def construct (darwin : Bool) (kDefaultLogLevels : String) (argc : Int)
    (argv : List (Option String)) : CommandlineOptions :=
  let a : CommandlineOptions :=
    { argc_ := argc, argv_ := argv, url_list_action_ := 0, player_action_ := 0,
      set_volume_ := -1, volume_modifier_ := 0, seek_to_ := -1, seek_by_ := 0,
      play_track_at_ := -1, show_osd_ := false, toggle_pretty_osd_ := false,
      urls_ := [], language_ := "", log_levels_ := kDefaultLogLevels }
  let a1 := if darwin then RemoveArg "-psn" 1 a else a
  RemoveArg "-session" 2 a1

/-- The vector of `main` for the given arguments: the arguments followed by the
`NULL` entry `argv[argc]`. -/
def mainVector (arguments : List String) : List (Option String) :=
  arguments.map some ++ [none]

end CommandlineOptions

/-- The operators of `QDataStream` that lines 269-303 use, as functions on the
content of the buffer (a list of numbers; bytes, for Qt).  A read from a buffer
that is too short is whatever Qt makes of it. -/
structure QDataStream where
  writeInt32 : Int → List Nat
  readInt32 : List Nat → Int × List Nat
  readUInt32 : List Nat → Nat × List Nat
  writeBool : Bool → List Nat
  readBool : List Nat → Bool × List Nat
  writeString : String → List Nat
  readString : List Nat → String × List Nat
  writeUrls : List QUrl → List Nat
  readUrls : List Nat → List QUrl × List Nat

/-- What Qt guarantees of the operators: a value written is read back and the
rest of the buffer is left, and reading a `quint32` where a `qint32` was
written gives the same 32 bits.  Sizes are those of Qt: a `qint32` lies in its
range, a string or a list has fewer than `2^31` elements. -/
structure QDataStream.Lawful (S : QDataStream) : Prop where
  readInt32_write : ∀ v rest, -2147483648 ≤ v → v ≤ 2147483647 →
    S.readInt32 (S.writeInt32 v ++ rest) = (v, rest)
  readUInt32_write : ∀ v rest, -2147483648 ≤ v → v ≤ 2147483647 →
    S.readUInt32 (S.writeInt32 v ++ rest) = ((v % 4294967296).toNat, rest)
  readBool_write : ∀ b rest, S.readBool (S.writeBool b ++ rest) = (b, rest)
  readString_write : ∀ s rest, s.length < 2147483648 →
    S.readString (S.writeString s ++ rest) = (s, rest)
  readUrls_write : ∀ l rest, l.length < 2147483648 →
    (∀ u ∈ l, u.encoded.length < 2147483648) →
    S.readUrls (S.writeUrls l ++ rest) = (l, rest)

namespace CommandlineOptions

/-- The operator `operator<<` of lines 269-283: what it appends to the stream. -/
def write (S : QDataStream) (a : CommandlineOptions) : List Nat :=
  S.writeInt32 a.player_action_
    ++ S.writeInt32 a.url_list_action_
    ++ S.writeInt32 a.set_volume_
    ++ S.writeInt32 a.volume_modifier_
    ++ S.writeInt32 a.seek_to_
    ++ S.writeInt32 a.seek_by_
    ++ S.writeInt32 a.play_track_at_
    ++ S.writeBool a.show_osd_
    ++ S.writeUrls a.urls_
    ++ S.writeString a.log_levels_
    ++ S.writeBool a.toggle_pretty_osd_

/-- The operator `operator>>` of lines 285-303 on the content `s` of the
stream: the object after the reads, and what is left of the stream.  The two
actions are read as `quint32` and converted to their enumerations. -/
def read (S : QDataStream) (s : List Nat) (a : CommandlineOptions) :
    CommandlineOptions × List Nat :=
  let player_action := S.readUInt32 s
  let url_list_action := S.readUInt32 player_action.2
  let set_volume := S.readInt32 url_list_action.2
  let volume_modifier := S.readInt32 set_volume.2
  let seek_to := S.readInt32 volume_modifier.2
  let seek_by := S.readInt32 seek_to.2
  let play_track_at := S.readInt32 seek_by.2
  let show_osd := S.readBool play_track_at.2
  let urls := S.readUrls show_osd.2
  let log_levels := S.readString urls.2
  let toggle_pretty_osd := S.readBool log_levels.2
  ({ a with
     set_volume_ := set_volume.1, volume_modifier_ := volume_modifier.1,
     seek_to_ := seek_to.1, seek_by_ := seek_by.1, play_track_at_ := play_track_at.1,
     show_osd_ := show_osd.1, urls_ := urls.1, log_levels_ := log_levels.1,
     toggle_pretty_osd_ := toggle_pretty_osd.1,
     player_action_ := (player_action.1 : Int),
     url_list_action_ := (url_list_action.1 : Int) },
   toggle_pretty_osd.2)

/-- Function `CommandlineOptions::Serialize`, lines 245-254: the content of a
buffer the object was written to. -/
def Serialize (S : QDataStream) (a : CommandlineOptions) : List Nat := write S a

/-- Function `CommandlineOptions::Load`, lines 256-263. -/
def Load (S : QDataStream) (serialized : List Nat) (b : CommandlineOptions) :
    CommandlineOptions :=
  (read S serialized b).1

/-- The values of the members lie in the ranges of their types: the `int`
members in that of a 32-bit integer, the actions among the values of
enumerators, which are not negative, the string and the list within the sizes
of Qt. -/
structure InRange (a : CommandlineOptions) : Prop where
  player_action : 0 ≤ a.player_action_ ∧ a.player_action_ ≤ 2147483647
  url_list_action : 0 ≤ a.url_list_action_ ∧ a.url_list_action_ ≤ 2147483647
  set_volume : -2147483648 ≤ a.set_volume_ ∧ a.set_volume_ ≤ 2147483647
  volume_modifier : -2147483648 ≤ a.volume_modifier_ ∧ a.volume_modifier_ ≤ 2147483647
  seek_to : -2147483648 ≤ a.seek_to_ ∧ a.seek_to_ ≤ 2147483647
  seek_by : -2147483648 ≤ a.seek_by_ ∧ a.seek_by_ ≤ 2147483647
  play_track_at : -2147483648 ≤ a.play_track_at_ ∧ a.play_track_at_ ≤ 2147483647
  log_levels : a.log_levels_.length < 2147483648
  urls : a.urls_.length < 2147483648 ∧ ∀ u ∈ a.urls_, u.encoded.length < 2147483648

end CommandlineOptions

/-- Reading `n` values one after the other. -/
def readMany {α : Type} (readOne : List Nat → α × List Nat) :
    Nat → List Nat → List α × List Nat
  | 0, s => ([], s)
  | n + 1, s =>
    let r := readOne s
    let rs := readMany readOne n r.2
    (r.1 :: rs.1, rs.2)

/-- A string of the reference stream: its length and its characters. -/
def refWriteString (s : String) : List Nat := s.length :: s.data.map Char.toNat

/-- Reading a string of the reference stream. -/
def refReadString : List Nat → String × List Nat
  | [] => ("", [])
  | n :: rest => (String.mk ((rest.take n).map Char.ofNat), rest.drop n)

/-- A reference stream for running `Serialize` and `Load` on explicit values:
it writes one number where Qt writes the bytes of a value, a `qint32` as its 32
bits, a string as its length and characters, a list as its length and
elements. -/
def refStream : QDataStream where
  writeInt32 := fun v => [(v % 4294967296).toNat]
  readInt32 := fun s =>
    match s with
    | [] => (0, [])
    | u :: rest => (if u < 2147483648 then (u : Int) else (u : Int) - 4294967296, rest)
  readUInt32 := fun s =>
    match s with
    | [] => (0, [])
    | u :: rest => (u, rest)
  writeBool := fun b => [if b then 1 else 0]
  readBool := fun s =>
    match s with
    | [] => (false, [])
    | u :: rest => (u != 0, rest)
  writeString := refWriteString
  readString := refReadString
  writeUrls := fun l => l.length :: l.flatMap (fun u => refWriteString u.encoded)
  readUrls := fun s =>
    match s with
    | [] => ([], [])
    | n :: rest => readMany (fun r => (QUrl.mk (refReadString r).1, (refReadString r).2)) n rest

/-! # `MtpLister` -/

/-- A raw device as `LIBMTP_Detect_Raw_Devices` reports it, with the serial
number `LIBMTP_Get_Serialnumber` reads from it once it is opened. -/
structure RawDevice where
  vendor_id : Nat
  product_id : Nat
  serialnbr : String
  deriving DecidableEq, Repr

/-- The members of an `MtpLister` object that `refreshInternalList` reads or
writes: the list `ids` and the map `devices`, as its entries, each id with the
raw device its information was taken from. -/
structure MtpLister where
  ids : List String
  devices : List (String × RawDevice)
  deriving DecidableEq, Repr

namespace MtpLister

/-- The signals `refreshInternalList` emits. -/
inductive Signal
  | DeviceAdded (id : String)
  | DeviceRemoved (id : String)
  deriving DecidableEq, Repr

/-- Line 134: the id of a device, `vendor/product/serial`. -/
def deviceId (d : RawDevice) : String :=
  Database.decimal d.vendor_id ++ "/" ++ Database.decimal d.product_id ++ "/" ++ d.serialnbr

/-- Qt function `QStringList::removeDuplicates`: the first occurrence of every
string is kept, in order. -/
def removeDuplicates (l : List String) : List String :=
  l.foldl (fun acc x => if acc.contains x then acc else acc ++ [x]) []

/-- Qt function `QStringList::removeAll(id)`. -/
def removeAll (l : List String) (id : String) : List String :=
  l.filter (fun x => x != id)

/-- The body of the loop of lines 126-151 for one raw device: its id is
appended to `newList` and it is entered in `devices` unless its id is a key
already. -/
def scanDevice (acc : List String × List (String × RawDevice)) (d : RawDevice) :
    List String × List (String × RawDevice) :=
  (acc.1 ++ [deviceId d],
   if (acc.2.map Prod.fst).contains (deviceId d) then acc.2 else acc.2 ++ [(deviceId d, d)])

/-- Function `MtpLister::refreshInternalList`, lines 121-168, for the raw
devices found: the signals emitted, in order, and the object afterwards. -/
def refreshInternalList (rawdevices : List RawDevice) (m : MtpLister) :
    List Signal × MtpLister :=
  let oldList := m.ids
  let scanned := rawdevices.foldl scanDevice ([], m.devices)
  let newList := removeDuplicates scanned.1
  let ids := newList
  let oldList1 := newList.foldl removeAll oldList
  let newList1 := oldList1.foldl removeAll newList
  let devices := oldList1.foldl (fun ds id => ds.filter (fun e => e.1 != id)) scanned.2
  (newList1.map Signal.DeviceAdded ++ oldList1.map Signal.DeviceRemoved, ⟨ids, devices⟩)

end MtpLister

namespace Database

/-! # Theorems -/

/-! ## The tokenizer loop as a fold -/

theorem ftsStep_false (U : QtUnicode) (c : Nat) (st : Cursor) :
    ftsStep U c false st = body U st c := by
  simp [ftsStep, body]

theorem ftsStep_true (U : QtUnicode) (c : Nat) (st : Cursor) :
    ftsStep U c true st = flush (body U st c) := by
  simp [ftsStep, body]

/-- On a non-empty string the loop is a left fold of `body` followed by one
flush. -/
theorem ftsLoop_cons (U : QtUnicode) (c : Nat) (s : List Nat) (st : Cursor) :
    ftsLoop U (c :: s) st = flush ((c :: s).foldl (body U) st) := by
  induction s generalizing c st with
  | nil => simp [ftsLoop, ftsStep_true]
  | cons d s ih =>
    have h := ih d (body U st c)
    simp only [List.foldl_cons] at h ⊢
    rw [← h]
    simp [ftsLoop, ftsStep_false]

/-- From the initial cursor the loop is a fold followed by a flush, also on the
empty string. -/
theorem ftsLoop_init (U : QtUnicode) (s : List Nat) :
    ftsLoop U s ⟨[], [], 0, 0⟩ = flush (s.foldl (body U) ⟨[], [], 0, 0⟩) := by
  cases s with
  | nil => simp [ftsLoop, flush]
  | cons c s => exact ftsLoop_cons U c s _

theorem advance_pos (c : Nat) : 1 ≤ advance c := by
  unfold advance
  split_ifs <;> omega

theorem advance_le (c : Nat) : advance c ≤ 3 := by
  unfold advance
  split_ifs <;> omega

theorem body_offset (U : QtUnicode) (st : Cursor) (c : Nat) :
    (body U st c).offset = st.offset + advance c := by
  unfold body classify
  split_ifs <;> rfl

theorem foldl_body_offset (U : QtUnicode) (s : List Nat) (st : Cursor) :
    (s.foldl (body U) st).offset = st.offset + codedLength s := by
  induction s generalizing st with
  | nil => simp [codedLength]
  | cons c s ih =>
    simp only [List.foldl_cons, ih, body_offset, codedLength, List.map_cons, List.sum_cons]
    omega

theorem flush_offset (st : Cursor) : (flush st).offset = st.offset := by
  unfold flush
  split_ifs <;> rfl

theorem ordered_init : Ordered ⟨[], [], 0, 0⟩ :=
  ⟨List.Pairwise.nil, by simp, le_refl _, by simp⟩

theorem ordered_body {U : QtUnicode} {st : Cursor} (h : Ordered st) (c : Nat) :
    Ordered (body U st c) := by
  have hc := advance_pos c
  obtain ⟨hp, he, hs, hr⟩ := h
  unfold Database.body classify
  by_cases hl : U.isLetterOrNumber c = true
  · simp only [hl, Bool.not_true, Bool.false_eq_true, if_false]
    refine ⟨hp, he, hs, ?_⟩
    simp only [List.length_append, List.length_singleton, Nat.cast_add, Nat.cast_one]
    omega
  · simp only [hl, Bool.not_false, if_true]
    by_cases ht : st.token.length = 0
    · simp only [ht, ne_eq, not_true_eq_false, if_false]
      refine ⟨hp, ?_, by dsimp only; omega, ?_⟩
      · intro t htm
        have := he t htm
        simp only
        omega
      · simp only [ht, Nat.cast_zero] at hr ⊢
        omega
    · simp only [ht, ne_eq, not_false_eq_true, if_true]
      have hpos : (1 : Int) ≤ st.token.length := by
        have : 1 ≤ st.token.length := Nat.one_le_iff_ne_zero.mpr ht
        exact_mod_cast this
      refine ⟨?_, ?_, by dsimp only; omega, by simp⟩
      · rw [List.pairwise_append]
        refine ⟨hp, List.pairwise_singleton _ _, ?_⟩
        intro a ha b hb
        simp only [List.mem_singleton] at hb
        subst hb
        exact (he a ha).2.2
      · intro t htm
        simp only [List.mem_append, List.mem_singleton] at htm
        rcases htm with htm | rfl
        · have := he t htm
          simp only
          omega
        · simp only
          omega

theorem ordered_foldl {U : QtUnicode} (s : List Nat) {st : Cursor} (h : Ordered st) :
    Ordered (s.foldl (Database.body U) st) := by
  induction s generalizing st with
  | nil => exact h
  | cons c s ih => exact ih (ordered_body h c)

/-- What the ordering invariant leaves after the final flush. -/
theorem ordered_flush {st : Cursor} (h : Ordered st) :
    (Database.flush st).tokens.Pairwise (fun a b => a.end_offset ≤ b.start_offset)
    ∧ ∀ t ∈ (Database.flush st).tokens,
        0 ≤ t.start_offset ∧ t.start_offset < t.end_offset ∧ t.end_offset ≤ st.offset := by
  obtain ⟨hp, he, hs, hr⟩ := h
  unfold Database.flush
  by_cases ht : st.token.length = 0
  · simp only [ht, ne_eq, not_true_eq_false, if_false]
    refine ⟨hp, ?_⟩
    intro t htm
    have := he t htm
    simp only [ht, Nat.cast_zero] at hr
    omega
  · simp only [ht, ne_eq, not_false_eq_true, if_true]
    have hpos : (1 : Int) ≤ st.token.length := by
      have : 1 ≤ st.token.length := Nat.one_le_iff_ne_zero.mpr ht
      exact_mod_cast this
    refine ⟨?_, ?_⟩
    · rw [List.pairwise_append]
      refine ⟨hp, List.pairwise_singleton _ _, ?_⟩
      intro a ha b hb
      simp only [List.mem_singleton] at hb
      subst hb
      exact (he a ha).2.2
    · intro t htm
      simp only [List.mem_append, List.mem_singleton] at htm
      rcases htm with htm | rfl
      · have := he t htm
        omega
      · simp only
        omega

/-- Every token list `FTSOpen` produces is ordered, and its offsets lie between
0 and the number of bytes the loop counted. -/
theorem FTSOpen_ordered (U : QtUnicode) (input : List Nat) :
    (FTSOpen U input).Pairwise (fun a b => a.end_offset ≤ b.start_offset)
    ∧ ∀ t ∈ FTSOpen U input,
        0 ≤ t.start_offset ∧ t.start_offset < t.end_offset
        ∧ t.end_offset ≤ codedLength (U.toLower (U.fromUtf8 input)) := by
  have h := ordered_flush (ordered_foldl (U := U) (U.toLower (U.fromUtf8 input)) ordered_init)
  rw [foldl_body_offset] at h
  simp only [zero_add] at h
  unfold FTSOpen
  rw [ftsLoop_init]
  exact h

/-! ## Runs of letters and numbers -/

theorem modifyHead_map {α β : Type} (f : α → β) (g : α → α) (g' : β → β)
    (h : ∀ a, f (g a) = g' (f a)) (l : List α) :
    (l.modifyHead g).map f = (l.map f).modifyHead g' := by
  cases l with
  | nil => rfl
  | cons a l => simp [h]

theorem modifyHead_self {α : Type} (l : List α) :
    l.modifyHead (fun r => r) = l := by
  cases l with
  | nil => rfl
  | cons a l => simp

/-- The texts of the tokens after the fold and the flush, from any cursor. -/
theorem texts_foldl (U : QtUnicode) (s : List Nat) (st : Cursor) :
    (flush (s.foldl (body U) st)).tokens.map Token.token
      = st.tokens.map Token.token
        ++ ((List.modifyHead (fun r => st.token ++ r)
              ((s.splitOnP (fun c => !U.isLetterOrNumber c)).map (List.map (pushed U)))).filter
            (fun r => !r.isEmpty)) := by
  induction s generalizing st with
  | nil =>
    simp only [List.foldl_nil, List.splitOnP_nil, List.map_cons, List.map_nil,
      List.modifyHead_cons, List.append_nil]
    unfold flush
    by_cases ht : st.token = []
    · simp [ht]
    · have : st.token.length ≠ 0 := by simpa using ht
      simp [this, ht]
  | cons c s ih =>
    rw [List.foldl_cons, ih, List.splitOnP_cons]
    by_cases hl : U.isLetterOrNumber c = true
    · have hb : body U st c
          = { st with token := st.token ++ [pushed U c], offset := st.offset + advance c } := by
        simp [body, classify, hl]
      rw [hb]
      simp only [hl, Bool.not_true, Bool.false_eq_true, if_false]
      rw [modifyHead_map (List.map (pushed U)) (List.cons c) (List.cons (pushed U c))
        (fun a => by simp)]
      simp [List.modifyHead_modifyHead, Function.comp_def]
    · simp only [hl, Bool.not_false, if_true, List.map_cons, List.map_nil, List.modifyHead_cons,
        List.append_nil]
      by_cases ht : st.token = []
      · have hb : body U st c
            = { st with start_offset := st.start_offset + 1, offset := st.offset + advance c } := by
          simp [body, classify, hl, ht]
        rw [hb]
        simp [ht, modifyHead_self]
      · have hlen : st.token.length ≠ 0 := by simpa using ht
        have hb : body U st c
            = { tokens := st.tokens
                  ++ [⟨st.token, st.start_offset, st.offset + advance c - 1⟩],
                token := [],
                start_offset := st.offset + advance c,
                offset := st.offset + advance c } := by
          simp [body, classify, hl, ht]
        rw [hb]
        simp [ht, modifyHead_self]

/-- The token texts are the maximal runs of letters and numbers of the
lower-cased string, each code unit replaced by what the loop pushes for it. -/
theorem FTSOpen_texts (U : QtUnicode) (input : List Nat) :
    (FTSOpen U input).map Token.token
      = (maximalRuns U.isLetterOrNumber (U.toLower (U.fromUtf8 input))).map
          (List.map (pushed U)) := by
  unfold FTSOpen maximalRuns
  rw [ftsLoop_init, texts_foldl]
  simp only [List.map_nil, List.nil_append, modifyHead_self]
  rw [List.filter_map]
  congr 1
  apply List.filter_congr
  intro r _
  cases r <;> simp

/-! ## Tokens and byte spans -/

section spans
variable {α : Type}

theorem firstLo_concat (lo : α → Int) (d : Int) (r : List α) (x : α) :
    firstLo lo d (r ++ [x]) = firstLo lo (lo x) r := by
  cases r <;> simp [firstLo]

theorem lastHi_concat (hi : α → Int) (d : Int) (r : List α) (x : α) :
    lastHi hi d (r ++ [x]) = hi x := by
  simp [lastHi]

theorem firstLo_of_ne_nil (lo : α → Int) (d e : Int) (r : List α) (h : r ≠ []) :
    firstLo lo d r = firstLo lo e r := by
  cases r with
  | nil => exact absurd rfl h
  | cons a r => simp [firstLo]

theorem lastHi_of_ne_nil (hi : α → Int) (d e : Int) (r : List α) (h : r ≠ []) :
    lastHi hi d r = lastHi hi e r := by
  rcases List.eq_nil_or_concat r with h0 | ⟨r0, x, rfl⟩
  · exact absurd h0 h
  · simp [lastHi]

/-- The tokens after the fold and the flush when every separator advances
`offset` by one: the cursor holds the run `cur` that is still open. -/
theorem tokens_foldl (U : QtUnicode) (code : α → Nat) (lo hi : α → Int)
    (l : List α) (n : Int) (cur : List α) (st : Cursor)
    (hsp : Spans code lo hi n l)
    (hsep : ∀ a ∈ l, U.isLetterOrNumber (code a) = false → advance (code a) = 1)
    (hoff : st.offset = n)
    (htok : st.token = cur.map (fun a => pushed U (code a)))
    (hstart : st.start_offset = firstLo lo n cur)
    (hend : lastHi hi n cur = n) :
    (flush ((l.map code).foldl (body U) st)).tokens
      = st.tokens
        ++ ((List.modifyHead (fun r => cur ++ r)
              (l.splitOnP (fun a => !U.isLetterOrNumber (code a)))).filter
            (fun r => !r.isEmpty)).map (spanToken U code lo hi) := by
  induction l generalizing n cur st with
  | nil =>
    simp only [List.map_nil, List.foldl_nil, List.splitOnP_nil, List.modifyHead_cons,
      List.append_nil]
    unfold flush
    by_cases hc : cur = []
    · subst hc
      simp [htok]
    · have hlen : st.token.length ≠ 0 := by
        rw [htok]
        simpa using hc
      simp only [hlen, ne_eq, not_false_eq_true, if_true, List.filter_cons, List.filter_nil]
      have hne : (!cur.isEmpty) = true := by cases cur <;> simp at hc ⊢
      simp only [hne, if_true, List.map_cons, List.map_nil, spanToken]
      rw [htok, hstart, hoff, firstLo_of_ne_nil lo n 0 cur hc, ← hend,
        lastHi_of_ne_nil hi n 0 cur hc]
  | cons a l ih =>
    obtain ⟨hlo, hhi, hrest⟩ := hsp
    rw [List.map_cons, List.foldl_cons, List.splitOnP_cons]
    have hsep' : ∀ b ∈ l, U.isLetterOrNumber (code b) = false → advance (code b) = 1 :=
      fun b hb => hsep b (List.mem_cons_of_mem _ hb)
    by_cases hl : U.isLetterOrNumber (code a) = true
    · have hb : body U st (code a)
          = { st with token := st.token ++ [pushed U (code a)],
                      offset := st.offset + advance (code a) } := by
        simp [body, classify, hl]
      rw [ih (hi a) (cur ++ [a]) (body U st (code a)) hrest hsep'
        (by rw [hb, hhi, ← hoff]) (by rw [hb, htok]; simp)
        (by rw [hb, firstLo_concat, hlo]; exact hstart)
        (lastHi_concat hi _ cur a)]
      simp [hb, hl, List.modifyHead_modifyHead, Function.comp_def]
    · have hadv : advance (code a) = 1 :=
        hsep a (List.mem_cons_self _ _) (by simpa using hl)
      simp only [hl, Bool.not_false, if_true, List.modifyHead_cons, List.append_nil]
      by_cases hc : cur = []
      · subst hc
        have hb : body U st (code a)
            = { st with start_offset := st.start_offset + 1,
                        offset := st.offset + advance (code a) } := by
          simp [body, classify, hl, htok]
        rw [ih (hi a) [] (body U st (code a)) hrest hsep'
          (by rw [hb, hhi, ← hoff]) (by rw [hb, htok])
          (by rw [hb, hstart, hhi, hadv]; simp [firstLo])
          (by simp [lastHi])]
        simp [hb, modifyHead_self]
      · have hlen : st.token.length ≠ 0 := by
          rw [htok]
          simpa using hc
        have hb : body U st (code a)
            = { tokens := st.tokens
                  ++ [⟨st.token, st.start_offset, st.offset + advance (code a) - 1⟩],
                token := [],
                start_offset := st.offset + advance (code a),
                offset := st.offset + advance (code a) } := by
          simp [body, classify, hl, hlen]
        have hne : (!cur.isEmpty) = true := by cases cur <;> simp at hc ⊢
        rw [ih (hi a) [] (body U st (code a)) hrest hsep'
          (by rw [hb, hhi, ← hoff]) (by rw [hb]; rfl)
          (by rw [hb, hhi, hoff]; simp [firstLo])
          (by simp [lastHi])]
        have htokn : (⟨st.token, st.start_offset, st.offset + advance (code a) - 1⟩ : Token)
            = spanToken U code lo hi cur := by
          simp only [spanToken]
          rw [htok, hstart, hoff, hadv, firstLo_of_ne_nil lo n 0 cur hc,
            ← lastHi_of_ne_nil hi n 0 cur hc, hend]
          simp
        simp [hb, htokn, hne, modifyHead_self]

/-- From the initial cursor: the tokens are the span tokens of the maximal
runs. -/
theorem tokens_of_spans (U : QtUnicode) (code : α → Nat) (lo hi : α → Int) (l : List α)
    (hsp : Spans code lo hi 0 l)
    (hsep : ∀ a ∈ l, U.isLetterOrNumber (code a) = false → advance (code a) = 1) :
    (ftsLoop U (l.map code) ⟨[], [], 0, 0⟩).tokens
      = (maximalRuns (fun a => U.isLetterOrNumber (code a)) l).map (spanToken U code lo hi) := by
  rw [ftsLoop_init, tokens_foldl U code lo hi l 0 [] _ hsp hsep rfl rfl rfl rfl]
  simp [maximalRuns, modifyHead_self]

end spans

/-! ## Runs are contiguous pieces of the string -/

section pieces
variable {α : Type}

/-- The pieces `splitOnP` returns, with their surroundings: no piece holds a
separator, the first piece starts the list, every later piece follows a
separator, and every piece is followed by a separator or ends the list. -/
theorem splitOnP_bounds (q : α → Bool) (l : List α) :
    ∃ r0 rs, l.splitOnP q = r0 :: rs
      ∧ ((∀ x ∈ r0, q x = false)
        ∧ ∃ post, l = r0 ++ post ∧ (post = [] ∨ ∃ y post1, post = y :: post1 ∧ q y = true))
      ∧ ∀ r ∈ rs, (∀ x ∈ r, q x = false)
        ∧ ∃ pre y post, l = pre ++ [y] ++ r ++ post ∧ q y = true
          ∧ (post = [] ∨ ∃ z post1, post = z :: post1 ∧ q z = true) := by
  induction l with
  | nil => exact ⟨[], [], by simp, ⟨by simp, [], rfl, Or.inl rfl⟩, by simp⟩
  | cons x l ih =>
    obtain ⟨r0, rs, hs, ⟨h0q, post0, h0, h0b⟩, hrs⟩ := ih
    rw [List.splitOnP_cons, hs]
    by_cases hx : q x = true
    · refine ⟨[], r0 :: rs, by simp [hx],
        ⟨by simp, x :: l, rfl, Or.inr ⟨x, l, rfl, hx⟩⟩, ?_⟩
      intro r hr
      rcases List.mem_cons.mp hr with rfl | hr
      · exact ⟨h0q, [], x, post0, by simp [← h0], hx, h0b⟩
      · obtain ⟨hq, pre, y, post, h, hy, hb⟩ := hrs r hr
        exact ⟨hq, x :: pre, y, post, by simp [h], hy, hb⟩
    · have hx' : q x = false := by simpa using hx
      refine ⟨x :: r0, rs, by simp [hx], ⟨?_, post0, by simp [← h0], h0b⟩, ?_⟩
      · intro z hz
        rcases List.mem_cons.mp hz with rfl | hz
        · exact hx'
        · exact h0q z hz
      · intro r hr
        obtain ⟨hq, pre, y, post, h, hy, hb⟩ := hrs r hr
        exact ⟨hq, x :: pre, y, post, by simp [h], hy, hb⟩

/-- Every list `maximalRuns` returns is a maximal run: it is not empty, all its
elements satisfy `p`, it is a contiguous piece of the list, and the element
before it and the element after it, if any, fail `p`. -/
theorem maximalRuns_spec (p : α → Bool) (l : List α) :
    ∀ r ∈ maximalRuns p l, r ≠ [] ∧ (∀ x ∈ r, p x = true)
      ∧ ∃ pre post, l = pre ++ r ++ post
        ∧ (pre = [] ∨ ∃ pre1 y, pre = pre1 ++ [y] ∧ p y = false)
        ∧ (post = [] ∨ ∃ z post1, post = z :: post1 ∧ p z = false) := by
  intro r hr
  unfold maximalRuns at hr
  rw [List.mem_filter] at hr
  obtain ⟨hr, hne⟩ := hr
  have hne' : r ≠ [] := by
    intro h
    simp [h] at hne
  obtain ⟨r0, rs, hs, ⟨h0q, post0, h0, h0b⟩, hrs⟩ := splitOnP_bounds (fun c => !p c) l
  rw [hs] at hr
  rcases List.mem_cons.mp hr with rfl | hr
  · refine ⟨hne', fun x hx => by simpa using h0q x hx, [], post0, by simpa using h0,
      Or.inl rfl, ?_⟩
    rcases h0b with h | ⟨z, post1, h, hz⟩
    · exact Or.inl h
    · exact Or.inr ⟨z, post1, h, by simpa using hz⟩
  · obtain ⟨hq, pre, y, post, h, hy, hb⟩ := hrs r hr
    refine ⟨hne', fun x hx => by simpa using hq x hx, pre ++ [y], post, h,
      Or.inr ⟨pre, y, rfl, by simpa using hy⟩, ?_⟩
    rcases hb with h | ⟨z, post1, h, hz⟩
    · exact Or.inl h
    · exact Or.inr ⟨z, post1, h, by simpa using hz⟩

/-- A maximal run is a non-empty contiguous piece of the list. -/
theorem maximalRuns_between (p : α → Bool) (l : List α) :
    ∀ r ∈ maximalRuns p l, r ≠ [] ∧ ∃ pre post, l = pre ++ r ++ post := by
  intro r hr
  obtain ⟨hne, _, pre, post, h, _⟩ := maximalRuns_spec p l r hr
  exact ⟨hne, pre, post, h⟩

/-- The runs, put end to end, are the elements that satisfy `p`, in order. -/
theorem maximalRuns_flatten (p : α → Bool) (l : List α) :
    (maximalRuns p l).flatten = l.filter p := by
  have key : (l.splitOnP (fun c => !p c)).flatten = l.filter p := by
    induction l with
    | nil => simp
    | cons x l ih =>
      rw [List.splitOnP_cons]
      by_cases hx : p x = true
      · simp only [hx, Bool.not_true, Bool.false_eq_true, if_false, List.filter_cons_of_pos]
        cases hs : l.splitOnP (fun c => !p c) with
        | nil => exact absurd hs (List.splitOnP_ne_nil _ l)
        | cons r rs =>
          rw [hs] at ih
          simpa using ih
      · simp only [hx, Bool.not_false, if_true, List.flatten_cons, List.nil_append]
        rw [ih, List.filter_cons_of_neg hx]
  unfold maximalRuns
  rw [← key]
  generalize l.splitOnP (fun c => !p c) = L
  induction L with
  | nil => rfl
  | cons r L ih =>
    cases r with
    | nil => simpa using ih
    | cons a r => simp [ih]

theorem mem_of_mem_maximalRuns (p : α → Bool) (l : List α) (r : List α)
    (hr : r ∈ maximalRuns p l) (x : α) (hx : x ∈ r) : x ∈ l := by
  obtain ⟨_, pre, post, h⟩ := maximalRuns_between p l r hr
  rw [h]
  simp [hx]

/-- Cutting a mapped list is mapping the cut list. -/
theorem splitOnP_map {β : Type} (f : α → β) (p : β → Bool) (l : List α) :
    (l.map f).splitOnP p = (l.splitOnP (fun a => p (f a))).map (List.map f) := by
  induction l with
  | nil => simp
  | cons x l ih =>
    rw [List.map_cons, List.splitOnP_cons, List.splitOnP_cons, ih]
    by_cases hx : p (f x) = true
    · simp [hx]
    · simp only [hx, Bool.false_eq_true, if_false]
      cases l.splitOnP (fun a => p (f a)) <;> simp

theorem maximalRuns_map {β : Type} (f : α → β) (p : β → Bool) (l : List α) :
    maximalRuns p (l.map f) = (maximalRuns (fun a => p (f a)) l).map (List.map f) := by
  unfold maximalRuns
  rw [splitOnP_map, List.filter_map]
  congr 1
  apply List.filter_congr
  intro r _
  cases r <;> simp

theorem spanWidth_append (code : α → Nat) (l m : List α) :
    spanWidth code (l ++ m) = spanWidth code l + spanWidth code m := by
  simp [spanWidth]

theorem spanWidth_nonneg (code : α → Nat) (l : List α) : 0 ≤ spanWidth code l := by
  induction l with
  | nil => simp [spanWidth]
  | cons a l ih =>
    have := advance_pos (code a)
    simp only [spanWidth, List.map_cons, List.sum_cons] at ih ⊢
    omega

theorem spans_append_right {code : α → Nat} {lo hi : α → Int} {n : Int} {l m : List α}
    (h : Spans code lo hi n (l ++ m)) : Spans code lo hi (n + spanWidth code l) m := by
  induction l generalizing n with
  | nil => simpa [spanWidth] using h
  | cons a l ih =>
    obtain ⟨_, hhi, hrest⟩ := h
    have := ih hrest
    rw [hhi] at this
    simpa [spanWidth, add_assoc] using this

/-- A non-empty annotated run starts at `n` and ends a run-width later. -/
theorem spans_ends {code : α → Nat} {lo hi : α → Int} {n : Int} {r m : List α}
    (h : Spans code lo hi n (r ++ m)) (hr : r ≠ []) (d : Int) :
    firstLo lo d r = n ∧ lastHi hi d r = n + spanWidth code r := by
  induction r generalizing n with
  | nil => exact absurd rfl hr
  | cons a r ih =>
    obtain ⟨hlo, hhi, hrest⟩ := h
    refine ⟨by simp [firstLo, hlo], ?_⟩
    by_cases hr' : r = []
    · subst hr'
      simp [lastHi, spanWidth, hhi]
    · have := (ih hrest hr').2
      rw [hhi] at this
      have hl : lastHi hi d (a :: r) = lastHi hi d r := by
        cases r with
        | nil => exact absurd rfl hr'
        | cons b r => simp [lastHi, List.getLast?_cons_cons]
      rw [hl, this]
      simp [spanWidth, add_assoc]

end pieces

/-! ## UTF-8 lengths and slices -/

theorem utf8Char_length (c : Nat) (h : c < 0x10000) :
    ((utf8Char c).length : Int) = advance c := by
  unfold utf8Char advance
  split_ifs <;> first | rfl | omega

theorem utf8Encode_append (l m : List Nat) :
    utf8Encode (l ++ m) = utf8Encode l ++ utf8Encode m := by
  simp [utf8Encode]

theorem utf8Encode_length (l : List Nat) (h : ∀ c ∈ l, c < 0x10000) :
    ((utf8Encode l).length : Int) = codedLength l := by
  induction l with
  | nil => simp [utf8Encode, codedLength]
  | cons c l ih =>
    have hc := utf8Char_length c (h c (List.mem_cons_self _ _))
    have hl := ih (fun d hd => h d (List.mem_cons_of_mem _ hd))
    simp only [utf8Encode, List.flatMap_cons, List.length_append, Nat.cast_add, codedLength,
      List.map_cons, List.sum_cons] at hl ⊢
    rw [hc, hl]

theorem slice_middle (A B C : List Nat) (a b : Int)
    (ha : a = A.length) (hb : b = A.length + B.length) :
    slice (A ++ B ++ C) a b = B := by
  subst ha hb
  have h1 : ((A.length : Int) + B.length).toNat = (A ++ B).length := by
    simp only [List.length_append]
    omega
  have h2 : ((A.length : Int)).toNat = A.length := by omega
  unfold slice
  rw [h1, h2, List.take_left', List.drop_left']
  · rfl
  · rfl

/-- Two strings with the same advances have, position by position, the same
advance. -/
theorem advance_zip (l m : List Nat) (h : m.map advance = l.map advance) :
    ∀ x ∈ l.zip m, advance x.2 = advance x.1 := by
  induction l generalizing m with
  | nil => simp
  | cons a l ih =>
    cases m with
    | nil => simp
    | cons b m =>
      simp only [List.map_cons, List.cons.injEq] at h
      intro x hx
      simp only [List.zip_cons_cons, List.mem_cons] at hx
      rcases hx with rfl | hx
      · exact h.1
      · exact ih m h.2 x hx

theorem zip_map_snd_of_map (l m : List Nat) (h : m.map advance = l.map advance) :
    (l.zip m).map Prod.snd = m ∧ (l.zip m).map Prod.fst = l := by
  have hlen : m.length = l.length := by
    have := congrArg List.length h
    simpa using this
  constructor
  · exact List.map_snd_zip _ _ (le_of_eq hlen)
  · exact List.map_fst_zip _ _ (le_of_eq hlen.symm)

/-! ## Characters placed in the input buffer -/

theorem place_pairs (n : Int) (z : List (Nat × Nat)) :
    (place n z).map (fun p => (p.orig, p.low)) = z := by
  induction z generalizing n with
  | nil => rfl
  | cons x z ih => simp [place, ih]

theorem place_spans (n : Int) (z : List (Nat × Nat))
    (hz : ∀ x ∈ z, x.1 < 0x10000 ∧ advance x.2 = advance x.1) :
    Spans Placed.low Placed.lo Placed.hi n (place n z) := by
  induction z generalizing n with
  | nil => trivial
  | cons x z ih =>
    obtain ⟨hx1, hx2⟩ := hz x (List.mem_cons_self _ _)
    refine ⟨rfl, ?_, ?_⟩
    · simp only [Placed.hi]
      rw [utf8Char_length _ hx1, hx2]
    · exact ih _ (fun y hy => hz y (List.mem_cons_of_mem _ hy))

theorem place_width (l : List Placed)
    (h : ∀ p ∈ l, p.orig < 0x10000 ∧ advance p.low = advance p.orig) :
    ((utf8Encode (l.map Placed.orig)).length : Int) = spanWidth Placed.low l := by
  induction l with
  | nil => simp [utf8Encode, spanWidth]
  | cons p l ih =>
    obtain ⟨hp1, hp2⟩ := h p (List.mem_cons_self _ _)
    have hl := ih (fun q hq => h q (List.mem_cons_of_mem _ hq))
    have hc := utf8Char_length _ hp1
    simp only [utf8Encode, List.map_cons, List.flatMap_cons, List.length_append, Nat.cast_add,
      spanWidth, List.sum_cons] at hl ⊢
    rw [hc, hl, hp2]

theorem place_mem (n : Int) (z : List (Nat × Nat)) (p : Placed) (hp : p ∈ place n z) :
    (p.orig, p.low) ∈ z := by
  have h : (p.orig, p.low) ∈ (place n z).map (fun p => (p.orig, p.low)) :=
    List.mem_map.mpr ⟨p, hp, rfl⟩
  rwa [place_pairs] at h

/-- Slicing the input at the span of a run of placed characters gives back the
UTF-8 encoding of the original characters of the run. -/
theorem slice_run (z : List (Nat × Nat))
    (hz : ∀ x ∈ z, x.1 < 0x10000 ∧ advance x.2 = advance x.1)
    (pre r post : List Placed) (h : place 0 z = pre ++ r ++ post) (hr : r ≠ []) :
    slice (utf8Encode (z.map Prod.fst)) (firstLo Placed.lo 0 r) (lastHi Placed.hi 0 r)
      = utf8Encode (r.map Placed.orig) := by
  have hsp := place_spans 0 z hz
  rw [h, List.append_assoc] at hsp
  have hends := spans_ends (spans_append_right hsp) hr 0
  have hmem : ∀ p ∈ pre ++ r ++ post, p.orig < 0x10000 ∧ advance p.low = advance p.orig := by
    intro p hp
    rw [← h] at hp
    exact hz _ (place_mem 0 z p hp)
  have hpre := place_width pre (fun p hp => hmem p (by simp [hp]))
  have hrun := place_width r (fun p hp => hmem p (by simp [hp]))
  have hfst : z.map Prod.fst = pre.map Placed.orig ++ r.map Placed.orig ++ post.map Placed.orig := by
    have := congrArg (List.map Prod.fst) (place_pairs 0 z)
    rw [List.map_map, h] at this
    rw [← this]
    simp [Function.comp_def]
  rw [hfst, utf8Encode_append, utf8Encode_append]
  apply slice_middle
  · rw [hends.1, hpre]
    simp
  · rw [hends.2, hpre, hrun]
    simp

/-! ## ASCII input -/

theorem asciiLower_le (b : Nat) (h : b ≤ 0x7f) : asciiLower b ≤ 0x7f := by
  unfold asciiLower
  split_ifs <;> omega

theorem isAsciiAlnum_lower (b : Nat) : isAsciiAlnum (asciiLower b) = isAsciiAlnum b := by
  unfold asciiLower isAsciiAlnum
  by_cases h : 0x41 ≤ b ∧ b ≤ 0x5A
  · simp only [h, and_self, if_true]
    have h1 : ¬ (0x30 ≤ b + 32 ∧ b + 32 ≤ 0x39) := by omega
    have h2 : ¬ (0x41 ≤ b + 32 ∧ b + 32 ≤ 0x5A) := by omega
    have h3 : (0x61 ≤ b + 32 ∧ b + 32 ≤ 0x7A) := by omega
    have h4 : ¬ (0x30 ≤ b ∧ b ≤ 0x39) := by omega
    have h5 : ¬ (0x61 ≤ b ∧ b ≤ 0x7A) := by omega
    simp [h1, h2, h3, h4, h5, h]
  · simp [h]

theorem advance_ascii (c : Nat) (h : c ≤ 0x7f) : advance c = 1 := by
  simp [advance, h]

theorem enumFrom_spans (input : List Nat) (n : Nat) (h : ∀ b ∈ input, b ≤ 0x7f) :
    Spans (fun x : Nat × Nat => asciiLower x.2) (fun x => (x.1 : Int)) (fun x => (x.1 : Int) + 1)
      n (input.enumFrom n) := by
  induction input generalizing n with
  | nil => trivial
  | cons b input ih =>
    refine ⟨rfl, ?_, ?_⟩
    · simp only
      rw [advance_ascii _ (asciiLower_le b (h b (List.mem_cons_self _ _)))]
    · have := ih (n + 1) (fun c hc => h c (List.mem_cons_of_mem _ hc))
      simpa using this

theorem splitOnP_congr {α : Type} (p q : α → Bool) (l : List α) (h : ∀ x ∈ l, p x = q x) :
    l.splitOnP p = l.splitOnP q := by
  induction l with
  | nil => simp
  | cons x l ih =>
    rw [List.splitOnP_cons, List.splitOnP_cons, ih (fun y hy => h y (List.mem_cons_of_mem _ hy)),
      h x (List.mem_cons_self _ _)]

theorem maximalRuns_congr {α : Type} (p q : α → Bool) (l : List α) (h : ∀ x ∈ l, p x = q x) :
    maximalRuns p l = maximalRuns q l := by
  unfold maximalRuns
  rw [splitOnP_congr (fun c => !p c) (fun c => !q c) l (fun x hx => by simp [h x hx])]

theorem maximalRuns_eq_nil {α : Type} (p : α → Bool) (l : List α) :
    maximalRuns p l = [] ↔ l.all (fun c => !p c) = true := by
  unfold maximalRuns
  induction l with
  | nil => simp
  | cons x l ih =>
    rw [List.splitOnP_cons]
    by_cases hx : p x = true
    · simp only [hx, Bool.not_true, Bool.false_eq_true, if_false, List.all_cons, Bool.false_and,
        iff_false]
      cases hs : l.splitOnP (fun c => !p c) with
      | nil => exact absurd hs (List.splitOnP_ne_nil _ l)
      | cons r rs => simp
    · simp only [hx, Bool.not_false, if_true, List.all_cons, Bool.true_and]
      simpa using ih

/-! ## Traces of the migration functions -/

section migrationProofs
variable {σ : Type}

theorem plainExt_refl (cn : Conn σ) : PlainExt cn cn := ⟨[], by simp, rfl⟩

theorem plainExt_trans {a b c : Conn σ} (h1 : PlainExt a b) (h2 : PlainExt b c) :
    PlainExt a c := by
  obtain ⟨l1, e1, p1⟩ := h1
  obtain ⟨l2, e2, p2⟩ := h2
  exact ⟨l1 ++ l2, by rw [e2, e1, List.append_assoc], by simp [List.all_append, p1, p2]⟩

theorem plainExt_noteSelect (sql : String) (cn : Conn σ) : PlainExt cn (noteSelect sql cn) :=
  ⟨[DbAction.select sql], rfl, rfl⟩

theorem plainExt_checkErrors (err : Option String) (cn : Conn σ) :
    PlainExt cn (CheckErrors err cn).1 := by
  cases err <;> exact ⟨[], by simp [CheckErrors], rfl⟩

theorem plainExt_issue (E : SqlEngine σ) (a : DbAction) (cn : Conn σ)
    (ha : a.plain = true) : PlainExt cn (issue E a cn).1 :=
  ⟨[a], rfl, by simp [ha]⟩

theorem plainExt_foldl {α : Type} (f : Conn σ → α → Conn σ)
    (hf : ∀ cn x, PlainExt cn (f cn x)) (l : List α) (cn : Conn σ) :
    PlainExt cn (l.foldl f cn) := by
  induction l generalizing cn with
  | nil => exact plainExt_refl cn
  | cons x l ih => exact plainExt_trans (hf cn x) (ih (f cn x))

theorem plainExt_songsTables (E : SqlEngine σ) (D : DatabaseState) (sv : Int) (cn : Conn σ) :
    PlainExt cn (SongsTables E D sv cn).2 := by
  have key : ∀ (l : List (String × AttachedDatabase)) (acc : List String × Conn σ),
      PlainExt acc.2 (l.foldl
        (fun (acc : List String × Conn σ) kv =>
          let cn1 := noteSelect ("SELECT NAME FROM " ++ kv.1 ++ ".sqlite_master"
            ++ " WHERE type='table' AND name='songs' OR name LIKE '%songs'") acc.2
          match E.sqliteMaster kv.1 cn1.db with
          | some rows =>
            (acc.1 ++ (rows.filter songsWhere).map (fun row => kv.1 ++ "." ++ row.2), cn1)
          | none => (acc.1, cn1)) acc).2 := by
    intro l
    induction l with
    | nil => intro acc; exact plainExt_refl _
    | cons kv l ih =>
      intro acc
      rw [List.foldl_cons]
      refine plainExt_trans ?_ (ih _)
      dsimp only
      split <;> exact plainExt_noteSelect _ _
  unfold SongsTables
  dsimp only
  split
  · exact key _ _
  · exact key _ _

theorem execOrDie_ok (E : SqlEngine σ) (command : String) (cn cn2 : Conn σ)
    (h : execOrDie E command cn = Except.ok cn2) : PlainExt cn cn2 := by
  unfold execOrDie at h
  dsimp only at h
  split at h
  · exact absurd h (by simp)
  · injection h with h
    subst h
    exact plainExt_trans (plainExt_issue E (DbAction.exec command) cn rfl)
      (plainExt_checkErrors _ _)

theorem execForTables_ok (E : SqlEngine σ) (command : String) (tables : List String)
    (cn cn2 : Conn σ) (h : execForTables E command tables cn = Except.ok cn2) :
    PlainExt cn cn2 := by
  induction tables generalizing cn with
  | nil =>
    simp only [execForTables, Except.ok.injEq] at h
    subst h
    exact plainExt_refl _
  | cons t rest ih =>
    unfold execForTables at h
    cases hs : execOrDie E (qReplace command kMagicAllSongsTables t) cn with
    | error e => rw [hs] at h; exact absurd h (by simp)
    | ok cn1 =>
      rw [hs] at h
      exact plainExt_trans (execOrDie_ok E _ cn cn1 hs) (ih cn1 h)

theorem execEach_ok (E : SqlEngine σ) (tables commands : List String)
    (cn cn2 : Conn σ) (h : execEach E tables commands cn = Except.ok cn2) :
    PlainExt cn cn2 := by
  induction commands generalizing cn with
  | nil =>
    simp only [execEach, Except.ok.injEq] at h
    subst h
    exact plainExt_refl _
  | cons c rest ih =>
    unfold execEach at h
    cases hs : (if qContains c kMagicAllSongsTables then execForTables E c tables cn
           else execOrDie E c cn) with
    | error e => rw [hs] at h; exact absurd h (by simp)
    | ok cn1 =>
      rw [hs] at h
      refine plainExt_trans ?_ (ih cn1 h)
      by_cases hc : qContains c kMagicAllSongsTables = true
      · rw [if_pos hc] at hs
        exact execForTables_ok E c tables cn cn1 hs
      · rw [if_neg hc] at hs
        exact execOrDie_ok E c cn cn1 hs

theorem execCommands_ok (E : SqlEngine σ) (D : DatabaseState) (schema : String) (sv : Int)
    (cn cn2 : Conn σ) (h : ExecCommands E D schema sv cn = Except.ok cn2) : PlainExt cn cn2 :=
  plainExt_trans (plainExt_songsTables E D sv cn) (execEach_ok E _ _ _ cn2 h)

theorem plainExt_urlEncodeRow (E : SqlEngine σ) (table : String) (cn : Conn σ)
    (row : Int × String) : PlainExt cn (urlEncodeRow E table cn row) := by
  unfold urlEncodeRow
  split
  · exact plainExt_refl cn
  · exact plainExt_trans (plainExt_issue E (DbAction.update _ _ _) cn rfl)
      (plainExt_checkErrors _ _)

theorem plainExt_urlEncodeFilenameColumn (E : SqlEngine σ) (table : String) (cn : Conn σ) :
    PlainExt cn (UrlEncodeFilenameColumn E table cn) := by
  unfold UrlEncodeFilenameColumn
  dsimp only
  split
  · exact plainExt_trans (plainExt_noteSelect _ cn) (plainExt_checkErrors _ _)
  · exact plainExt_trans (plainExt_noteSelect _ cn)
      (plainExt_foldl _ (plainExt_urlEncodeRow E table) _ _)

theorem plainExt_urlEncodeAll (E : SqlEngine σ) (cn : Conn σ) :
    PlainExt cn (urlEncodeAll E cn) := by
  unfold urlEncodeAll
  dsimp only
  refine plainExt_trans (plainExt_urlEncodeFilenameColumn E "songs" cn)
    (plainExt_trans (plainExt_urlEncodeFilenameColumn E "playlist_items" _) ?_)
  apply plainExt_foldl
  intro c table
  dsimp only
  split
  · exact plainExt_urlEncodeFilenameColumn E table c
  · exact plainExt_refl c

/-- A version step that returns leaves a trace of the shape `StepShape`. -/
theorem updateDatabaseSchema_ok (E : SqlEngine σ) (D : DatabaseState) (v : Int)
    (cn cn2 : Conn σ) (h : UpdateDatabaseSchema E D v cn = Except.ok cn2) :
    ∃ seg, cn2.trace = cn.trace ++ seg ∧ StepShape E D v seg := by
  unfold UpdateDatabaseSchema at h
  dsimp only at h
  set cn1 : Conn σ := if v = 31 then urlEncodeAll E (ScopedTransaction E cn)
    else ScopedTransaction E cn with hcn1
  cases hx : ExecFromFile E D (schemaFilename v) (v - 1) cn1 with
  | error e => rw [hx] at h; exact absurd h (by simp)
  | ok cn3 =>
    rw [hx] at h
    injection h with h
    subst h
    have hpre : PlainExt (ScopedTransaction E cn) cn1 ∧ (v ≠ 31 → cn1 = ScopedTransaction E cn) := by
      by_cases hv : v = 31
      · rw [hcn1, if_pos hv]
        exact ⟨plainExt_urlEncodeAll E _, fun h => absurd hv h⟩
      · rw [hcn1, if_neg hv]
        exact ⟨plainExt_refl _, fun _ => rfl⟩
    obtain ⟨⟨pre, hpre, hprep⟩, hpre0⟩ := hpre
    unfold ExecFromFile at hx
    dsimp only at hx
    cases hr : E.resource (schemaFilename v) with
    | none => rw [hr] at hx; exact absurd hx (by simp)
    | some schema =>
      rw [hr] at hx
      dsimp only at hx
      obtain ⟨ex, hex, hexp⟩ := execCommands_ok E D schema (v - 1) _ cn3 hx
      refine ⟨[DbAction.transaction] ++ pre ++ [DbAction.openResource (schemaFilename v)] ++ ex
        ++ [DbAction.commit], ?_, pre, ex, rfl, hprep, hexp, ?_, schema, _, cn3, cn.trace, hr, ?_,
        hx, hex⟩
      · simp only [ScopedTransaction.Commit, issue, hex, hpre, ScopedTransaction]
        simp [List.append_assoc]
      · intro hv
        have := hpre0 hv
        rw [this] at hpre
        simpa using hpre
      · simp only [hpre, ScopedTransaction, issue]

theorem versionsAfter_cons (v : Int) (hv : v ≤ kSchemaVersion) :
    versionsAfter (v - 1) = v :: versionsAfter v := by
  unfold versionsAfter
  have h : (kSchemaVersion - (v - 1)).toNat = (kSchemaVersion - v).toNat + 1 := by omega
  rw [h, List.range_succ_eq_map, List.map_cons, List.map_map]
  simp only [Int.ofNat_eq_coe, Nat.cast_zero, add_zero, sub_add_cancel, List.cons.injEq, true_and]
  apply List.map_congr_left
  intro i _
  simp only [Function.comp_apply, Nat.cast_succ]
  omega

theorem versionsAfter_nil (v : Int) (hv : kSchemaVersion < v) : versionsAfter (v - 1) = [] := by
  unfold versionsAfter
  have h : (kSchemaVersion - (v - 1)).toNat = 0 := by omega
  rw [h]
  rfl

/-- The loop equation of the `for` statement: the fuel of `updateLoop` never
runs out before the loop condition fails. -/
theorem updateLoop_eq (E : SqlEngine σ) (D : DatabaseState) (v : Int) (cn : Conn σ) :
    updateLoop E D v cn
      = if v ≤ kSchemaVersion then
          match UpdateDatabaseSchema E D v cn with
          | Except.ok cn1 => updateLoop E D (v + 1) cn1
          | Except.error e => Except.error e
        else Except.ok cn := by
  unfold updateLoop
  by_cases hv : v ≤ kSchemaVersion
  · have h : (kSchemaVersion + 1 - v).toNat = (kSchemaVersion + 1 - (v + 1)).toNat + 1 := by
      omega
    rw [h, updateLoopN, if_pos hv]
  · have h : (kSchemaVersion + 1 - v).toNat = 0 := by omega
    rw [h, updateLoopN, if_neg hv]

/-- A loop that returns has run the steps `v, v + 1, …, kSchemaVersion` in this
order, each once. -/
theorem updateLoop_ok (E : SqlEngine σ) (D : DatabaseState) (n : Nat) :
    ∀ (v : Int) (cn cn2 : Conn σ), (kSchemaVersion + 1 - v).toNat = n →
      updateLoop E D v cn = Except.ok cn2 →
      ∃ segs, List.Forall₂ (StepShape E D) (versionsAfter (v - 1)) segs
        ∧ cn2.trace = cn.trace ++ segs.flatten := by
  induction n with
  | zero =>
    intro v cn cn2 hn h
    have hv : kSchemaVersion < v := by omega
    rw [updateLoop_eq, if_neg (by omega)] at h
    injection h with h
    subst h
    exact ⟨[], by rw [versionsAfter_nil v hv]; exact List.Forall₂.nil, by simp⟩
  | succ n ih =>
    intro v cn cn2 hn h
    have hv : v ≤ kSchemaVersion := by omega
    rw [updateLoop_eq, if_pos hv] at h
    cases hs : UpdateDatabaseSchema E D v cn with
    | error e => rw [hs] at h; exact absurd h (by simp)
    | ok cn1 =>
      rw [hs] at h
      dsimp only at h
      obtain ⟨seg, hseg, hshape⟩ := updateDatabaseSchema_ok E D v cn cn1 hs
      obtain ⟨segs, hsegs, htr⟩ := ih (v + 1) cn1 cn2 (by omega) h
      rw [add_sub_cancel_right] at hsegs
      refine ⟨seg :: segs, ?_, ?_⟩
      · rw [versionsAfter_cons v hv]
        exact List.Forall₂.cons hshape hsegs
      · rw [htr, hseg, List.flatten_cons, List.append_assoc]

/-- With an engine that reports no error and scripts that can all be opened, a
version step returns. -/
theorem updateDatabaseSchema_returns (E : SqlEngine σ) (D : DatabaseState)
    (hok : ∀ a s, (E.run a s).2 = none) (v : Int)
    (hres : (E.resource (schemaFilename v)).isSome = true) (cn : Conn σ) :
    ∃ cn2, UpdateDatabaseSchema E D v cn = Except.ok cn2 := by
  have hexec : ∀ command (c : Conn σ), ∃ c2, execOrDie E command c = Except.ok c2 := by
    intro command c
    simp [execOrDie, issue, hok, CheckErrors]
  have htab : ∀ command (tables : List String) (c : Conn σ),
      ∃ c2, execForTables E command tables c = Except.ok c2 := by
    intro command tables
    induction tables with
    | nil => intro c; exact ⟨c, rfl⟩
    | cons t rest ih =>
      intro c
      obtain ⟨c1, h1⟩ := hexec (qReplace command kMagicAllSongsTables t) c
      obtain ⟨c2, h2⟩ := ih c1
      exact ⟨c2, by rw [execForTables, h1]; exact h2⟩
  have heach : ∀ (tables commands : List String) (c : Conn σ),
      ∃ c2, execEach E tables commands c = Except.ok c2 := by
    intro tables commands
    induction commands with
    | nil => intro c; exact ⟨c, rfl⟩
    | cons cmd rest ih =>
      intro c
      have h1 : ∃ c1, (if qContains cmd kMagicAllSongsTables then execForTables E cmd tables c
          else execOrDie E cmd c) = Except.ok c1 := by
        split
        · exact htab cmd tables c
        · exact hexec cmd c
      obtain ⟨c1, h1⟩ := h1
      obtain ⟨c2, h2⟩ := ih c1
      exact ⟨c2, by rw [execEach, h1]; exact h2⟩
  obtain ⟨schema, hschema⟩ := Option.isSome_iff_exists.mp hres
  unfold UpdateDatabaseSchema ExecFromFile
  dsimp only
  rw [hschema]
  dsimp only
  unfold ExecCommands
  dsimp only
  obtain ⟨c2, h2⟩ := heach
    (SongsTables E D (v - 1) { (if v = 31 then urlEncodeAll E (ScopedTransaction E cn)
        else ScopedTransaction E cn) with
      trace := (if v = 31 then urlEncodeAll E (ScopedTransaction E cn)
        else ScopedTransaction E cn).trace ++ [DbAction.openResource (schemaFilename v)] }).1
    (qSplit schema ";\n\n") _
  rw [h2]
  exact ⟨_, rfl⟩

theorem updateLoop_returns (E : SqlEngine σ) (D : DatabaseState)
    (hok : ∀ a s, (E.run a s).2 = none) (n : Nat) :
    ∀ (v : Int) (cn : Conn σ), (kSchemaVersion + 1 - v).toNat = n →
      (∀ w ∈ versionsAfter (v - 1), (E.resource (schemaFilename w)).isSome = true) →
      ∃ cn2, updateLoop E D v cn = Except.ok cn2 := by
  induction n with
  | zero =>
    intro v cn hn _
    rw [updateLoop_eq, if_neg (by omega)]
    exact ⟨cn, rfl⟩
  | succ n ih =>
    intro v cn hn hres
    have hv : v ≤ kSchemaVersion := by omega
    rw [versionsAfter_cons v hv] at hres
    obtain ⟨cn1, h1⟩ := updateDatabaseSchema_returns E D hok v
      (hres v (List.mem_cons_self _ _)) cn
    obtain ⟨cn2, h2⟩ := ih (v + 1) cn1 (by omega) (by
      rw [add_sub_cancel_right]
      exact fun w hw => hres w (List.mem_cons_of_mem _ hw))
    exact ⟨cn2, by rw [updateLoop_eq, if_pos hv, h1]; exact h2⟩

end migrationProofs

/-! ## Claims about `FTSOpen` -/

/-- C1, counterexample.  Two inputs on which slicing the input at a token's
offsets does not give back the run the token was built from.  `Km` with U+212A
KELVIN SIGN (bytes E2 84 AA 6D) lower-cases to `km`, one byte per character:
the token is `("km", 0, 2)` and the bytes `[0, 2)` are `E2 84`, not the four
bytes of the run.  `a·b` (bytes 61 C2 B7 62; U+00B7 is a two-byte separator)
gives the first token `("a", 0, 2)`, and the bytes `[0, 2)` are `61 C2`, not
the encoding of `a`. -/
theorem C1_slices_differ_from_runs :
    (FTSOpen refQt [0xE2, 0x84, 0xAA, 0x6D] = [⟨[0x6B, 0x6D], 0, 2⟩]
      ∧ utf8Encode [0x212A, 0x6D] = [0xE2, 0x84, 0xAA, 0x6D]
      ∧ slice [0xE2, 0x84, 0xAA, 0x6D] 0 2 ≠ utf8Encode [0x212A, 0x6D])
    ∧ (FTSOpen refQt [0x61, 0xC2, 0xB7, 0x62] = [⟨[0x61], 0, 2⟩, ⟨[0x62], 3, 4⟩]
      ∧ utf8Encode [0x61, 0xB7, 0x62] = [0x61, 0xC2, 0xB7, 0x62]
      ∧ slice [0x61, 0xC2, 0xB7, 0x62] 0 2 ≠ utf8Encode [0x61]) := by
  decide

/-- C1, as amended.  When the input is the UTF-8 encoding of characters of the
basic plane that Qt decodes to themselves, lower-casing keeps the encoded
length of every character, and every separator of the lower-cased string is a
one-byte character, then the i-th token belongs to the i-th maximal run of
letters and numbers: its text is what the loop pushes for the lower-cased run,
and the bytes `[start, end)` of the input are the UTF-8 encoding of the
original characters of that run. -/
theorem C1_slices_reproduce_runs (U : QtUnicode) (cps : List Nat)
    (hbmp : ∀ c ∈ cps, c < 0x10000)
    (hdec : U.fromUtf8 (utf8Encode cps) = cps)
    (hlow : (U.toLower cps).map advance = cps.map advance)
    (hsep : ∀ c ∈ U.toLower cps, U.isLetterOrNumber c = false → c ≤ 0x7f) :
    List.Forall₂
      (fun (t : Token) (r : List (Nat × Nat)) =>
        t.token = r.map (fun x => pushed U x.2)
        ∧ slice (utf8Encode cps) t.start_offset t.end_offset = utf8Encode (r.map Prod.fst))
      (FTSOpen U (utf8Encode cps))
      (maximalRuns (fun x => U.isLetterOrNumber x.2) (cps.zip (U.toLower cps))) := by
  set z := cps.zip (U.toLower cps) with hzdef
  obtain ⟨hsnd, hfst⟩ := zip_map_snd_of_map cps (U.toLower cps) hlow
  have hz : ∀ x ∈ z, x.1 < 0x10000 ∧ advance x.2 = advance x.1 := by
    intro x hx
    refine ⟨hbmp _ ?_, advance_zip cps _ hlow x hx⟩
    rw [← hfst]
    exact List.mem_map_of_mem _ hx
  have hcode : (place 0 z).map Placed.low = U.toLower cps := by
    have := congrArg (List.map Prod.snd) (place_pairs 0 z)
    rw [List.map_map] at this
    rw [← hsnd, ← this]
    rfl
  have hsep' : ∀ p ∈ place 0 z, U.isLetterOrNumber p.low = false → advance p.low = 1 := by
    intro p hp hl
    have hm : p.low ∈ U.toLower cps := by
      rw [← hcode]
      exact List.mem_map_of_mem _ hp
    have := hsep _ hm hl
    simp [advance, this]
  have htok := tokens_of_spans U Placed.low Placed.lo Placed.hi (place 0 z)
    (place_spans 0 z hz) hsep'
  rw [hcode] at htok
  have hruns : maximalRuns (fun x => U.isLetterOrNumber x.2) z
      = (maximalRuns (fun p => U.isLetterOrNumber p.low) (place 0 z)).map
          (List.map (fun p => (p.orig, p.low))) := by
    rw [← maximalRuns_map (fun p : Placed => (p.orig, p.low))
      (fun x => U.isLetterOrNumber x.2), place_pairs]
  unfold FTSOpen
  rw [hdec, htok, hruns, List.forall₂_map_left_iff, List.forall₂_map_right_iff,
    List.forall₂_same]
  intro r hr
  obtain ⟨hne, pre, post, hpp⟩ := maximalRuns_between _ _ r hr
  refine ⟨by simp [spanToken, Function.comp_def], ?_⟩
  have := slice_run z hz pre r post hpp hne
  rw [hfst] at this
  simpa [spanToken, Function.comp_def] using this

/-- C1, witness: the amended claim on `Aé b2` (bytes 41 C3 A9 20 62 32). -/
theorem C1_slices_witness :
    List.Forall₂
      (fun (t : Token) (r : List (Nat × Nat)) =>
        t.token = r.map (fun x => pushed refQt x.2)
        ∧ slice (utf8Encode [0x41, 0xE9, 0x20, 0x62, 0x32]) t.start_offset t.end_offset
            = utf8Encode (r.map Prod.fst))
      (FTSOpen refQt (utf8Encode [0x41, 0xE9, 0x20, 0x62, 0x32]))
      (maximalRuns (fun x => refQt.isLetterOrNumber x.2)
        ([0x41, 0xE9, 0x20, 0x62, 0x32].zip (refQt.toLower [0x41, 0xE9, 0x20, 0x62, 0x32]))) :=
  C1_slices_reproduce_runs refQt [0x41, 0xE9, 0x20, 0x62, 0x32]
    (by decide) (by decide) (by decide) (by decide)

/-- By code units: the number of tokens is the number of maximal runs of code
units that are letters or numbers in the lower-cased string, no token has empty
text, no token at all is emitted exactly when the lower-cased string holds no
such code unit, and the empty input yields no token. -/
theorem FTSOpen_count (U : QtUnicode) (input : List Nat) :
    (FTSOpen U input).length
        = (maximalRuns U.isLetterOrNumber (U.toLower (U.fromUtf8 input))).length
    ∧ (FTSOpen U input).all (fun t => !t.token.isEmpty) = true
    ∧ (FTSOpen U input = []
        ↔ (U.toLower (U.fromUtf8 input)).all (fun c => !U.isLetterOrNumber c) = true)
    ∧ FTSOpen U [] = [] := by
  have h := FTSOpen_texts U input
  have hlen := congrArg List.length h
  simp only [List.length_map] at hlen
  refine ⟨hlen, ?_, ?_, ?_⟩
  · rw [List.all_eq_true]
    intro t ht
    have hm : t.token ∈ (FTSOpen U input).map Token.token := List.mem_map_of_mem _ ht
    rw [h, List.mem_map] at hm
    obtain ⟨r, hr, hrt⟩ := hm
    have hne := (maximalRuns_between _ _ r hr).1
    rw [← hrt]
    cases r with
    | nil => exact absurd rfl hne
    | cons a r => simp
  · rw [← maximalRuns_eq_nil, ← List.length_eq_zero, ← List.length_eq_zero, hlen]
  · have h0 := FTSOpen_texts U []
    rw [U.fromUtf8_nil, U.toLower_nil] at h0
    simpa [maximalRuns] using h0

theorem utf16DecodeFrom_bmp (s : List Nat) :
    ∀ pending : Option Nat, (∀ c ∈ utf16DecodeFrom pending s, c < 0x10000) →
      utf16DecodeFrom pending s = pending.toList ++ s := by
  induction s with
  | nil =>
    intro pending _
    cases pending <;> rfl
  | cons c rest ih =>
    intro pending h
    cases pending with
    | none =>
      unfold utf16DecodeFrom at h ⊢
      by_cases hc : 0xD800 ≤ c ∧ c ≤ 0xDBFF
      · rw [if_pos hc] at h ⊢
        rw [ih (some c) h]
        rfl
      · rw [if_neg hc] at h ⊢
        rw [ih none (fun x hx => h x (List.mem_cons_of_mem _ hx))]
        rfl
    | some hi =>
      unfold utf16DecodeFrom at h ⊢
      by_cases hl : 0xDC00 ≤ c ∧ c ≤ 0xDFFF
      · rw [if_pos hl] at h
        have := h _ (List.mem_cons_self _ _)
        omega
      · rw [if_neg hl] at h ⊢
        by_cases hc : 0xD800 ≤ c ∧ c ≤ 0xDBFF
        · rw [if_pos hc] at h ⊢
          rw [ih (some c) (fun x hx => h x (List.mem_cons_of_mem _ hx))]
          rfl
        · rw [if_neg hc] at h ⊢
          rw [ih none (fun x hx => h x (List.mem_cons_of_mem _ (List.mem_cons_of_mem _ hx)))]
          rfl

/-- A string whose characters all lie in the basic plane holds one character
per code unit. -/
theorem utf16Decode_bmp (s : List Nat) (h : ∀ c ∈ utf16Decode s, c < 0x10000) :
    utf16Decode s = s :=
  utf16DecodeFrom_bmp s none h

/-- C2, counterexample.  U+20000, a letter beyond the basic plane (bytes F0 A0
80 80), is one run of one letter, and `FTSOpen` emits no token for it: the
loop classifies the two surrogate code units one by one, and neither is a
letter or number.  In `a`, U+1D7CE, `b` (bytes 61 F0 9D 9F 8E 62) the three
characters are letters or numbers and make one run, and `FTSOpen` emits two
tokens. -/
theorem C2_astral_characters_miscounted :
    (FTSOpen refQt [0xF0, 0xA0, 0x80, 0x80] = []
      ∧ utf16Decode (refQt.toLower (refQt.fromUtf8 [0xF0, 0xA0, 0x80, 0x80])) = [0x20000]
      ∧ (maximalRuns refIsLetterOrNumberUcs4 [0x20000]).length = 1)
    ∧ ((FTSOpen refQt [0x61, 0xF0, 0x9D, 0x9F, 0x8E, 0x62]).map Token.token = [[0x61], [0x62]]
      ∧ utf16Decode (refQt.toLower (refQt.fromUtf8 [0x61, 0xF0, 0x9D, 0x9F, 0x8E, 0x62]))
          = [0x61, 0x1D7CE, 0x62]
      ∧ (maximalRuns refIsLetterOrNumberUcs4 [0x61, 0x1D7CE, 0x62]).length = 1) := by
  decide

/-- C2, as amended.  Let `letterOrNumber` classify characters as
`QChar::isLetterOrNumber` classifies the code units of the basic plane.  When
every character of the lower-cased string lies in the basic plane, the number
of tokens is the number of maximal runs of letter-or-number characters of the
lower-cased string, no token has empty text, no token at all is emitted
exactly when no character of the lower-cased string is a letter or number, and
the empty input yields no token. -/
theorem C2_token_count_bmp (U : QtUnicode) (letterOrNumber : Nat → Bool) (input : List Nat)
    (hagree : ∀ c, c < 0x10000 → letterOrNumber c = U.isLetterOrNumber c)
    (hbmp : ∀ c ∈ utf16Decode (U.toLower (U.fromUtf8 input)), c < 0x10000) :
    (FTSOpen U input).length
        = (maximalRuns letterOrNumber (utf16Decode (U.toLower (U.fromUtf8 input)))).length
    ∧ (FTSOpen U input).all (fun t => !t.token.isEmpty) = true
    ∧ (FTSOpen U input = []
        ↔ (utf16Decode (U.toLower (U.fromUtf8 input))).all
            (fun c => !letterOrNumber c) = true)
    ∧ FTSOpen U [] = [] := by
  have hself := utf16Decode_bmp (U.toLower (U.fromUtf8 input)) hbmp
  rw [hself] at hbmp ⊢
  have hruns : maximalRuns letterOrNumber (U.toLower (U.fromUtf8 input))
      = maximalRuns U.isLetterOrNumber (U.toLower (U.fromUtf8 input)) :=
    maximalRuns_congr _ _ _ (fun c hc => hagree c (hbmp c hc))
  have hall : (U.toLower (U.fromUtf8 input)).all (fun c => !letterOrNumber c)
      = (U.toLower (U.fromUtf8 input)).all (fun c => !U.isLetterOrNumber c) := by
    rw [Bool.eq_iff_iff, List.all_eq_true, List.all_eq_true]
    constructor
    · intro h c hc
      rw [← hagree c (hbmp c hc)]
      exact h c hc
    · intro h c hc
      rw [hagree c (hbmp c hc)]
      exact h c hc
  rw [hruns, hall]
  exact FTSOpen_count U input

/-- C2, witness: the amended claim on `Aé b2` (bytes 41 C3 A9 20 62 32), two
runs and two tokens. -/
theorem C2_token_count_witness :
    (FTSOpen refQt (utf8Encode [0x41, 0xE9, 0x20, 0x62, 0x32])).length = 2
    ∧ (FTSOpen refQt (utf8Encode [0x41, 0xE9, 0x20, 0x62, 0x32])).length
        = (maximalRuns refIsLetterOrNumberUcs4 (utf16Decode (refQt.toLower
            (refQt.fromUtf8 (utf8Encode [0x41, 0xE9, 0x20, 0x62, 0x32]))))).length :=
  ⟨by decide,
    (C2_token_count_bmp refQt refIsLetterOrNumberUcs4 (utf8Encode [0x41, 0xE9, 0x20, 0x62, 0x32])
      (fun c hc => by simp [refIsLetterOrNumberUcs4, hc, refQt])
      (by decide)).1⟩

/-- C3.  On ASCII input, with Qt decoding ASCII bytes to themselves,
lower-casing ASCII the ASCII way, classifying exactly the ASCII letters and
digits as letters or numbers and giving no ASCII character a decomposition,
`FTSOpen` emits exactly the tokens of `asciiTokens`: the maximal runs of
letters and digits in input order, lower-cased, from the index of the first
byte of the run to the index just past its last byte. -/
theorem C3_ascii_tokens (U : QtUnicode) (input : List Nat)
    (hascii : ∀ b ∈ input, b ≤ 0x7f)
    (hdec : U.fromUtf8 input = input)
    (hlow : U.toLower input = input.map asciiLower)
    (hcls : ∀ c, c ≤ 0x7f → U.isLetterOrNumber c = isAsciiAlnum c)
    (hdt : ∀ c, c ≤ 0x7f → U.decompositionTag c = Decomposition.NoDecomposition) :
    FTSOpen U input = asciiTokens input := by
  have hmem : ∀ x ∈ input.enum, x.2 ≤ 0x7f := by
    intro x hx
    have : x.2 ∈ input.enum.map Prod.snd := List.mem_map_of_mem _ hx
    rw [List.enum_map_snd] at this
    exact hascii _ this
  have hcode : input.enum.map (fun x : Nat × Nat => asciiLower x.2) = input.map asciiLower := by
    have : input.enum.map (fun x : Nat × Nat => asciiLower x.2)
        = (input.enum.map Prod.snd).map asciiLower := by
      rw [List.map_map]
      rfl
    rw [this, List.enum_map_snd]
  have htok := tokens_of_spans U (fun x : Nat × Nat => asciiLower x.2) (fun x => (x.1 : Int))
    (fun x => (x.1 : Int) + 1) input.enum
    (by simpa [List.enum] using enumFrom_spans input 0 hascii)
    (fun x hx _ => advance_ascii _ (asciiLower_le _ (hmem x hx)))
  rw [hcode] at htok
  unfold FTSOpen asciiTokens
  rw [hdec, hlow, htok]
  rw [maximalRuns_congr (fun x : Nat × Nat => U.isLetterOrNumber (asciiLower x.2))
    (fun x => isAsciiAlnum x.2) input.enum
    (fun x hx => by
      simp only
      rw [hcls _ (asciiLower_le _ (hmem x hx)), isAsciiAlnum_lower])]
  apply List.map_congr_left
  intro r hr
  simp only [spanToken, Token.mk.injEq, and_true]
  apply List.map_congr_left
  intro x hx
  have hx' := hmem x (mem_of_mem_maximalRuns _ _ r hr x hx)
  simp [pushed, hdt _ (asciiLower_le _ hx')]

/-- C3, witness: `a-b` yields `("a", 0, 1)` and `("b", 2, 3)`. -/
theorem C3_ascii_witness :
    FTSOpen refQt [0x61, 0x2D, 0x62] = [⟨[0x61], 0, 1⟩, ⟨[0x62], 2, 3⟩] := by
  rw [C3_ascii_tokens refQt [0x61, 0x2D, 0x62] (by decide) (by decide) (by decide)
    (by decide) (by decide)]
  decide

/-- C4.  Every token has `start < end`, an earlier token ends no later than any
later token starts, and so start offsets and end offsets are both
non-decreasing along the token list. -/
theorem C4_ordered_spans (U : QtUnicode) (input : List Nat) :
    (FTSOpen U input).all (fun t => decide (t.start_offset < t.end_offset)) = true
    ∧ (FTSOpen U input).Pairwise (fun a b => a.end_offset ≤ b.start_offset)
    ∧ (FTSOpen U input).Chain' (fun a b => a.end_offset ≤ b.start_offset)
    ∧ (FTSOpen U input).Pairwise (fun a b => a.start_offset ≤ b.start_offset)
    ∧ (FTSOpen U input).Pairwise (fun a b => a.end_offset ≤ b.end_offset) := by
  obtain ⟨hp, he⟩ := FTSOpen_ordered U input
  refine ⟨?_, hp, List.Pairwise.chain' hp, ?_, ?_⟩
  · rw [List.all_eq_true]
    intro t ht
    simpa using (he t ht).2.1
  · refine hp.imp_of_mem ?_
    intro a b ha _ hab
    have := (he a ha).2.1
    omega
  · refine hp.imp_of_mem ?_
    intro a b _ hb hab
    have := (he b hb).2.1
    omega

/-- C5, the code at the failing input `·a` (bytes C2 B7 61): the leading
separator is two bytes long, yet the token starts at offset 1, and the bytes
`[1, 3)` are not the encoding of `a`. -/
theorem C5_leading_multibyte_separator :
    FTSOpen refQt [0xC2, 0xB7, 0x61] = [⟨[0x61], 1, 3⟩]
    ∧ (utf8Encode [0xB7]).length = 2
    ∧ slice [0xC2, 0xB7, 0x61] 1 3 = [0xB7, 0x61] := by
  decide

/-- C6, counterexample.  The five-byte input U+1F600 `a` (F0 9F 98 80 61)
yields the token `("a", 2, 7)`, and the two-byte input U+023A (C8 BA), whose
lower-case form U+2C65 takes three bytes, yields a token that ends at 3: both
ends lie past the buffer. -/
theorem C6_offsets_past_buffer :
    (FTSOpen refQt [0xF0, 0x9F, 0x98, 0x80, 0x61] = [⟨[0x61], 2, 7⟩]
      ∧ utf8Encode [0x1F600, 0x61] = [0xF0, 0x9F, 0x98, 0x80, 0x61]
      ∧ ¬ ((7 : Int) ≤ ([0xF0, 0x9F, 0x98, 0x80, 0x61] : List Nat).length))
    ∧ (FTSOpen refQt [0xC8, 0xBA] = [⟨[0x2C65], 0, 3⟩]
      ∧ utf8Encode [0x023A] = [0xC8, 0xBA]
      ∧ ¬ ((3 : Int) ≤ ([0xC8, 0xBA] : List Nat).length)) := by
  decide

/-- C6, as amended.  When the input is the UTF-8 encoding of characters of the
basic plane that Qt decodes to themselves and lower-casing keeps the encoded
length of every character, every token satisfies `0 ≤ start` and
`end ≤ n`, with `n` the number of input bytes. -/
theorem C6_offsets_within_buffer (U : QtUnicode) (cps : List Nat)
    (hbmp : ∀ c ∈ cps, c < 0x10000)
    (hdec : U.fromUtf8 (utf8Encode cps) = cps)
    (hlow : (U.toLower cps).map advance = cps.map advance) :
    (FTSOpen U (utf8Encode cps)).all
      (fun t => decide (0 ≤ t.start_offset ∧ t.end_offset ≤ (utf8Encode cps).length)) = true := by
  obtain ⟨_, he⟩ := FTSOpen_ordered U (utf8Encode cps)
  rw [List.all_eq_true]
  intro t ht
  have h := he t ht
  rw [hdec] at h
  have hn : ((utf8Encode cps).length : Int) = codedLength (U.toLower cps) := by
    rw [utf8Encode_length cps hbmp]
    unfold codedLength
    rw [hlow]
  simp only [decide_eq_true_eq]
  omega

/-- C6, witness: the amended claim on `aé·b` (bytes 61 C3 A9 C2 B7 62). -/
theorem C6_offsets_witness :
    (FTSOpen refQt (utf8Encode [0x61, 0xE9, 0xB7, 0x62])).all
      (fun t => decide (0 ≤ t.start_offset
        ∧ t.end_offset ≤ (utf8Encode [0x61, 0xE9, 0xB7, 0x62]).length)) = true :=
  C6_offsets_within_buffer refQt [0x61, 0xE9, 0xB7, 0x62] (by decide) (by decide) (by decide)

section migrationClaims
variable {σ : Type}

theorem mem_versionsAfter (c v : Int) :
    v ∈ versionsAfter c ↔ c < v ∧ v ≤ kSchemaVersion := by
  unfold versionsAfter
  simp only [List.mem_map, List.mem_range, Int.ofNat_eq_coe]
  constructor
  · rintro ⟨i, hi, rfl⟩
    omega
  · intro h
    exact ⟨(v - c - 1).toNat, by omega, by omega⟩

theorem versionsAfter_ascending (c : Int) : (versionsAfter c).Pairwise (fun a b => a < b) := by
  unfold versionsAfter
  rw [List.pairwise_map]
  refine (List.pairwise_lt_range _).imp ?_
  intro a b hab
  simp only [Int.ofNat_eq_coe]
  omega

/-- C8.  Let `c` be the recorded version (0 when `schema_version` has no row),
`c < kSchemaVersion`.  The versions `versionsAfter c` are exactly
`c + 1, …, kSchemaVersion` in ascending order.  Whenever `UpdateMainSchema`
returns, what it added to the trace after the version query is one segment per
such version, in that order, and the segment of version `v` is: transaction
opened, (plain actions, none unless `v = 31`,) the script of `v` opened and
executed by `ExecCommands`, transaction committed.  And it does return when the
engine reports no error and every script can be opened. -/
theorem C8_steps_ascending_in_transactions (E : SqlEngine σ) (D : DatabaseState) (cn : Conn σ)
    (c : Int) (hrec : (E.versionRows cn.db).headD 0 = c) (hc : c < kSchemaVersion) :
    ((∀ v, v ∈ versionsAfter c ↔ c < v ∧ v ≤ kSchemaVersion)
      ∧ (versionsAfter c).Pairwise (fun a b => a < b))
    ∧ (∀ D2 cn2, UpdateMainSchema E D cn = Except.ok (D2, cn2) →
        D2 = { D with startup_schema_version_ := c }
        ∧ ∃ segs, List.Forall₂ (StepShape E D2) (versionsAfter c) segs
          ∧ cn2.trace = cn.trace ++ [DbAction.select "SELECT version FROM schema_version"]
              ++ segs.flatten)
    ∧ ((∀ a s, (E.run a s).2 = none) →
        (∀ v ∈ versionsAfter c, (E.resource (schemaFilename v)).isSome = true) →
        ∃ D2 cn2, UpdateMainSchema E D cn = Except.ok (D2, cn2)) := by
  have hrec' : (E.versionRows (noteSelect "SELECT version FROM schema_version" cn).db).headD 0
      = c := hrec
  refine ⟨⟨mem_versionsAfter c, versionsAfter_ascending c⟩, ?_, ?_⟩
  · intro D2 cn2 h
    unfold UpdateMainSchema at h
    dsimp only at h
    rw [hrec', if_neg (by omega), if_pos hc] at h
    cases hl : updateLoop E { D with startup_schema_version_ := c } (c + 1)
        (noteSelect "SELECT version FROM schema_version" cn) with
    | error e => rw [hl] at h; exact absurd h (by simp)
    | ok cn3 =>
      rw [hl] at h
      simp only [Except.ok.injEq, Prod.mk.injEq] at h
      obtain ⟨hD, hcn⟩ := h
      subst hD hcn
      obtain ⟨segs, hsegs, htr⟩ := updateLoop_ok E _ _ (c + 1) _ cn3 rfl hl
      rw [add_sub_cancel_right] at hsegs
      exact ⟨rfl, segs, hsegs, htr⟩
  · intro hok hres
    obtain ⟨cn3, hl⟩ := updateLoop_returns E { D with startup_schema_version_ := c } hok _
      (c + 1) (noteSelect "SELECT version FROM schema_version" cn) rfl
      (by rw [add_sub_cancel_right]; exact hres)
    refine ⟨{ D with startup_schema_version_ := c }, cn3, ?_⟩
    unfold UpdateMainSchema
    dsimp only
    rw [hrec', if_neg (by omega), if_pos hc, hl]

/-- C8, witness: from recorded version 41 the reference engine runs the steps
42 and 43. -/
theorem C8_steps_witness :
    ∃ D2 cn2 segs,
      UpdateMainSchema refEngine refDatabase ⟨some 41, [], []⟩ = Except.ok (D2, cn2)
      ∧ List.Forall₂ (StepShape refEngine D2) [42, 43] segs
      ∧ cn2.trace = [DbAction.select "SELECT version FROM schema_version"] ++ segs.flatten := by
  obtain ⟨_, h2, h3⟩ := C8_steps_ascending_in_transactions refEngine refDatabase
    ⟨some 41, [], []⟩ 41 rfl (by decide)
  obtain ⟨D2, cn2, hr⟩ := h3 (fun _ _ => rfl) (fun _ _ => rfl)
  obtain ⟨_, segs, hs, ht⟩ := h2 D2 cn2 hr
  have hv : versionsAfter 41 = [42, 43] := by decide
  rw [hv] at hs
  exact ⟨D2, cn2, segs, hr, hs, by simpa using ht⟩

/-- C9.  When the recorded version equals `kSchemaVersion`, `UpdateMainSchema`
returns with the connection as it was but for the version query added to the
trace: the database state, and with it the recorded version, is unchanged, no
transaction is opened, no script is opened and no statement of a script is
executed.  This holds in particular for a second run on the connection a first
run from version 0 left behind, once that run reached the target. -/
theorem C9_current_version_is_noop (E : SqlEngine σ) (D : DatabaseState) (cn : Conn σ)
    (hrec : (E.versionRows cn.db).headD 0 = kSchemaVersion) :
    UpdateMainSchema E D cn = Except.ok
        ({ D with startup_schema_version_ := kSchemaVersion },
         { cn with trace := cn.trace ++ [DbAction.select "SELECT version FROM schema_version"] })
    ∧ (∀ D2 cn2, UpdateMainSchema E D cn = Except.ok (D2, cn2) →
        cn2.db = cn.db ∧ E.versionRows cn2.db = E.versionRows cn.db
        ∧ cn2.errors = cn.errors
        ∧ cn2.trace = cn.trace ++ [DbAction.select "SELECT version FROM schema_version"])
    ∧ (∀ D0 cn0, (E.versionRows cn0.db).headD 0 = 0 →
        UpdateMainSchema E D0 cn0 = Except.ok (D, cn) →
        ∃ D2 cn2, UpdateMainSchema E D cn = Except.ok (D2, cn2) ∧ cn2.db = cn.db
          ∧ cn2.trace = cn.trace ++ [DbAction.select "SELECT version FROM schema_version"]) := by
  have hrec' : (E.versionRows (noteSelect "SELECT version FROM schema_version" cn).db).headD 0
      = kSchemaVersion := hrec
  have h : UpdateMainSchema E D cn = Except.ok
        ({ D with startup_schema_version_ := kSchemaVersion },
         { cn with trace := cn.trace ++ [DbAction.select "SELECT version FROM schema_version"] }) := by
    unfold UpdateMainSchema
    dsimp only
    rw [hrec', if_neg (lt_irrefl _), if_neg (lt_irrefl _)]
    rfl
  refine ⟨h, ?_, ?_⟩
  · intro D2 cn2 h2
    rw [h] at h2
    simp only [Except.ok.injEq, Prod.mk.injEq] at h2
    obtain ⟨_, rfl⟩ := h2
    exact ⟨rfl, rfl, rfl, rfl⟩
  · intro _ _ _ _
    exact ⟨_, _, h, rfl, rfl⟩

/-- C9, witness: on the reference engine a first run from version 0 returns
with version 43 recorded, and a second run on the connection it left adds only
the version query. -/
theorem C9_noop_witness :
    ∃ D1 cn1,
      UpdateMainSchema refEngine refDatabase ⟨none, [], []⟩ = Except.ok (D1, cn1)
      ∧ cn1.db = some 43
      ∧ UpdateMainSchema refEngine D1 cn1 = Except.ok
          ({ D1 with startup_schema_version_ := kSchemaVersion },
           { cn1 with
             trace := cn1.trace ++ [DbAction.select "SELECT version FROM schema_version"] }) := by
  have hdb : (match UpdateMainSchema refEngine refDatabase ⟨none, [], []⟩ with
      | Except.ok r => r.2.db
      | Except.error _ => none) = some 43 := by decide
  cases h : UpdateMainSchema refEngine refDatabase ⟨none, [], []⟩ with
  | error e => rw [h] at hdb; exact absurd hdb (by simp)
  | ok r =>
    rw [h] at hdb
    obtain ⟨D1, cn1⟩ := r
    have hdb1 : cn1.db = some 43 := hdb
    exact ⟨D1, cn1, rfl, hdb1,
      (C9_current_version_is_noop refEngine D1 cn1 (by rw [hdb1]; rfl)).1⟩

/-- C10.  When the recorded version is greater than `kSchemaVersion`,
`UpdateMainSchema` returns with `startup_schema_version_` set to the recorded
version and the connection as it was but for the version query added to the
trace: no transaction, no script, no statement that changes the schema, and
the database state is the one it started from. -/
theorem C10_newer_version_untouched (E : SqlEngine σ) (D : DatabaseState) (cn : Conn σ)
    (hrec : kSchemaVersion < (E.versionRows cn.db).headD 0) :
    UpdateMainSchema E D cn = Except.ok
        ({ D with startup_schema_version_ := (E.versionRows cn.db).headD 0 },
         { cn with trace := cn.trace ++ [DbAction.select "SELECT version FROM schema_version"] })
    ∧ (∀ D2 cn2, UpdateMainSchema E D cn = Except.ok (D2, cn2) →
        cn2.db = cn.db ∧ cn2.errors = cn.errors
        ∧ cn2.trace = cn.trace ++ [DbAction.select "SELECT version FROM schema_version"]
        ∧ D2.startup_schema_version_ = (E.versionRows cn.db).headD 0
        ∧ D2.attached_databases_ = D.attached_databases_
        ∧ D2.injected_database_name_ = D.injected_database_name_) := by
  have hrec' : kSchemaVersion
      < (E.versionRows (noteSelect "SELECT version FROM schema_version" cn).db).headD 0 := hrec
  have h : UpdateMainSchema E D cn = Except.ok
        ({ D with startup_schema_version_ := (E.versionRows cn.db).headD 0 },
         { cn with trace := cn.trace ++ [DbAction.select "SELECT version FROM schema_version"] }) := by
    unfold UpdateMainSchema
    dsimp only
    rw [if_pos hrec']
    rfl
  refine ⟨h, ?_⟩
  intro D2 cn2 h2
  rw [h] at h2
  simp only [Except.ok.injEq, Prod.mk.injEq] at h2
  obtain ⟨rfl, rfl⟩ := h2
  exact ⟨rfl, rfl, rfl, rfl, rfl, rfl⟩

/-- C10, witness: the reference engine at recorded version 50. -/
theorem C10_newer_witness :
    UpdateMainSchema refEngine refDatabase ⟨some 50, [], []⟩ = Except.ok
      ({ refDatabase with startup_schema_version_ := 50 },
       ⟨some 50, [DbAction.select "SELECT version FROM schema_version"], []⟩) :=
  (C10_newer_version_untouched refEngine refDatabase ⟨some 50, [], []⟩ (by decide)).1

end migrationClaims

/-! ## Claims about the schema resources -/

theorem digitChar_value (d : Nat) (h : d < 10) : (Nat.digitChar d).toNat - 48 = d := by
  interval_cases d <;> rfl

theorem decimalValue_concat (cs : List Char) (c : Char) :
    decimalValue (cs ++ [c]) = decimalValue cs * 10 + (c.toNat - 48) := by
  simp [decimalValue, List.foldl_append]

/-- Reading the digits `decimalDigits` writes gives the number back, when the
fuel exceeds the number. -/
theorem decimalValue_decimalDigits (fuel n : Nat) (h : n < fuel) :
    decimalValue (decimalDigits fuel n) = n := by
  induction fuel generalizing n with
  | zero => omega
  | succ fuel ih =>
    unfold decimalDigits
    by_cases hn : n < 10
    · rw [if_pos hn]
      simp [decimalValue, digitChar_value n hn]
    · rw [if_neg hn, decimalValue_concat, ih (n / 10) (by omega),
        digitChar_value _ (Nat.mod_lt _ (by norm_num))]
      omega

theorem decimal_injective (n m : Nat) (h : decimal n = decimal m) : n = m := by
  have hd : decimalDigits (n + 1) n = decimalDigits (m + 1) m := by
    have := congrArg String.data h
    simpa [decimal] using this
  have := congrArg decimalValue hd
  rwa [decimalValue_decimalDigits _ _ (Nat.lt_succ_self n),
    decimalValue_decimalDigits _ _ (Nat.lt_succ_self m)] at this

/-- Every character `decimalDigits` writes is a decimal digit. -/
theorem decimalDigits_are_digits (fuel n : Nat) :
    ∀ c ∈ decimalDigits fuel n, c.isDigit = true := by
  induction fuel generalizing n with
  | zero => simp [decimalDigits]
  | succ fuel ih =>
    unfold decimalDigits
    have hd : ∀ d, d < 10 → (Nat.digitChar d).isDigit = true := by
      intro d hd
      interval_cases d <;> rfl
    by_cases hn : n < 10
    · rw [if_pos hn]
      intro c hc
      simp only [List.mem_singleton] at hc
      rw [hc]
      exact hd n hn
    · rw [if_neg hn]
      intro c hc
      rcases List.mem_append.mp hc with hc | hc
      · exact ih _ c hc
      · simp only [List.mem_singleton] at hc
        rw [hc]
        exact hd _ (Nat.mod_lt _ (by norm_num))

theorem schemaFilename_pos (v : Int) (hv : 0 < v) :
    schemaFilename v = ":/schema/schema-" ++ decimal v.toNat ++ ".sql" := by
  unfold schemaFilename argInt
  rw [if_neg (by omega), if_neg (by omega)]
  congr 2
  congr 1
  omega

/-- C11.  The script of version 0 is `:/schema/schema.sql`; the script of a
version `v > 0` is `:/schema/schema-` followed by `v` in decimal (digits only,
whose decimal value is `v`) and `.sql`; and two non-negative versions with the
same resource name are equal. -/
theorem C11_schema_resource_injective :
    schemaFilename 0 = ":/schema/schema.sql"
    ∧ (∀ v : Int, 0 < v →
        schemaFilename v = ":/schema/schema-" ++ decimal v.toNat ++ ".sql"
        ∧ decimalValue (decimal v.toNat).data = v.toNat
        ∧ (decimal v.toNat).data.all Char.isDigit = true)
    ∧ (∀ v w : Int, 0 ≤ v → 0 ≤ w → schemaFilename v = schemaFilename w → v = w) := by
  have hzero : ∀ v : Int, 0 < v → schemaFilename v ≠ schemaFilename 0 := by
    intro v hv h
    rw [schemaFilename_pos v hv] at h
    have hd := congrArg String.data h
    simp only [String.data_append] at hd
    have h15 := congrArg (fun l => l.get? 15) hd
    simp [schemaFilename] at h15
  refine ⟨rfl, ?_, ?_⟩
  · intro v hv
    refine ⟨schemaFilename_pos v hv, decimalValue_decimalDigits _ _ (Nat.lt_succ_self _), ?_⟩
    rw [List.all_eq_true]
    exact decimalDigits_are_digits _ _
  · intro v w hv hw h
    rcases hv.eq_or_lt with rfl | hv
    · rcases hw.eq_or_lt with rfl | hw
      · rfl
      · exact absurd h.symm (hzero w hw)
    · rcases hw.eq_or_lt with rfl | hw
      · exact absurd h (hzero v hv)
      · rw [schemaFilename_pos v hv, schemaFilename_pos w hw] at h
        have hd := congrArg String.data h
        simp only [String.data_append, List.append_cancel_right_eq,
          List.append_cancel_left_eq] at hd
        have := decimal_injective _ _ (String.ext hd)
        omega

/-! ## Claims about `ExecCommands` and `SongsTables` -/

section execClaims
variable {σ : Type}

theorem execOrDie_trace (E : SqlEngine σ) (command : String) (cn cn2 : Conn σ)
    (h : execOrDie E command cn = Except.ok cn2) :
    cn2.trace = cn.trace ++ [DbAction.exec command] := by
  unfold execOrDie at h
  dsimp only at h
  split at h
  · exact absurd h (by simp)
  · injection h with h
    subst h
    cases hr : (E.run (DbAction.exec command) cn.db).2 <;> simp [CheckErrors, issue, hr]

theorem execForTables_trace (E : SqlEngine σ) (command : String) (tables : List String)
    (cn cn2 : Conn σ) (h : execForTables E command tables cn = Except.ok cn2) :
    cn2.trace = cn.trace
      ++ (tables.map (fun table => qReplace command kMagicAllSongsTables table)).map
          DbAction.exec := by
  induction tables generalizing cn with
  | nil =>
    simp only [execForTables, Except.ok.injEq] at h
    subst h
    simp
  | cons t rest ih =>
    unfold execForTables at h
    cases hs : execOrDie E (qReplace command kMagicAllSongsTables t) cn with
    | error e => rw [hs] at h; exact absurd h (by simp)
    | ok cn1 =>
      rw [hs] at h
      rw [ih cn1 h, execOrDie_trace E _ cn cn1 hs]
      simp

theorem execEach_trace (E : SqlEngine σ) (tables commands : List String)
    (cn cn2 : Conn σ) (h : execEach E tables commands cn = Except.ok cn2) :
    cn2.trace = cn.trace ++ (commands.flatMap (expandCommand tables)).map DbAction.exec := by
  induction commands generalizing cn with
  | nil =>
    simp only [execEach, Except.ok.injEq] at h
    subst h
    simp
  | cons c rest ih =>
    unfold execEach at h
    cases hs : (if qContains c kMagicAllSongsTables then execForTables E c tables cn
           else execOrDie E c cn) with
    | error e => rw [hs] at h; exact absurd h (by simp)
    | ok cn1 =>
      rw [hs] at h
      rw [ih cn1 h]
      by_cases hc : qContains c kMagicAllSongsTables = true
      · rw [if_pos hc] at hs
        rw [execForTables_trace E c tables cn cn1 hs]
        simp [expandCommand, hc]
      · rw [if_neg hc] at hs
        rw [execOrDie_trace E c cn cn1 hs]
        simp [expandCommand, hc]

theorem execEach_returns (E : SqlEngine σ) (hok : ∀ a s, (E.run a s).2 = none)
    (tables commands : List String) (cn : Conn σ) :
    ∃ cn2, execEach E tables commands cn = Except.ok cn2 := by
  have hexec : ∀ command (c : Conn σ), ∃ c2, execOrDie E command c = Except.ok c2 := by
    intro command c
    simp [execOrDie, issue, hok, CheckErrors]
  have htab : ∀ command (ts : List String) (c : Conn σ),
      ∃ c2, execForTables E command ts c = Except.ok c2 := by
    intro command ts
    induction ts with
    | nil => intro c; exact ⟨c, rfl⟩
    | cons t rest ih =>
      intro c
      obtain ⟨c1, h1⟩ := hexec (qReplace command kMagicAllSongsTables t) c
      obtain ⟨c2, h2⟩ := ih c1
      exact ⟨c2, by rw [execForTables, h1]; exact h2⟩
  induction commands generalizing cn with
  | nil => exact ⟨cn, rfl⟩
  | cons cmd rest ih =>
    have h1 : ∃ c1, (if qContains cmd kMagicAllSongsTables then execForTables E cmd tables cn
        else execOrDie E cmd cn) = Except.ok c1 := by
      split
      · exact htab cmd tables cn
      · exact hexec cmd cn
    obtain ⟨c1, h1⟩ := h1
    obtain ⟨c2, h2⟩ := ih c1
    exact ⟨c2, by rw [execEach, h1]; exact h2⟩

theorem songsTables_eq (E : SqlEngine σ) (D : DatabaseState) (sv : Int) (cn : Conn σ) :
    SongsTables E D sv cn
      = if sv > 29 then
          ((D.attached_databases_.foldl (songsTablesStep E)
              ((E.tables cn.db).filter
                (fun table => table == "songs" || qEndsWith table "_songs"), cn)).1
            ++ ["playlist_items"],
           (D.attached_databases_.foldl (songsTablesStep E)
              ((E.tables cn.db).filter
                (fun table => table == "songs" || qEndsWith table "_songs"), cn)).2)
        else
          D.attached_databases_.foldl (songsTablesStep E)
            ((E.tables cn.db).filter
              (fun table => table == "songs" || qEndsWith table "_songs"), cn) := rfl

/-- The loop over the attached databases: it appends the entries of each
database in turn, records one query per database and leaves the rest of the
connection alone. -/
theorem songsTablesStep_foldl (E : SqlEngine σ) (l : List (String × AttachedDatabase))
    (acc : List String × Conn σ) :
    l.foldl (songsTablesStep E) acc
      = (acc.1 ++ l.flatMap (attachedEntries E acc.2.db),
         { acc.2 with
           trace := acc.2.trace ++ l.map (fun kv => DbAction.select (attachedQuery kv.1)) }) := by
  induction l generalizing acc with
  | nil => simp
  | cons kv l ih =>
    rw [List.foldl_cons, ih]
    unfold songsTablesStep attachedEntries attachedQuery noteSelect
    dsimp only
    cases h : E.sqliteMaster kv.1 acc.2.db <;> simp [h]

theorem songsTables_db (E : SqlEngine σ) (D : DatabaseState) (sv : Int) (cn : Conn σ) :
    (SongsTables E D sv cn).2.db = cn.db ∧ (SongsTables E D sv cn).2.errors = cn.errors := by
  rw [songsTables_eq, songsTablesStep_foldl]
  split <;> exact ⟨rfl, rfl⟩

/-- C12.  Let `T` be the list `SongsTables` computes on the connection as
`ExecCommands` finds it, before any statement runs.  Whenever `ExecCommands`
returns, the statements it has run with `db.exec`, in order, are exactly
`scriptStatements T schema`: for each piece of the script between `";\n\n"`,
the piece itself once when it does not contain `%allsongstables`, otherwise
one statement per table of `T` in the order of `T`, the piece with
`%allsongstables` replaced by the table.  Nothing else is added to the trace
after the queries of `SongsTables`, which leave the database as it was.  And
`ExecCommands` does return when the engine reports no error. -/
theorem C12_exec_commands_statements (E : SqlEngine σ) (D : DatabaseState) (schema : String)
    (schema_version : Int) (cn : Conn σ) :
    (∀ cn2, ExecCommands E D schema schema_version cn = Except.ok cn2 →
        cn2.trace = (SongsTables E D schema_version cn).2.trace
          ++ (scriptStatements (SongsTables E D schema_version cn).1 schema).map DbAction.exec)
    ∧ (SongsTables E D schema_version cn).2.db = cn.db
    ∧ scriptStatements (SongsTables E D schema_version cn).1 schema
        = (qSplit schema ";\n\n").flatMap (fun piece =>
            if qContains piece "%allsongstables" then
              (SongsTables E D schema_version cn).1.map
                (fun table => qReplace piece "%allsongstables" table)
            else [piece])
    ∧ ((∀ a s, (E.run a s).2 = none) →
        ∃ cn2, ExecCommands E D schema schema_version cn = Except.ok cn2) := by
  refine ⟨?_, (songsTables_db E D schema_version cn).1, rfl, ?_⟩
  · intro cn2 h
    exact execEach_trace E _ _ _ cn2 h
  · intro hok
    exact execEach_returns E hok _ _ _

/-- C12, witness: on the reference engine, at schema version 30 (the songs
tables are then `playlist_items` alone), a script of two pieces runs the first
piece for that table and the second piece as it is. -/
theorem C12_exec_commands_witness :
    ∃ cn2, ExecCommands refEngine refDatabase
        "ALTER TABLE %allsongstables ADD x;\n\nbump" 30 ⟨some 30, [], []⟩ = Except.ok cn2
      ∧ cn2.trace = [DbAction.select (attachedQuery "jamendo"),
          DbAction.exec "ALTER TABLE playlist_items ADD x", DbAction.exec "bump"] := by
  obtain ⟨h1, _, _, h4⟩ := C12_exec_commands_statements refEngine refDatabase
    "ALTER TABLE %allsongstables ADD x;\n\nbump" 30 ⟨some 30, [], []⟩
  obtain ⟨cn2, h⟩ := h4 (fun _ _ => rfl)
  refine ⟨cn2, h, ?_⟩
  rw [h1 cn2 h]
  decide

end execClaims

section songsTablesClaims
variable {σ : Type}

/-- The model of `QString::endsWith` holds exactly when the string is some
string followed by the suffix. -/
theorem qEndsWith_iff (s t : String) : qEndsWith s t = true ↔ ∃ p : String, s = p ++ t := by
  unfold qEndsWith
  rw [List.isSuffixOf_iff_suffix]
  constructor
  · rintro ⟨l, hl⟩
    exact ⟨String.mk l, String.ext (by simp [hl])⟩
  · rintro ⟨p, rfl⟩
    exact ⟨p.data, by simp⟩

/-- C13.  The result of `SongsTables` is, in this order: the entries of the
main database, which are the tables `db.tables()` lists that are `songs` or end
with `_songs`, in the order of `db.tables()`; then the entries of the attached
databases, alias by alias, each of the form `alias.name`; then `playlist_items`
when the schema version is above 29. -/
theorem C13_songs_tables_result (E : SqlEngine σ) (D : DatabaseState) (schema_version : Int)
    (cn : Conn σ) :
    (SongsTables E D schema_version cn).1
        = (E.tables cn.db).filter (fun table => table == "songs" || qEndsWith table "_songs")
          ++ D.attached_databases_.flatMap (attachedEntries E cn.db)
          ++ (if schema_version > 29 then ["playlist_items"] else [])
    ∧ (∀ t, t ∈ (E.tables cn.db).filter
              (fun table => table == "songs" || qEndsWith table "_songs")
          ↔ t ∈ E.tables cn.db ∧ (t = "songs" ∨ ∃ p : String, t = p ++ "_songs"))
    ∧ ((E.tables cn.db).filter
          (fun table => table == "songs" || qEndsWith table "_songs")).Sublist (E.tables cn.db)
    ∧ (∀ kv ∈ D.attached_databases_, ∀ e ∈ attachedEntries E cn.db kv,
          ∃ name : String, e = kv.1 ++ "." ++ name) := by
  refine ⟨?_, ?_, List.filter_sublist _, ?_⟩
  · rw [songsTables_eq, songsTablesStep_foldl]
    split <;> simp
  · intro t
    simp only [List.mem_filter, Bool.or_eq_true, beq_iff_eq, qEndsWith_iff]
  · intro kv _ e he
    unfold attachedEntries at he
    cases h : E.sqliteMaster kv.1 cn.db with
    | none => simp [h] at he
    | some rows =>
      simp only [h, List.mem_map] at he
      obtain ⟨row, _, rfl⟩ := he
      exact ⟨row.2, rfl⟩

end songsTablesClaims

/-! ## Claims about `IntegrityCheck` -/

section integrityClaims
variable {σ : Type}

/-- The loop: it returns true exactly when a row is `ok`, and it hands to
`AddError` the guidance, unless an error was reported before, and one message
per row before the first `ok`; nothing else in the world changes. -/
theorem integrityLoop_spec (Q : QtEnv σ) (rows : List String) (error_reported : Bool)
    (w : World σ) :
    (integrityLoop Q rows error_reported w).1 = decide ("ok" ∈ rows)
    ∧ (integrityLoop Q rows error_reported w).2
        = { w with cn := { w.cn with errors := w.cn.errors
              ++ (if error_reported = false ∧ processedRows rows ≠ []
                    then [Q.tr kCorruptionGuidance] else [])
              ++ (processedRows rows).map (fun message => "Database: " ++ message) } } := by
  induction rows generalizing error_reported w with
  | nil => simp [integrityLoop, processedRows]
  | cons m rest ih =>
    unfold integrityLoop
    by_cases hm : m = "ok"
    · subst hm
      simp [processedRows]
    · rw [if_neg hm]
      obtain ⟨h1, h2⟩ := ih true
        (AddError ("Database: " ++ m)
          (if (!error_reported) = true then AddError (Q.tr kCorruptionGuidance) w else w))
      have hne : (m != "ok") = true := by simpa using hm
      have hp : processedRows (m :: rest) = m :: processedRows rest := by
        simp [processedRows, List.takeWhile_cons, hne]
      refine ⟨?_, ?_⟩
      · rw [h1]
        have : ¬ "ok" = m := fun h => hm h.symm
        simp [this]
      · rw [h2, hp]
        cases error_reported <;> simp [AddError]

end integrityClaims
section integrityCheckClaims
variable {σ : Type}

/-- The rows a check reads: those of the pragma on an open handle, none on a
handle that is not open. -/
theorem integrityCheck_spec (Q : QtEnv σ) (db : QSqlDatabase) (w : World σ) :
    (IntegrityCheck Q db w).1
        = decide ("ok" ∈ (if db.isOpen then Q.integrityRows w.cn.db else []))
    ∧ (IntegrityCheck Q db w).2.cn.errors
        = w.cn.errors ++ integrityErrors Q
            (processedRows (if db.isOpen then Q.integrityRows w.cn.db else [])) := by
  unfold IntegrityCheck
  simp only [StartTask, SetTaskFinished, noteSelect]
  refine ⟨(integrityLoop_spec Q _ false _).1, ?_⟩
  rw [(integrityLoop_spec Q _ false _).2]
  simp only [integrityErrors]
  generalize processedRows (if db.isOpen then Q.integrityRows w.cn.db else []) = p
  by_cases hp : p = []
  · simp [hp]
  · simp [hp]

/-- The rows handled are the rows before the first `ok`. -/
theorem processedRows_spec (rows : List String) :
    (∀ m ∈ processedRows rows, m ≠ "ok")
    ∧ ∃ rest, rows = processedRows rows ++ rest ∧ (rest = [] ∨ rest.head? = some "ok") := by
  refine ⟨?_, ?_⟩
  · intro m hm
    have := List.mem_takeWhile_imp hm
    simpa using this
  · refine ⟨rows.dropWhile (fun message => message != "ok"), ?_, ?_⟩
    · exact (List.takeWhile_append_dropWhile _ rows).symm
    · induction rows with
      | nil => simp
      | cons m rest ih =>
        by_cases hm : m = "ok"
        · subst hm
          simp [List.dropWhile_cons]
        · have hne : (m != "ok") = true := by simpa using hm
          simpa [List.dropWhile_cons, hne] using ih

/-- On any rows: `IntegrityCheck` returns true exactly when one of the rows is
`ok`; the messages it passes to `AddError` are those for the rows before the
first `ok`.  So it returns true without a message passed to `AddError` exactly
when the first row is `ok`, and then the sink is left as it was. -/
theorem integrityCheck_true_iff (Q : QtEnv σ) (db : QSqlDatabase) (w : World σ) :
    ((IntegrityCheck Q db w).1 = true
        ↔ "ok" ∈ (if db.isOpen then Q.integrityRows w.cn.db else []))
    ∧ ((IntegrityCheck Q db w).1 = true ∧ (IntegrityCheck Q db w).2.cn.errors = w.cn.errors
        ↔ (if db.isOpen then Q.integrityRows w.cn.db else []).head? = some "ok")
    ∧ ((IntegrityCheck Q db w).2.cn.errors = w.cn.errors
        ↔ processedRows (if db.isOpen then Q.integrityRows w.cn.db else []) = []) := by
  obtain ⟨h1, h2⟩ := integrityCheck_spec Q db w
  generalize (if db.isOpen then Q.integrityRows w.cn.db else []) = rows at h1 h2
  have h3 : (IntegrityCheck Q db w).2.cn.errors = w.cn.errors ↔ processedRows rows = [] := by
    rw [h2]
    unfold integrityErrors
    by_cases hp : processedRows rows = []
    · simp [hp]
    · simp [hp]
  refine ⟨by rw [h1]; simp, ?_, h3⟩
  rw [h3, h1]
  cases rows with
  | nil => simp
  | cons m rest =>
    by_cases hm : m = "ok"
    · subst hm
      simp [processedRows]
    · have hne : (m != "ok") = true := by simpa using hm
      simp [processedRows, List.takeWhile_cons, hne, hm]

/-- C14.  On the rows the integrity pragma returns, the single row `ok` or
error rows none of which is `ok`: whenever `IntegrityCheck` returns true, the
handle is open, the rows are the single row `ok`, and no message was passed to
`AddError`, the sink being as it was before the check.  And on an open handle
the single row `ok` does make it return true. -/
theorem C14_true_only_without_errors (Q : QtEnv σ) (db : QSqlDatabase) (w : World σ)
    (hrows : PragmaRows (Q.integrityRows w.cn.db)) :
    ((IntegrityCheck Q db w).1 = true →
      db.isOpen = true ∧ Q.integrityRows w.cn.db = ["ok"]
      ∧ (IntegrityCheck Q db w).2.cn.errors = w.cn.errors)
    ∧ (db.isOpen = true → Q.integrityRows w.cn.db = ["ok"] →
        (IntegrityCheck Q db w).1 = true) := by
  obtain ⟨h1, h2, _⟩ := integrityCheck_true_iff Q db w
  constructor
  · intro ht
    have hmem := h1.1 ht
    cases hopen : db.isOpen with
    | false =>
      rw [hopen] at hmem
      simp at hmem
    | true =>
      rw [hopen] at hmem h2
      simp only [if_true] at hmem h2
      rcases hrows with hok | hno
      · refine ⟨rfl, hok, (h2.2 ?_).2⟩
        rw [hok]
        rfl
      · exact absurd hmem hno
  · intro hopen hok
    apply h1.2
    rw [hopen, hok]
    simp

/-- C14, witness: on an open handle whose pragma returns the single row `ok`
the check returns true and the sink stays empty. -/
theorem C14_true_witness :
    (IntegrityCheck (refQtEnv ["ok"]) ⟨"1_thread_1", "clementine.db", true⟩
        (refWorld none)).1 = true
    ∧ (IntegrityCheck (refQtEnv ["ok"]) ⟨"1_thread_1", "clementine.db", true⟩
        (refWorld none)).2.cn.errors = [] :=
  ⟨(C14_true_only_without_errors (refQtEnv ["ok"]) ⟨"1_thread_1", "clementine.db", true⟩
      (refWorld none) (Or.inl rfl)).2 rfl rfl,
    ((C14_true_only_without_errors (refQtEnv ["ok"]) ⟨"1_thread_1", "clementine.db", true⟩
      (refWorld none) (Or.inl rfl)).1 (by decide)).2.2⟩

/-- C15.  The messages `IntegrityCheck` passes to `AddError` are, in this order
and nothing else: the translated corruption guidance, once, when at least one
error row is handled, and then `Database: ` followed by the row for each error
row handled; when no error row is handled nothing is passed.  The rows handled
are the rows before the first `ok`. -/
theorem C15_integrity_messages (Q : QtEnv σ) (db : QSqlDatabase) (w : World σ) :
    (IntegrityCheck Q db w).2.cn.errors
        = w.cn.errors
          ++ (if processedRows (if db.isOpen then Q.integrityRows w.cn.db else []) = [] then []
              else Q.tr kCorruptionGuidance
                :: (processedRows (if db.isOpen then Q.integrityRows w.cn.db else [])).map
                    (fun message => "Database: " ++ message))
    ∧ (∀ m ∈ processedRows (if db.isOpen then Q.integrityRows w.cn.db else []), m ≠ "ok")
    ∧ ∃ rest, (if db.isOpen then Q.integrityRows w.cn.db else [])
          = processedRows (if db.isOpen then Q.integrityRows w.cn.db else []) ++ rest
        ∧ (rest = [] ∨ rest.head? = some "ok") :=
  ⟨(integrityCheck_spec Q db w).2, processedRows_spec _⟩

end integrityCheckClaims

/-! ## Claims about `BackupFile` -/

section backupClaims
variable {σ : Type}

/-- Calls outside the SQL layer leave the static members as they are. -/
theorem viaPointer_ok (symbol : String) (w : World σ)
    (hs : ∀ s ∈ sqliteSymbols, w.statics.resolved.contains s = true)
    (hm : symbol ∈ sqliteSymbols) : viaPointer symbol w = Except.ok () := by
  unfold viaPointer
  rw [if_pos (hs symbol hm)]

/-- One round under the contract: the step is made, the page count and the
remaining count are read, and the pages copied so far are reported. -/
theorem backupStep_ideal (S : Sqlite3 σ) (copied : σ → Nat) (N : Nat)
    (h : IdealBackup S copied N) (task_id : Int) (backup : Nat) (w : World σ)
    (hs : ∀ s ∈ sqliteSymbols, w.statics.resolved.contains s = true) :
    backupStep S task_id backup w
      = Except.ok ((S.sqlite3_backup_step backup 16 w.cn.db).2,
          { w with
            cn := { w.cn with db := (S.sqlite3_backup_step backup 16 w.cn.db).1 },
            log := w.log ++ roundEvents task_id backup N
                    (copied (S.sqlite3_backup_step backup 16 w.cn.db).1) }) := by
  have h1 : viaPointer "sqlite3_backup_step" w = Except.ok () :=
    viaPointer_ok _ w hs (by decide)
  have h2 : ∀ e db, viaPointer "sqlite3_backup_pagecount" (record e db w) = Except.ok () :=
    fun e db => viaPointer_ok _ _ hs (by decide)
  have h3 : ∀ e db e2 db2,
      viaPointer "sqlite3_backup_remaining" (record e2 db2 (record e db w)) = Except.ok () :=
    fun e db e2 db2 => viaPointer_ok _ _ hs (by decide)
  unfold backupStep
  simp only [h1, h2, h3, bind, Except.bind, pure, Except.pure]
  simp only [record, SetTaskProgress, roundEvents, h.pagecount, h.remaining]
  simp [List.append_assoc]

/-- The copy loop under the contract, started with no more than `N` pages
copied and with more rounds allowed than pages remain: it ends with
`SQLITE_DONE`, and its rounds report counts that never decrease, the last of
them `N` and every earlier one below `N`. -/
theorem backupLoop_ideal (S : Sqlite3 σ) (copied : σ → Nat) (N : Nat)
    (h : IdealBackup S copied N) (task_id : Int) (backup : Nat) :
    ∀ (fuel : Nat) (w : World σ),
      (∀ s ∈ sqliteSymbols, w.statics.resolved.contains s = true) →
      copied w.cn.db ≤ N → N - copied w.cn.db < fuel →
      ∃ cs w2, backupLoop S task_id backup fuel w = Except.ok (some (SQLITE_DONE, w2))
        ∧ w2.statics = w.statics
        ∧ w2.log = w.log ++ cs.flatMap (roundEvents task_id backup N)
        ∧ List.Chain (fun a b => a ≤ b) (copied w.cn.db) cs
        ∧ ∃ init, cs = init ++ [N] ∧ ∀ c ∈ init, c < N := by
  intro fuel
  induction fuel with
  | zero => intro w _ _ hf; omega
  | succ fuel ih =>
    intro w hs hc hf
    unfold backupLoop
    rw [backupStep_ideal S copied N h task_id backup w hs]
    simp only []
    have hcode := h.step_code backup w.cn.db
    have hle := h.step_least backup w.cn.db hc
    have hb := h.step_bound backup w.cn.db
    by_cases hN : copied (S.sqlite3_backup_step backup 16 w.cn.db).1 = N
    · rw [if_pos hN] at hcode
      rw [hcode, if_neg (by decide)]
      refine ⟨[N], _, rfl, rfl, ?_, ?_, [], rfl, by simp⟩
      · simp [hN]
      · exact List.Chain.cons (hN ▸ hle) List.Chain.nil
    · rw [if_neg hN] at hcode
      rw [hcode, if_pos rfl]
      have hlt : copied w.cn.db < N := by
        rcases Nat.lt_or_ge (copied w.cn.db) N with hlt | hge
        · exact hlt
        · exact absurd (le_antisymm hb (le_trans hge hle)) hN
      have hadv := h.step_advances backup w.cn.db hlt
      obtain ⟨cs, w2, hrun, hst, hlog, hchain, init, hcs, hinit⟩ :=
        ih { w with
              cn := { w.cn with db := (S.sqlite3_backup_step backup 16 w.cn.db).1 },
              log := w.log ++ roundEvents task_id backup N
                      (copied (S.sqlite3_backup_step backup 16 w.cn.db).1) }
          hs hb (by dsimp only; omega)
      refine ⟨copied (S.sqlite3_backup_step backup 16 w.cn.db).1 :: cs, w2, hrun, hst, ?_, ?_, ?_⟩
      · rw [hlog]
        simp [List.append_assoc]
      · exact List.Chain.cons hle hchain
      · refine ⟨copied (S.sqlite3_backup_step backup 16 w.cn.db).1 :: init, by simp [hcs], ?_⟩
        intro c hc
        rcases List.mem_cons.1 hc with rfl | hc
        · exact lt_of_le_of_ne hb hN
        · exact hinit c hc

end backupClaims

section backupFileClaims
variable {σ : Type}

/-- Function `OpenDatabase` under the contract: it succeeds and stores the
connection `sqlite3_open` made. -/
theorem openDatabase_ideal (S : Sqlite3 σ) (copied : σ → Nat) (N : Nat)
    (h : IdealBackup S copied N) (filename : String) (w : World σ)
    (hs : ∀ s ∈ sqliteSymbols, w.statics.resolved.contains s = true) :
    OpenDatabase S filename w
      = Except.ok (true, (S.sqlite3_open filename w.cn.db).2.2,
          record (Event.sqlite3_open filename) (S.sqlite3_open filename w.cn.db).1 w) := by
  have h1 : viaPointer "sqlite3_open" w = Except.ok () := viaPointer_ok _ w hs (by decide)
  unfold OpenDatabase
  simp only [h1, bind, Except.bind, pure, Except.pure]
  rw [if_neg (by simp [h.open_ok filename w.cn.db])]

/-- The scope-exit block when the close pointer is resolved. -/
theorem scopeExit_ok (S : Sqlite3 σ) (source dest : Option Nat) (task_id : Int) (w : World σ)
    (hs : ∀ s ∈ sqliteSymbols, w.statics.resolved.contains s = true) :
    ∃ w2, scopeExit S source dest task_id w = Except.ok w2
      ∧ w2.log = w.log ++ [Event.sqlite3_close source, Event.sqlite3_close dest,
          Event.setTaskFinished task_id] := by
  have h1 : viaPointer "sqlite3_close" w = Except.ok () := viaPointer_ok _ w hs (by decide)
  have h2 : ∀ e db, viaPointer "sqlite3_close" (record e db w) = Except.ok () :=
    fun e db => viaPointer_ok _ _ hs (by decide)
  unfold scopeExit closeConnection
  simp only [h1, h2, bind, Except.bind, pure, Except.pure]
  exact ⟨_, rfl, by simp [record, SetTaskFinished, List.append_assoc]⟩

/-- The ideal primitive meets the contract. -/
theorem idealSqlite_contract (N : Nat) : IdealBackup (idealSqlite N) BackupState.copied N where
  open_ok := fun _ _ => rfl
  init_ok := fun _ _ _ => by simp [idealSqlite]
  init_copied := fun _ _ _ => rfl
  step_least := fun _ st hle => by
    show st.copied ≤ min N (st.copied + (16 : Int).toNat)
    exact Nat.le_min.2 ⟨hle, Nat.le_add_right _ _⟩
  step_most := fun _ st => by
    show min N (st.copied + (16 : Int).toNat) ≤ st.copied + 16
    exact le_trans (Nat.min_le_right _ _) (le_of_eq rfl)
  step_bound := fun _ st => Nat.min_le_left _ _
  step_advances := fun _ st hlt => by
    show st.copied < min N (st.copied + (16 : Int).toNat)
    have : (16 : Int).toNat = 16 := rfl
    rw [this]
    omega
  step_code := fun _ _ => rfl
  pagecount := fun _ _ => rfl
  remaining := fun _ _ => rfl

/-- C17, the code where both databases open (a source of 20 pages, connections
1 and 2, task 1): the whole sequence of calls.  `_sqlite3_close` is called
twice with `NULL`, never with connection 1 or 2; the task is finished once. -/
theorem C17_connections_never_closed :
    ∃ w, BackupFile (idealSqlite 20) (refQtEnv []) "clementine.db" 3 backupWorld
          = Except.ok (some w)
      ∧ w.log =
          [Event.startTask "Backing up database" 1,
           Event.sqlite3_open "clementine.db",
           Event.sqlite3_open "clementine.db.bak",
           Event.sqlite3_backup_init (some 2) (some 1),
           Event.sqlite3_backup_step 1 16, Event.sqlite3_backup_pagecount 1,
           Event.sqlite3_backup_remaining 1, Event.setTaskProgress 1 16 20,
           Event.sqlite3_backup_step 1 16, Event.sqlite3_backup_pagecount 1,
           Event.sqlite3_backup_remaining 1, Event.setTaskProgress 1 20 20,
           Event.sqlite3_backup_finish 1,
           Event.sqlite3_close none, Event.sqlite3_close none,
           Event.setTaskFinished 1]
      ∧ w.log.count (Event.sqlite3_close (some 1)) = 0
      ∧ w.log.count (Event.sqlite3_close (some 2)) = 0
      ∧ w.log.count (Event.setTaskFinished 1) = 1 :=
  ⟨_, rfl, by decide⟩

/-- C18.  Let the backup primitive meet the contract of a source of `N` pages
that is not modified (steps of 16 copy at most 16 pages, at least one while
pages remain, and return `SQLITE_DONE` on the step that copies the last
page), with every symbol resolved and more rounds allowed than `N`.  Then
`BackupFile` returns, and its calls are: the start of the task, the two opens,
the backup object, then for each count `c` of a list `cs` one round made of a
step of 16, the two page counts and the progress report `(c, N)`, then the
finish and the scope-exit calls.  The counts never decrease, the last is `N`
and every earlier one is below `N`: `copied = total` holds at the last report
only. -/
theorem C18_progress_reports (S : Sqlite3 σ) (Q : QtEnv σ) (copied : σ → Nat) (N : Nat)
    (h : IdealBackup S copied N) (filename : String) (fuel : Nat) (w : World σ)
    (hs : ∀ s ∈ sqliteSymbols, w.statics.resolved.contains s = true) (hf : N < fuel) :
    ∃ w2 cs source dest backup,
      BackupFile S Q filename fuel w = Except.ok (some w2)
      ∧ w2.log = w.log
          ++ [Event.startTask (Q.tr "Backing up database") w.nextTaskId,
              Event.sqlite3_open filename, Event.sqlite3_open (filename ++ ".bak"),
              Event.sqlite3_backup_init dest source]
          ++ cs.flatMap (roundEvents w.nextTaskId backup N)
          ++ [Event.sqlite3_backup_finish backup, Event.sqlite3_close none,
              Event.sqlite3_close none, Event.setTaskFinished w.nextTaskId]
      ∧ cs.Pairwise (fun a b => a ≤ b)
      ∧ ∃ init, cs = init ++ [N] ∧ ∀ c ∈ init, c < N := by
  unfold BackupFile
  simp only []
  rw [openDatabase_ideal S copied N h filename (StartTask (Q.tr "Backing up database") w).2 hs]
  simp only [Bool.not_true, Bool.false_eq_true, if_false]
  rw [openDatabase_ideal S copied N h (filename ++ ".bak")
    (record (Event.sqlite3_open filename)
      (S.sqlite3_open filename (StartTask (Q.tr "Backing up database") w).2.cn.db).1
      (StartTask (Q.tr "Backing up database") w).2) hs]
  simp only [Bool.not_true, Bool.false_eq_true, if_false]
  generalize hw2 : record (Event.sqlite3_open (filename ++ ".bak")) _ _ = w2
  rw [viaPointer_ok "sqlite3_backup_init" w2 (by rw [← hw2]; exact hs) (by decide)]
  simp only []
  generalize hsrc : (S.sqlite3_open filename _).2.2 = source
  generalize hdst : (S.sqlite3_open (filename ++ ".bak") _).2.2 = dest
  have hs2 : ∀ s ∈ sqliteSymbols, w2.statics.resolved.contains s = true := by
    rw [← hw2]; exact hs
  have hlog2 : w2.log = w.log ++ [Event.startTask (Q.tr "Backing up database") w.nextTaskId,
      Event.sqlite3_open filename, Event.sqlite3_open (filename ++ ".bak")] := by
    rw [← hw2]; simp [record, StartTask]
  cases hb : (S.sqlite3_backup_init dest source w2.cn.db).2 with
  | none => exact absurd hb (h.init_ok dest source w2.cn.db)
  | some backup =>
    simp only []
    obtain ⟨cs, w4, hrun, hst4, hlog4, hchain, hlast⟩ :=
      backupLoop_ideal S copied N h (StartTask (Q.tr "Backing up database") w).1 backup fuel
        (record (Event.sqlite3_backup_init dest source)
          (S.sqlite3_backup_init dest source w2.cn.db).1 w2)
        hs2 (by simp [record, h.init_copied]) (by simp [record, h.init_copied]; omega)
    rw [hrun]
    simp only []
    have hs4 : ∀ s ∈ sqliteSymbols, w4.statics.resolved.contains s = true := by
      rw [hst4]; exact hs2
    rw [viaPointer_ok "sqlite3_backup_finish" w4 hs4 (by decide)]
    simp only []
    obtain ⟨w5, hexit, hlog5⟩ := scopeExit_ok S none none
      (StartTask (Q.tr "Backing up database") w).1
      (record (Event.sqlite3_backup_finish backup) (S.sqlite3_backup_finish backup w4.cn.db) w4)
      hs4
    rw [hexit]
    refine ⟨w5, cs, source, dest, backup, rfl, ?_, ?_, hlast⟩
    · rw [hlog5]
      simp [record, hlog4, hlog2, StartTask, List.append_assoc]
    · have := List.chain_iff_pairwise.1 hchain
      exact (List.pairwise_cons.1 this).2

/-- C18, witness: a source of 40 pages, copied in the rounds 16, 32, 40. -/
theorem C18_progress_witness :
    ∃ w2 cs source dest backup,
      BackupFile (idealSqlite 40) (refQtEnv []) "clementine.db" 41 backupWorld
        = Except.ok (some w2)
      ∧ w2.log = backupWorld.log
          ++ [Event.startTask "Backing up database" backupWorld.nextTaskId,
              Event.sqlite3_open "clementine.db", Event.sqlite3_open ("clementine.db" ++ ".bak"),
              Event.sqlite3_backup_init dest source]
          ++ cs.flatMap (roundEvents backupWorld.nextTaskId backup 40)
          ++ [Event.sqlite3_backup_finish backup, Event.sqlite3_close none,
              Event.sqlite3_close none, Event.setTaskFinished backupWorld.nextTaskId]
      ∧ cs.Pairwise (fun a b => a ≤ b)
      ∧ ∃ init, cs = init ++ [40] ∧ ∀ c ∈ init, c < 40 :=
  C18_progress_reports (idealSqlite 40) (refQtEnv []) BackupState.copied 40
    (idealSqlite_contract 40) "clementine.db" 41 backupWorld (by decide) (by decide)

end backupFileClaims

/-! ## Traces of `Connect` -/

section connectProofs
variable {σ : Type}

theorem quietExt_refl (cn : Conn σ) : QuietExt cn cn := ⟨[], by simp, rfl⟩

theorem quietExt_trans {a b c : Conn σ} (h1 : QuietExt a b) (h2 : QuietExt b c) :
    QuietExt a c := by
  obtain ⟨l1, e1, p1⟩ := h1
  obtain ⟨l2, e2, p2⟩ := h2
  exact ⟨l1 ++ l2, by rw [e2, e1, List.append_assoc], by simp [List.filter_append, p1, p2]⟩

/-- Plain actions are actions of the migration. -/
theorem quiet_of_plain (l : List DbAction) (h : l.all DbAction.plain = true) :
    l.filter DbAction.connects = [] := by
  rw [List.filter_eq_nil_iff]
  intro a ha
  have hp := List.all_eq_true.1 h a ha
  cases a <;> simp_all [DbAction.plain, DbAction.connects]

theorem quietExt_of_plainExt {a b : Conn σ} (h : PlainExt a b) : QuietExt a b := by
  obtain ⟨l, e, p⟩ := h
  exact ⟨l, e, quiet_of_plain l p⟩

/-- One action that is none of those of `Connect`. -/
theorem quietExt_one {a b : Conn σ} (x : DbAction) (hx : x.connects = false)
    (h : b.trace = a.trace ++ [x]) : QuietExt a b :=
  ⟨[x], h, by simp [hx]⟩

theorem quiet_stepShape (E : SqlEngine σ) (D : DatabaseState) (v : Int) (seg : List DbAction)
    (h : StepShape E D v seg) : seg.filter DbAction.connects = [] := by
  obtain ⟨pre, ex, rfl, hpre, hex, _⟩ := h
  simp [List.filter_append, quiet_of_plain pre hpre, quiet_of_plain ex hex, DbAction.connects]

theorem quietExt_updateDatabaseSchema (E : SqlEngine σ) (D : DatabaseState) (v : Int)
    (cn cn2 : Conn σ) (h : UpdateDatabaseSchema E D v cn = Except.ok cn2) : QuietExt cn cn2 := by
  obtain ⟨seg, hseg, hshape⟩ := updateDatabaseSchema_ok E D v cn cn2 h
  exact ⟨seg, hseg, quiet_stepShape E D v seg hshape⟩

theorem quiet_segments (E : SqlEngine σ) (D : DatabaseState) (vs : List Int)
    (segs : List (List DbAction)) (h : List.Forall₂ (StepShape E D) vs segs) :
    segs.flatten.filter DbAction.connects = [] := by
  induction h with
  | nil => rfl
  | cons hstep _ ih =>
    rw [List.flatten_cons, List.filter_append, quiet_stepShape E D _ _ hstep, ih]
    rfl

theorem quietExt_updateMainSchema (E : SqlEngine σ) (D D1 : DatabaseState) (cn cn2 : Conn σ)
    (h : UpdateMainSchema E D cn = Except.ok (D1, cn2)) :
    QuietExt cn cn2
    ∧ D1 = { D with startup_schema_version_ := (E.versionRows cn.db).headD 0 } := by
  unfold UpdateMainSchema at h
  dsimp only at h
  have hsel : QuietExt cn (noteSelect "SELECT version FROM schema_version" cn) :=
    quietExt_of_plainExt (plainExt_noteSelect _ cn)
  split at h
  · simp only [Except.ok.injEq, Prod.mk.injEq] at h
    obtain ⟨hD, hcn⟩ := h
    subst hD hcn
    exact ⟨hsel, rfl⟩
  · split at h
    · cases hl : updateLoop E
          { D with startup_schema_version_ :=
              (E.versionRows (noteSelect "SELECT version FROM schema_version" cn).db).headD 0 }
          ((E.versionRows (noteSelect "SELECT version FROM schema_version" cn).db).headD 0 + 1)
          (noteSelect "SELECT version FROM schema_version" cn) with
      | error e => rw [hl] at h; exact absurd h (by simp)
      | ok cn3 =>
        rw [hl] at h
        simp only [Except.ok.injEq, Prod.mk.injEq] at h
        obtain ⟨hD, hcn⟩ := h
        subst hD hcn
        obtain ⟨segs, hsegs, htr⟩ := updateLoop_ok E _ _ _ _ cn3 rfl hl
        exact ⟨quietExt_trans hsel ⟨segs.flatten, htr, quiet_segments E _ _ segs hsegs⟩, rfl⟩
    · simp only [Except.ok.injEq, Prod.mk.injEq] at h
      obtain ⟨hD, hcn⟩ := h
      subst hD hcn
      exact ⟨hsel, rfl⟩

theorem quietExt_execFromFile (E : SqlEngine σ) (D : DatabaseState) (filename : String)
    (sv : Int) (cn cn2 : Conn σ) (h : ExecFromFile E D filename sv cn = Except.ok cn2) :
    QuietExt cn cn2 := by
  unfold ExecFromFile at h
  dsimp only at h
  cases hr : E.resource filename with
  | none => rw [hr] at h; exact absurd h (by simp)
  | some schema =>
    rw [hr] at h
    exact quietExt_trans
      (quietExt_one (DbAction.openResource filename) rfl rfl)
      (quietExt_of_plainExt (execCommands_ok E D schema sv _ cn2 h))

theorem quietExt_initAttached (E : SqlEngine σ) (D : DatabaseState)
    (l : List (String × AttachedDatabase)) :
    ∀ (cn cn2 : Conn σ), initAttached E D l cn = Except.ok cn2 → QuietExt cn cn2 := by
  induction l with
  | nil =>
    intro cn cn2 h
    simp only [initAttached, Except.ok.injEq] at h
    subst h
    exact quietExt_refl cn
  | cons kv rest ih =>
    intro cn cn2 h
    unfold initAttached at h
    dsimp only at h
    have hsel : QuietExt cn (noteSelect (attachedTablesQuery kv.1) cn) :=
      quietExt_of_plainExt (plainExt_noteSelect _ cn)
    split at h
    · cases hx : ExecFromFile E D kv.2.schema_ 0
          (ScopedTransaction E (noteSelect (attachedTablesQuery kv.1) cn)) with
      | error e => rw [hx] at h; exact absurd h (by simp)
      | ok cn3 =>
        rw [hx] at h
        refine quietExt_trans hsel (quietExt_trans ?_ (ih _ cn2 h))
        exact quietExt_trans (quietExt_one DbAction.transaction rfl rfl)
          (quietExt_trans (quietExt_execFromFile E D _ _ _ cn3 hx)
            (quietExt_one DbAction.commit rfl rfl))
    · exact quietExt_trans hsel (ih _ cn2 h)

/-- The attaching loop, when it returns, has issued one `ATTACH` per entry, in
the order of the entries. -/
theorem attachAll_trace (E : SqlEngine σ) (D : DatabaseState)
    (l : List (String × AttachedDatabase)) :
    ∀ (cn cn2 : Conn σ), attachAll E D l cn = Except.ok cn2 →
      cn2.trace = cn.trace ++ l.map (fun kv => DbAction.attach (attachedFilename D kv) kv.1) := by
  induction l with
  | nil =>
    intro cn cn2 h
    simp only [attachAll, Except.ok.injEq] at h
    subst h
    simp
  | cons kv rest ih =>
    intro cn cn2 h
    unfold attachAll at h
    dsimp only at h
    split at h
    · exact absurd h (by simp)
    · rw [ih _ cn2 h]
      simp [issue]

end connectProofs
section connectNewProofs
variable {σ : Type}

/-- A new connection that comes back: the handle carries the connection name
and the database name of the object; what was added to the trace holds, of the
actions of `Connect`, the opening and, when the handle is open, the
registration of the tokenizer and one `ATTACH` per declared entry in key
order; the handle takes the place of the one registered under its name. -/
theorem connectNew_ok (E : SqlEngine σ) (Q : QtEnv σ) (D D1 : DatabaseState)
    (connection_id : String) (w w1 : World σ) (db : QSqlDatabase)
    (h : connectNew E Q D connection_id w = Except.ok (db, D1, w1)) :
    db.connectionName = connection_id ∧ db.databaseName = mainDatabaseName D
    ∧ db.isOpen = (Q.openError (mainDatabaseName D) w.cn.db).isNone
    ∧ w1.registry = db :: w.registry.filter (fun g => g.connectionName != connection_id)
    ∧ (∃ s, D1 = { D with startup_schema_version_ := s })
    ∧ w1.log = w.log ∧ w1.nextTaskId = w.nextTaskId
    ∧ ∃ added, w1.cn.trace = w.cn.trace ++ added
        ∧ added.filter DbAction.connects
            = DbAction.openDatabase (mainDatabaseName D)
              :: (if db.isOpen then
                    DbAction.registerTokenizer :: D.attached_databases_.map
                      (fun kv => DbAction.attach (attachedFilename D kv) kv.1)
                  else []) := by
  unfold connectNew at h
  dsimp only at h
  cases ho : Q.openError (mainDatabaseName D) w.cn.db with
  | some text =>
    rw [ho] at h
    simp only [Except.ok.injEq, Prod.mk.injEq] at h
    obtain ⟨hdb, hD, hw⟩ := h
    subst hdb hD hw
    refine ⟨rfl, rfl, rfl, rfl, ⟨D.startup_schema_version_, rfl⟩, rfl, rfl,
      [DbAction.openDatabase (mainDatabaseName D)], rfl, ?_⟩
    simp [DbAction.connects]
  | none =>
    rw [ho] at h
    dsimp only at h
    generalize hcn3 : (issue E DbAction.registerTokenizer
      (noteOpen (mainDatabaseName D) w).cn).1 = cn3 at h
    have ht3 : cn3.trace = w.cn.trace ++ [DbAction.openDatabase (mainDatabaseName D),
        DbAction.registerTokenizer] := by
      rw [← hcn3]; simp [issue, noteOpen]
    cases h4 : (if (E.tables cn3.db).length = 0 then UpdateDatabaseSchema E D 0 cn3
        else Except.ok cn3) with
    | error e => simp only [register, noteOpen] at h hcn3; rw [hcn3, h4] at h; exact absurd h (by simp)
    | ok cn4 =>
      simp only [register, noteOpen] at h hcn3
      rw [hcn3, h4] at h
      dsimp only at h
      have hq4 : QuietExt cn3 cn4 := by
        split at h4
        · exact quietExt_updateDatabaseSchema E D 0 cn3 cn4 h4
        · simp only [Except.ok.injEq] at h4
          subst h4
          exact quietExt_refl _
      cases h5 : attachAll E D D.attached_databases_ cn4 with
      | error e => rw [h5] at h; exact absurd h (by simp)
      | ok cn5 =>
        rw [h5] at h
        dsimp only at h
        have ht5 := attachAll_trace E D D.attached_databases_ cn4 cn5 h5
        cases h6 : (if D.startup_schema_version_ = -1 then UpdateMainSchema E D cn5
            else Except.ok (D, cn5)) with
        | error e => rw [h6] at h; exact absurd h (by simp)
        | ok r6 =>
          obtain ⟨D6, cn6⟩ := r6
          rw [h6] at h
          dsimp only at h
          have hq6 : QuietExt cn5 cn6 ∧ ∃ s, D6 = { D with startup_schema_version_ := s } := by
            split at h6
            · obtain ⟨hq, hD⟩ := quietExt_updateMainSchema E D D6 cn5 cn6 h6
              exact ⟨hq, _, hD⟩
            · simp only [Except.ok.injEq, Prod.mk.injEq] at h6
              obtain ⟨hD, hcn⟩ := h6
              subst hD hcn
              exact ⟨quietExt_refl _, D.startup_schema_version_, rfl⟩
          obtain ⟨hq6, s, hD6⟩ := hq6
          cases h7 : initAttached E D6 D6.attached_databases_ cn6 with
          | error e => rw [h7] at h; exact absurd h (by simp)
          | ok cn7 =>
            rw [h7] at h
            simp only [Except.ok.injEq, Prod.mk.injEq] at h
            obtain ⟨hdb, hD, hw⟩ := h
            subst hdb hD hw
            have hq7 := quietExt_initAttached E D6 D6.attached_databases_ cn6 cn7 h7
            obtain ⟨l4, e4, p4⟩ := hq4
            obtain ⟨l6, e6, p6⟩ := hq6
            obtain ⟨l7, e7, p7⟩ := hq7
            refine ⟨rfl, rfl, rfl, rfl, ⟨s, hD6⟩, rfl, rfl,
              [DbAction.openDatabase (mainDatabaseName D), DbAction.registerTokenizer] ++ l4
                ++ D.attached_databases_.map
                    (fun kv => DbAction.attach (attachedFilename D kv) kv.1)
                ++ l6 ++ l7, ?_, ?_⟩
            · show cn7.trace = _
              rw [e7, e6, ht5, e4, ht3]
              simp [List.append_assoc]
            · have hmap : (D.attached_databases_.map
                  (fun kv => DbAction.attach (attachedFilename D kv) kv.1)).filter
                    DbAction.connects
                  = D.attached_databases_.map
                      (fun kv => DbAction.attach (attachedFilename D kv) kv.1) := by
                rw [List.filter_eq_self]
                intro a ha
                obtain ⟨kv, _, rfl⟩ := List.mem_map.1 ha
                rfl
              simp [List.filter_append, p4, p6, p7, hmap, DbAction.connects]

end connectNewProofs
section connectClaims
variable {σ : Type}

theorem makeDirectory_keeps (Q : QtEnv σ) (D : DatabaseState) (w : World σ) :
    (makeDirectory Q D w).cn = w.cn ∧ (makeDirectory Q D w).registry = w.registry := by
  unfold makeDirectory
  split
  · dsimp only
    split <;> exact ⟨rfl, rfl⟩
  · exact ⟨rfl, rfl⟩

/-- With an engine that reports no error, the attaching loop returns. -/
theorem attachAll_returns (E : SqlEngine σ) (D : DatabaseState)
    (hok : ∀ a s, (E.run a s).2 = none) (l : List (String × AttachedDatabase)) :
    ∀ cn : Conn σ, ∃ cn2, attachAll E D l cn = Except.ok cn2 := by
  induction l with
  | nil => intro cn; exact ⟨cn, rfl⟩
  | cons kv rest ih =>
    intro cn
    unfold attachAll
    simp only [issue, hok]
    exact ih _

/-- With an engine that reports no error and resources that all open, a
script is executed to its end. -/
theorem execFromFile_returns (E : SqlEngine σ) (D : DatabaseState)
    (hok : ∀ a s, (E.run a s).2 = none) (hres : ∀ f, (E.resource f).isSome = true)
    (filename : String) (sv : Int) (cn : Conn σ) :
    ∃ cn2, ExecFromFile E D filename sv cn = Except.ok cn2 := by
  unfold ExecFromFile
  dsimp only
  cases hr : E.resource filename with
  | none => have := hres filename; rw [hr] at this; exact absurd this (by simp)
  | some schema => exact execEach_returns E hok _ _ _

theorem initAttached_returns (E : SqlEngine σ) (D : DatabaseState)
    (hok : ∀ a s, (E.run a s).2 = none) (hres : ∀ f, (E.resource f).isSome = true)
    (l : List (String × AttachedDatabase)) :
    ∀ cn : Conn σ, ∃ cn2, initAttached E D l cn = Except.ok cn2 := by
  induction l with
  | nil => intro cn; exact ⟨cn, rfl⟩
  | cons kv rest ih =>
    intro cn
    unfold initAttached
    dsimp only
    split
    · obtain ⟨cn3, h3⟩ := execFromFile_returns E D hok hres kv.2.schema_ 0
        (ScopedTransaction E (noteSelect (attachedTablesQuery kv.1) cn))
      rw [h3]
      exact ih _
    · exact ih _

theorem updateMainSchema_returns (E : SqlEngine σ) (D : DatabaseState)
    (hok : ∀ a s, (E.run a s).2 = none) (hres : ∀ f, (E.resource f).isSome = true)
    (cn : Conn σ) : ∃ r, UpdateMainSchema E D cn = Except.ok r := by
  unfold UpdateMainSchema
  dsimp only
  split
  · exact ⟨_, rfl⟩
  · split
    · obtain ⟨cn3, h3⟩ := updateLoop_returns E
        { D with startup_schema_version_ :=
            (E.versionRows (noteSelect "SELECT version FROM schema_version" cn).db).headD 0 }
        hok _
        ((E.versionRows (noteSelect "SELECT version FROM schema_version" cn).db).headD 0 + 1)
        (noteSelect "SELECT version FROM schema_version" cn) rfl (fun v _ => hres _)
      rw [h3]
      exact ⟨_, rfl⟩
    · exact ⟨_, rfl⟩

/-- With an engine that reports no error and resources that all open, a new
connection comes back. -/
theorem connectNew_returns (E : SqlEngine σ) (Q : QtEnv σ) (D : DatabaseState)
    (hok : ∀ a s, (E.run a s).2 = none) (hres : ∀ f, (E.resource f).isSome = true)
    (connection_id : String) (w : World σ) :
    ∃ r, connectNew E Q D connection_id w = Except.ok r := by
  unfold connectNew
  dsimp only
  cases Q.openError (mainDatabaseName D) w.cn.db with
  | some text => exact ⟨_, rfl⟩
  | none =>
    dsimp only
    generalize (issue E DbAction.registerTokenizer _).1 = cn3
    have h4 : ∃ cn4, (if (E.tables cn3.db).length = 0 then UpdateDatabaseSchema E D 0 cn3
        else Except.ok cn3) = Except.ok cn4 := by
      split
      · exact updateDatabaseSchema_returns E D hok 0 (hres _) cn3
      · exact ⟨_, rfl⟩
    obtain ⟨cn4, h4⟩ := h4
    rw [h4]
    dsimp only
    obtain ⟨cn5, h5⟩ := attachAll_returns E D hok D.attached_databases_ cn4
    rw [h5]
    dsimp only
    have h6 : ∃ r, (if D.startup_schema_version_ = -1 then UpdateMainSchema E D cn5
        else Except.ok (D, cn5)) = Except.ok r := by
      split
      · exact updateMainSchema_returns E D hok hres cn5
      · exact ⟨_, rfl⟩
    obtain ⟨⟨D6, cn6⟩, h6⟩ := h6
    rw [h6]
    dsimp only
    obtain ⟨cn7, h7⟩ := initAttached_returns E D6 hok hres D6.attached_databases_ cn6
    rw [h7]
    exact ⟨_, rfl⟩

theorem connect_returns (E : SqlEngine σ) (Q : QtEnv σ) (D : DatabaseState)
    (hok : ∀ a s, (E.run a s).2 = none) (hres : ∀ f, (E.resource f).isSome = true)
    (thread : Nat) (w : World σ) : ∃ r, Connect E Q D thread w = Except.ok r := by
  unfold Connect
  dsimp only
  split
  · split
    · exact ⟨_, rfl⟩
    · exact connectNew_returns E Q D hok hres _ _
  · exact connectNew_returns E Q D hok hres _ _

end connectClaims
section connectNameClaims
variable {σ : Type}

theorem namedByObject_register (D : DatabaseState) (s : Int) (db : QSqlDatabase)
    (w w1 : World σ) (hreg : NamedByObject D w) (hdb : db.databaseName = mainDatabaseName D)
    (h1 : w1.registry = db :: w.registry.filter (fun g => g.connectionName != db.connectionName)) :
    NamedByObject { D with startup_schema_version_ := s } w1 := by
  intro h hh thread hname
  rw [h1] at hh
  rcases List.mem_cons.1 hh with rfl | hh
  · exact hdb
  · exact hreg h (List.mem_filter.1 hh).1 thread hname

/-- C19.  Let every handle registered so far under a connection name of the
object carry the object's database name.  Whenever `Connect` returns: the
handle it returns has the database name `mainDatabaseName`; of the actions of
`Connect` it added to the trace, every opening is on that name and every
`ATTACH` is for a declared entry with the file name `attachedFilename`; when
no handle was registered under the connection name, these actions are the
opening and, when the handle is open, the registration of the tokenizer and
one `ATTACH` per declared entry in key order; and the handles registered
afterwards still carry the object's database name.  With the injected name
`p` both names are `p` for every entry; with a null injected name they are
`directory_/clementine.db` and the declared file name of the entry.  And
`Connect` does return when the engine reports no error and every resource can
be opened. -/
theorem C19_injected_name_used (E : SqlEngine σ) (Q : QtEnv σ) (D : DatabaseState)
    (thread : Nat) (w : World σ) (hreg : NamedByObject D w) :
    (∀ db D1 w1, Connect E Q D thread w = Except.ok (db, D1, w1) →
      db.databaseName = mainDatabaseName D
      ∧ NamedByObject D1 w1
      ∧ ∃ added, w1.cn.trace = w.cn.trace ++ added
          ∧ (∀ a ∈ added.filter DbAction.connects,
              a = DbAction.openDatabase (mainDatabaseName D) ∨ a = DbAction.registerTokenizer
              ∨ ∃ kv ∈ D.attached_databases_,
                  a = DbAction.attach (attachedFilename D kv) kv.1)
          ∧ (w.registry.find? (fun h => h.connectionName == connectionName D thread) = none →
              added.filter DbAction.connects
                = DbAction.openDatabase (mainDatabaseName D)
                  :: (if db.isOpen then
                        DbAction.registerTokenizer :: D.attached_databases_.map
                          (fun kv => DbAction.attach (attachedFilename D kv) kv.1)
                      else [])))
    ∧ (∀ p, D.injected_database_name_ = some p →
        mainDatabaseName D = p ∧ ∀ kv, attachedFilename D kv = p)
    ∧ (D.injected_database_name_ = none →
        mainDatabaseName D = D.directory_ ++ "/" ++ "clementine.db"
        ∧ ∀ kv, attachedFilename D kv = kv.2.filename_)
    ∧ ((∀ a s, (E.run a s).2 = none) → (∀ f, (E.resource f).isSome = true) →
        ∃ r, Connect E Q D thread w = Except.ok r) := by
  refine ⟨?_, ?_, ?_, fun hok hres => connect_returns E Q D hok hres thread w⟩
  · intro db D1 w1 h
    obtain ⟨hcn0, hreg0⟩ := makeDirectory_keeps Q D w
    -- what a new connection adds, started from a world whose trace continues that of `w`
    have hnew : ∀ (w0 : World σ) (pre : List DbAction),
        w0.cn.trace = w.cn.trace ++ pre → NamedByObject D w0 →
        (∀ a ∈ pre, a = DbAction.openDatabase (mainDatabaseName D)) →
        connectNew E Q D (connectionName D thread) w0 = Except.ok (db, D1, w1) →
        db.databaseName = mainDatabaseName D
        ∧ NamedByObject D1 w1
        ∧ ∃ added, w1.cn.trace = w.cn.trace ++ added
            ∧ (∀ a ∈ added.filter DbAction.connects,
                a = DbAction.openDatabase (mainDatabaseName D) ∨ a = DbAction.registerTokenizer
                ∨ ∃ kv ∈ D.attached_databases_,
                    a = DbAction.attach (attachedFilename D kv) kv.1)
            ∧ (pre = [] →
                added.filter DbAction.connects
                  = DbAction.openDatabase (mainDatabaseName D)
                    :: (if db.isOpen then
                          DbAction.registerTokenizer :: D.attached_databases_.map
                            (fun kv => DbAction.attach (attachedFilename D kv) kv.1)
                        else [])) := by
      intro w0 pre htr hreg0 hpre hc
      obtain ⟨hname, hdbn, _, hregy, ⟨s, hD1⟩, _, _, added, hadd, hfilt⟩ :=
        connectNew_ok E Q D D1 _ w0 w1 db hc
      refine ⟨hdbn, ?_, pre ++ added, ?_, ?_, ?_⟩
      · rw [hD1]
        exact namedByObject_register D s db w0 w1 hreg0 hdbn (by rw [hname]; exact hregy)
      · rw [hadd, htr, List.append_assoc]
      · intro a ha
        rw [List.filter_append, List.mem_append] at ha
        rcases ha with ha | ha
        · exact Or.inl (hpre a (List.mem_filter.1 ha).1)
        · rw [hfilt] at ha
          rcases List.mem_cons.1 ha with rfl | ha
          · exact Or.inl rfl
          · split at ha
            · rcases List.mem_cons.1 ha with rfl | ha
              · exact Or.inr (Or.inl rfl)
              · obtain ⟨kv, hkv, rfl⟩ := List.mem_map.1 ha
                exact Or.inr (Or.inr ⟨kv, hkv, rfl⟩)
            · exact absurd ha (List.not_mem_nil _)
      · intro hp
        subst hp
        simpa using hfilt
    have hreg1 : NamedByObject D (makeDirectory Q D w) := by
      intro g hg; rw [hreg0] at hg; exact hreg g hg
    unfold Connect at h
    dsimp only at h
    unfold QSqlDatabase.database at h
    rw [hreg0] at h
    cases hf : w.registry.find? (fun h => h.connectionName == connectionName D thread) with
    | none =>
      rw [hf] at h
      dsimp only at h
      obtain ⟨h1, h2, added, h3, h4, h5⟩ := hnew (makeDirectory Q D w) [] (by rw [hcn0]; simp)
        hreg1 (by simp) h
      exact ⟨h1, h2, added, h3, h4, fun _ => h5 rfl⟩
    | some g =>
      rw [hf] at h
      dsimp only at h
      have hg : g ∈ w.registry := List.mem_of_find?_eq_some hf
      have hgname : g.connectionName = connectionName D thread := by
        have := List.find?_some hf
        simpa using this
      have hgdb : g.databaseName = mainDatabaseName D := hreg g hg thread hgname
      by_cases hopen : g.isOpen = true
      · rw [if_pos hopen] at h
        dsimp only at h
        rw [if_pos hopen] at h
        simp only [Except.ok.injEq, Prod.mk.injEq] at h
        obtain ⟨hdb, hD, hw⟩ := h
        subst hdb hD hw
        exact ⟨hgdb, hreg1, [], by rw [hcn0]; simp, by simp, by simp⟩
      · rw [if_neg hopen] at h
        cases ho : Q.openError g.databaseName (makeDirectory Q D w).cn.db with
        | none =>
          rw [ho] at h
          dsimp only at h
          rw [if_pos rfl] at h
          simp only [Except.ok.injEq, Prod.mk.injEq] at h
          obtain ⟨hdb, hD, hw⟩ := h
          subst hdb hD hw
          refine ⟨hgdb, ?_, [DbAction.openDatabase g.databaseName], ?_, ?_, by simp⟩
          · have := namedByObject_register D D.startup_schema_version_
              { g with isOpen := true } (makeDirectory Q D w)
              (register { g with isOpen := true } (noteOpen g.databaseName (makeDirectory Q D w)))
              hreg1 hgdb rfl
            exact this
          · simp [register, noteOpen, hcn0]
          · intro a ha
            simp [DbAction.connects] at ha
            exact Or.inl (by rw [ha, hgdb])
        | some text =>
          rw [ho] at h
          dsimp only at h
          rw [if_neg hopen] at h
          obtain ⟨h1, h2, added, h3, h4, _⟩ := hnew (noteOpen g.databaseName (makeDirectory Q D w))
            [DbAction.openDatabase g.databaseName] (by simp [noteOpen, hcn0])
            (by intro x hx; exact hreg1 x hx) (by intro a ha; simp at ha; rw [ha, hgdb]) h
          exact ⟨h1, h2, added, h3, h4, by simp⟩
  · intro p hp
    simp [mainDatabaseName, attachedFilename, hp]
  · intro hp
    simp [mainDatabaseName, attachedFilename, hp, kDatabaseFilename]

end connectNameClaims
section connectRunClaims
variable {σ : Type}

/-- C19, witness: the object constructed with the injected name `:memory:`,
on the reference engine with no connection registered: the handle is named
`:memory:` and the one declared database, `jamendo`, is attached from
`:memory:`. -/
theorem C19_injected_witness :
    NamedByObject injectedDatabase (refWorld none)
    ∧ ∃ db D1 w1,
        Connect refEngine (refQtEnv []) injectedDatabase 7 (refWorld none)
          = Except.ok (db, D1, w1)
        ∧ db.databaseName = ":memory:"
        ∧ ∃ added, w1.cn.trace = (refWorld none).cn.trace ++ added
            ∧ added.filter DbAction.connects
                = DbAction.openDatabase ":memory:"
                  :: (if db.isOpen then
                        [DbAction.registerTokenizer, DbAction.attach ":memory:" "jamendo"]
                      else []) := by
  have hreg : NamedByObject injectedDatabase (refWorld none) :=
    fun h hh => absurd hh (List.not_mem_nil _)
  obtain ⟨h1, _, _, h4⟩ :=
    C19_injected_name_used refEngine (refQtEnv []) injectedDatabase 7 (refWorld none) hreg
  obtain ⟨⟨db, D1, w1⟩, hr⟩ := h4 (fun _ _ => rfl) (fun _ => rfl)
  obtain ⟨hname, _, added, htr, _, hfresh⟩ := h1 db D1 w1 hr
  exact ⟨hreg, db, D1, w1, hr, hname, added, htr, hfresh rfl⟩

/-- When the database cannot be opened, a new connection comes back at once:
the error is handed to `AddError`, the handle is not open, and the trace has
gained the opening only; the static members are as before. -/
theorem connectNew_open_failure (E : SqlEngine σ) (Q : QtEnv σ) (D : DatabaseState)
    (connection_id : String) (w : World σ) (text : String)
    (h : Q.openError (mainDatabaseName D) w.cn.db = some text) :
    ∃ w1, connectNew E Q D connection_id w
        = Except.ok (⟨connection_id, mainDatabaseName D, false⟩, D, w1)
      ∧ w1.cn.errors = w.cn.errors ++ ["Database: " ++ text]
      ∧ w1.cn.trace = w.cn.trace ++ [DbAction.openDatabase (mainDatabaseName D)]
      ∧ w1.cn.db = w.cn.db ∧ w1.statics = w.statics ∧ w1.log = w.log := by
  unfold connectNew
  dsimp only
  rw [h]
  exact ⟨_, rfl, rfl, rfl, rfl, rfl, rfl⟩

set_option maxRecDepth 100000 in
/-- C20, the code where the directory `/config` does not exist and cannot be
made, on an object with the injected name `:memory:`, which opens: `mkpath`
is called and the directory is still missing, yet no message is handed to
`AddError`, the handle returned is open, the tokenizer is registered, the
initial schema and the migration are run and `jamendo` is attached. -/
theorem C20_directory_failure_ignored :
    ∃ db D1 w, Connect refEngine noDirectoryEnv injectedDatabase 7
        { refWorld none with directoryExists := false } = Except.ok (db, D1, w)
      ∧ w.log = [Event.mkpath "/config"]
      ∧ w.directoryExists = false
      ∧ w.cn.errors = []
      ∧ db = ⟨"0_thread_7", ":memory:", true⟩
      ∧ DbAction.registerTokenizer ∈ w.cn.trace
      ∧ DbAction.attach ":memory:" "jamendo" ∈ w.cn.trace
      ∧ DbAction.openResource ":/schema/schema.sql" ∈ w.cn.trace
      ∧ DbAction.openResource ":/schema/schema-43.sql" ∈ w.cn.trace
      ∧ D1.startup_schema_version_ = 1 :=
  ⟨_, _, _, rfl, by decide⟩

/-- What `Connect` leaves in the log of calls outside the SQL layer: the call
of `mkpath` when the directory did not exist; the task ids are untouched. -/
theorem connect_log (E : SqlEngine σ) (Q : QtEnv σ) (D D1 : DatabaseState) (thread : Nat)
    (w w1 : World σ) (db : QSqlDatabase)
    (h : Connect E Q D thread w = Except.ok (db, D1, w1)) :
    w1.log = w.log ++ (if w.directoryExists then [] else [Event.mkpath D.directory_])
    ∧ w1.nextTaskId = w.nextTaskId := by
  have h0 : (makeDirectory Q D w).log
        = w.log ++ (if w.directoryExists then [] else [Event.mkpath D.directory_])
      ∧ (makeDirectory Q D w).nextTaskId = w.nextTaskId := by
    unfold makeDirectory
    cases hd : w.directoryExists
    · simp only [Bool.not_false, if_true]
      split <;> exact ⟨by simp, rfl⟩
    · simp
  have hdb : (QSqlDatabase.database Q (connectionName D thread) (makeDirectory Q D w)).2.log
        = (makeDirectory Q D w).log
      ∧ (QSqlDatabase.database Q (connectionName D thread) (makeDirectory Q D w)).2.nextTaskId
        = (makeDirectory Q D w).nextTaskId := by
    unfold QSqlDatabase.database
    split
    · exact ⟨rfl, rfl⟩
    · split
      · exact ⟨rfl, rfl⟩
      · split <;> exact ⟨rfl, rfl⟩
  have hnew : ∀ w0 : World σ,
      connectNew E Q D (connectionName D thread) w0 = Except.ok (db, D1, w1) →
      w1.log = w0.log ∧ w1.nextTaskId = w0.nextTaskId := by
    intro w0 hc
    obtain ⟨_, _, _, _, _, hl, hn, _⟩ := connectNew_ok E Q D D1 _ w0 w1 db hc
    exact ⟨hl, hn⟩
  unfold Connect at h
  dsimp only at h
  split at h
  · split at h
    · simp only [Except.ok.injEq, Prod.mk.injEq] at h
      obtain ⟨_, _, hw⟩ := h
      subst hw
      exact ⟨hdb.1.trans h0.1, hdb.2.trans h0.2⟩
    · obtain ⟨a, b⟩ := hnew _ h
      exact ⟨a.trans (hdb.1.trans h0.1), b.trans (hdb.2.trans h0.2)⟩
  · obtain ⟨a, b⟩ := hnew _ h
    exact ⟨a.trans (hdb.1.trans h0.1), b.trans (hdb.2.trans h0.2)⟩

/-- The calls `IntegrityCheck` makes outside the SQL layer: its task is started
and finished; the database is left as it is. -/
theorem integrityCheck_log (Q : QtEnv σ) (db : QSqlDatabase) (w : World σ) :
    (IntegrityCheck Q db w).2.log
      = w.log ++ [Event.startTask (Q.tr "Integrity check") w.nextTaskId,
          Event.setTaskFinished w.nextTaskId]
    ∧ (IntegrityCheck Q db w).2.cn.db = w.cn.db := by
  unfold IntegrityCheck
  simp only [StartTask, SetTaskFinished, noteSelect]
  rw [(integrityLoop_spec Q _ false _).2]
  simp

/-- C16.  `DoBackup` connects, checks and then: when `IntegrityCheck` returned
false it returns at once, and all it has called outside the SQL layer since
its start is `mkpath` (when the directory did not exist) and the start and the
finish of the task of the check, so no database was opened for the backup, no
backup step was made and no backup task was started; when `IntegrityCheck`
returned true its result is that of `BackupFile` on the database name of the
handle.  When `Connect` ends the process, so does `DoBackup`. -/
theorem C16_backup_only_after_ok (E : SqlEngine σ) (S : Sqlite3 σ) (Q : QtEnv σ)
    (D : DatabaseState) (thread : Nat) (fuel : Nat) (w : World σ) :
    (∀ e, Connect E Q D thread w = Except.error e →
      DoBackup E S Q D thread fuel w = Except.error e)
    ∧ (∀ db D1 w1, Connect E Q D thread w = Except.ok (db, D1, w1) →
      ((IntegrityCheck Q db w1).1 = false →
        DoBackup E S Q D thread fuel w = Except.ok (some (D1, (IntegrityCheck Q db w1).2))
        ∧ (IntegrityCheck Q db w1).2.log
            = w.log ++ (if w.directoryExists then [] else [Event.mkpath D.directory_])
              ++ [Event.startTask (Q.tr "Integrity check") w.nextTaskId,
                  Event.setTaskFinished w.nextTaskId]
        ∧ (IntegrityCheck Q db w1).2.cn.db = w1.cn.db)
      ∧ ((IntegrityCheck Q db w1).1 = true →
        DoBackup E S Q D thread fuel w
          = match BackupFile S Q db.databaseName fuel (IntegrityCheck Q db w1).2 with
            | Except.error e => Except.error e
            | Except.ok none => Except.ok none
            | Except.ok (some w2) => Except.ok (some (D1, w2)))) := by
  refine ⟨?_, ?_⟩
  · intro e h
    unfold DoBackup
    rw [h]
  · intro db D1 w1 h
    obtain ⟨hlog, hid⟩ := connect_log E Q D D1 thread w w1 db h
    obtain ⟨hilog, hidb⟩ := integrityCheck_log Q db w1
    refine ⟨?_, ?_⟩
    · intro hfalse
      refine ⟨?_, ?_, hidb⟩
      · unfold DoBackup
        rw [h]
        dsimp only
        rw [hfalse]
        rfl
      · rw [hilog, hlog, hid]
    · intro htrue
      unfold DoBackup
      rw [h]
      dsimp only
      rw [htrue]
      rfl

set_option maxRecDepth 100000 in
/-- C16, witness: on the reference engine, with an integrity pragma that
returns the row `x`, the check fails and `DoBackup` has called nothing but the
start and the finish of the task of the check. -/
theorem C16_backup_witness :
    ∃ D1 w2, DoBackup refEngine closedSqlite (refQtEnv ["x"]) refDatabase 7 3 (refWorld none)
        = Except.ok (some (D1, w2))
      ∧ w2.log = [Event.startTask "Integrity check" 1, Event.setTaskFinished 1]
      ∧ w2.cn.errors = [kCorruptionGuidance, "Database: x"] := by
  have h := ((C16_backup_only_after_ok refEngine closedSqlite (refQtEnv ["x"]) refDatabase
    7 3 (refWorld none)).2 _ _ _ rfl).1 rfl
  exact ⟨_, _, h.1, h.2.1, rfl⟩

end connectRunClaims

/-! ## Claims about the songs tables -/

section songsWhereClaims
variable {σ : Type}

/-- A name that ends with `songs` matches `LIKE '%songs'`. -/
theorem likeSongs_of_endsWith (name : String) (h : qEndsWith name "songs" = true) :
    likeSongs name = true := by
  unfold likeSongs qEndsWith at *
  rw [List.isSuffixOf_iff_suffix] at *
  obtain ⟨p, hp⟩ := h
  refine ⟨p.map Char.toLower, ?_⟩
  show p.map Char.toLower ++ "songs".data = name.data.map Char.toLower
  rw [← hp, List.map_append]
  rfl

/-- C23.  On every row of `sqlite_master` the predicate of `SongsTables`,
`type='table' AND name='songs' OR name LIKE '%songs'`, has the value of
`name LIKE '%songs'` alone, so the two select the same rows of every list and
give the same entries for every attached database; a row whose name ends with
`songs` is selected whatever its type. -/
theorem C23_like_alone (E : SqlEngine σ) :
    (∀ row, songsWhere row = songsWhereLikeOnly row)
    ∧ (∀ rows : List (String × String), rows.filter songsWhere = rows.filter songsWhereLikeOnly)
    ∧ (∀ db kv, attachedEntries E db kv
        = match E.sqliteMaster kv.1 db with
          | some rows => (rows.filter songsWhereLikeOnly).map (fun row => kv.1 ++ "." ++ row.2)
          | none => [])
    ∧ (∀ type name : String, qEndsWith name "songs" = true → songsWhere (type, name) = true)
    ∧ (∀ type type2 name : String, songsWhere (type, name) = songsWhere (type2, name)) := by
  have h1 : ∀ row, songsWhere row = songsWhereLikeOnly row := by
    intro row
    unfold songsWhere songsWhereLikeOnly
    by_cases hn : row.2 = "songs"
    · rw [hn]
      have : likeSongs "songs" = true := by decide
      rw [this]
      simp
    · have : (row.2 == "songs") = false := by simpa using hn
      rw [this]
      simp
  have h2 : songsWhere = songsWhereLikeOnly := funext h1
  refine ⟨h1, fun rows => by rw [h2], ?_, ?_, ?_⟩
  · intro db kv
    unfold attachedEntries
    rw [h2]
  · intro type name h
    rw [h1]
    exact likeSongs_of_endsWith name h
  · intro type type2 name
    rw [h1, h1]
    rfl

end songsWhereClaims

section fanOutClaims
variable {σ : Type}

/-- A version step is: the start of the step, the script run by `ExecCommands`
with the version before as schema version, the commit. -/
theorem updateDatabaseSchema_eq (E : SqlEngine σ) (D : DatabaseState) (v : Int) (cn : Conn σ) :
    UpdateDatabaseSchema E D v cn
      = match E.resource (schemaFilename v) with
        | none => Except.error ("Couldn't open schema file " ++ schemaFilename v)
        | some schema =>
          match ExecCommands E D schema (v - 1) (stepStart E v cn) with
          | Except.ok cn2 => Except.ok (ScopedTransaction.Commit E cn2)
          | Except.error e => Except.error e := by
  unfold UpdateDatabaseSchema ExecFromFile stepStart
  dsimp only
  cases E.resource (schemaFilename v) <;> rfl

/-- The list of `SongsTables`: the songs tables of the main database, the
entries of the attached databases, and `playlist_items` when the schema
version is above 29. -/
theorem songsTables_list (E : SqlEngine σ) (D : DatabaseState) (sv : Int) (cn : Conn σ) :
    (SongsTables E D sv cn).1
      = (E.tables cn.db).filter (fun table => table == "songs" || qEndsWith table "_songs")
        ++ D.attached_databases_.flatMap (attachedEntries E cn.db)
        ++ (if sv > 29 then ["playlist_items"] else []) := by
  rw [songsTables_eq, songsTablesStep_foldl]
  split <;> simp

/-- The name `playlist_items` is in the list of `SongsTables` exactly when the
schema version is above 29: it is no songs table of the main database by its
name, and the entries of attached databases contain a dot. -/
theorem playlist_items_mem (E : SqlEngine σ) (D : DatabaseState) (sv : Int) (cn : Conn σ) :
    "playlist_items" ∈ (SongsTables E D sv cn).1 ↔ 29 < sv := by
  rw [songsTables_list]
  have h1 : "playlist_items" ∉ (E.tables cn.db).filter
      (fun table => table == "songs" || qEndsWith table "_songs") := by
    intro h
    have := (List.mem_filter.1 h).2
    exact absurd this (by decide)
  have h2 : "playlist_items" ∉ D.attached_databases_.flatMap (attachedEntries E cn.db) := by
    intro h
    obtain ⟨kv, _, hkv⟩ := List.mem_flatMap.1 h
    unfold attachedEntries at hkv
    cases hm : E.sqliteMaster kv.1 cn.db with
    | none => rw [hm] at hkv; exact absurd hkv (List.not_mem_nil _)
    | some rows =>
      rw [hm] at hkv
      obtain ⟨row, _, hrow⟩ := List.mem_map.1 hkv
      have hd := congrArg String.data hrow
      rw [String.data_append, String.data_append] at hd
      have hdot : '.' ∈ "playlist_items".data := by
        rw [← hd]
        simp
      exact absurd hdot (by decide)
  by_cases hsv : sv > 29
  · rw [if_pos hsv]
    simp only [List.mem_append, List.mem_singleton, or_true, true_iff]
    exact hsv
  · rw [if_neg hsv]
    simp only [List.append_nil, List.mem_append]
    constructor
    · rintro (h | h)
      · exact absurd h h1
      · exact absurd h h2
    · intro h
      exact absurd h hsv

/-- C24, the code at the failing input: step 30 on a database at version 29,
with a script whose first statement has the magic value.  `SongsTables` is
asked with the schema version 29 and tests `schema_version > 29`, so its list
does not contain `playlist_items` and no statement is run for `playlist_items`;
only `bump` is executed. -/
theorem C24_step_30_without_playlist_items :
    "playlist_items" ∉ (SongsTables fanOutEngine refDatabase (30 - 1)
        (stepStart fanOutEngine 30 ⟨some 29, [], []⟩)).1
    ∧ ∃ cn2, UpdateDatabaseSchema fanOutEngine refDatabase 30 ⟨some 29, [], []⟩ = Except.ok cn2
      ∧ cn2.trace = [DbAction.transaction, DbAction.openResource ":/schema/schema-30.sql",
          DbAction.select (attachedQuery "jamendo"), DbAction.exec "bump", DbAction.commit] :=
  ⟨by decide, _, rfl, by decide⟩

/-- The step of version `v` hands its script to `ExecCommands` with the schema
version `v - 1`, and the statements it runs are those of the script for the
list `SongsTables` gives for `v - 1`.  For every step `v ≥ 31` that list
contains `playlist_items`; for every step `v ≤ 29`, which is applied to a
database at a version below 29, it does not. -/
theorem playlist_items_by_step (E : SqlEngine σ) (D : DatabaseState) :
    (∀ v cn cn2, UpdateDatabaseSchema E D v cn = Except.ok cn2 →
      ∃ schema, E.resource (schemaFilename v) = some schema
        ∧ cn2.trace = (SongsTables E D (v - 1) (stepStart E v cn)).2.trace
            ++ (scriptStatements (SongsTables E D (v - 1) (stepStart E v cn)).1 schema).map
                DbAction.exec
            ++ [DbAction.commit])
    ∧ (∀ (v : Int) (cn : Conn σ), 31 ≤ v → "playlist_items" ∈ (SongsTables E D (v - 1) cn).1)
    ∧ (∀ (v : Int) (cn : Conn σ), v ≤ 29 →
        "playlist_items" ∉ (SongsTables E D (v - 1) cn).1) := by
  refine ⟨?_, ?_, ?_⟩
  · intro v cn cn2 h
    rw [updateDatabaseSchema_eq] at h
    cases hr : E.resource (schemaFilename v) with
    | none => rw [hr] at h; exact absurd h (by simp)
    | some schema =>
      rw [hr] at h
      dsimp only at h
      cases hx : ExecCommands E D schema (v - 1) (stepStart E v cn) with
      | error e => rw [hx] at h; exact absurd h (by simp)
      | ok b =>
        rw [hx] at h
        simp only [Except.ok.injEq] at h
        subst h
        refine ⟨schema, rfl, ?_⟩
        have ht := execEach_trace E _ _ _ b hx
        show (issue E DbAction.commit b).1.trace = _
        simp only [issue]
        rw [ht]
        rfl
  · intro v cn hv
    exact (playlist_items_mem E D (v - 1) cn).2 (by omega)
  · intro v cn hv
    rw [playlist_items_mem]
    omega

end fanOutClaims

/-! ## Claims about `UrlEncodeFilenameColumn` -/

section urlEncodeClaims
variable {σ : Type}

theorem checkErrors_db (err : Option String) (cn : Conn σ) :
    (CheckErrors err cn).1.db = cn.db := by
  cases err <;> rfl

/-- The loop over the rows the `SELECT` returned: when the table holds the
rows already handled, rewritten, followed by the rows still to handle, it
holds all of them rewritten at the end. -/
theorem urlEncodeRows_content (E : SqlEngine σ) (table : String)
    (content : σ → List (Int × String)) (h : FilenameTable E table content) :
    ∀ (todo done : List (Int × String)) (cn : Conn σ),
      content cn.db = done.map (encodeRow E) ++ todo →
      ((done ++ todo).map Prod.fst).Nodup →
      content (todo.foldl (urlEncodeRow E table) cn).db = (done ++ todo).map (encodeRow E) := by
  intro todo
  induction todo with
  | nil => intro done cn hc _; simpa using hc
  | cons r rest ih =>
    intro done cn hc hnd
    rw [List.foldl_cons]
    have hnd2 : ((done ++ [r] ++ rest).map Prod.fst).Nodup := by simpa using hnd
    have hgoal : done ++ r :: rest = done ++ [r] ++ rest := by simp
    rw [hgoal]
    apply ih (done ++ [r]) _ _ hnd2
    have hid : ∀ row : Int × String, (encodeRow E row).1 = row.1 := by
      intro row
      unfold encodeRow
      split <;> rfl
    unfold urlEncodeRow
    by_cases hskip : (r.2.isEmpty || qContains r.2 "://") = true
    · rw [if_pos hskip, hc]
      have : encodeRow E r = r := by unfold encodeRow; rw [if_pos hskip]
      simp [this]
    · rw [if_neg hskip]
      dsimp only
      rw [checkErrors_db]
      show content (E.run (DbAction.update (updateFilenameSql table) (E.fromLocalFile r.2) r.1)
        cn.db).1 = _
      rw [h.update, hc]
      have henc : encodeRow E r = (r.1, E.fromLocalFile r.2) := by
        unfold encodeRow; rw [if_neg hskip]
      rw [List.map_append, List.map_cons, List.map_append, List.map_singleton, henc,
        List.append_assoc]
      have hr1 : ∀ x ∈ done, x.1 ≠ r.1 := by
        intro x hx heq
        have h1 : (done.map Prod.fst ++ r.1 :: rest.map Prod.fst).Nodup := by simpa using hnd
        exact (List.nodup_append.1 h1).2.2 (List.mem_map_of_mem Prod.fst hx)
          (heq ▸ List.mem_cons_self _ _)
      have hr2 : ∀ x ∈ rest, x.1 ≠ r.1 := by
        intro x hx heq
        have h1 : (done.map Prod.fst ++ r.1 :: rest.map Prod.fst).Nodup := by simpa using hnd
        have h2 := (List.nodup_cons.1 (List.nodup_append.1 h1).2.1).1
        exact h2 (heq ▸ List.mem_map_of_mem Prod.fst hx)
      congr 1
      · rw [List.map_map]
        apply List.map_congr_left
        intro x hx
        show (if (encodeRow E x).1 = r.1 then ((encodeRow E x).1, E.fromLocalFile r.2)
          else encodeRow E x) = encodeRow E x
        rw [if_neg (by rw [hid]; exact hr1 x hx)]
      · rw [if_pos rfl]
        congr 1
        conv_rhs => rw [← List.map_id rest]
        apply List.map_congr_left
        intro x hx
        show (if x.1 = r.1 then (x.1, E.fromLocalFile r.2) else x) = id x
        rw [if_neg (hr2 x hx)]
        rfl

/-- One application on a table whose row ids are distinct: every row is
rewritten by `encodeRow`. -/
theorem urlEncodeFilenameColumn_content (E : SqlEngine σ) (table : String)
    (content : σ → List (Int × String)) (h : FilenameTable E table content) (cn : Conn σ)
    (hnd : ((content cn.db).map Prod.fst).Nodup) :
    content (UrlEncodeFilenameColumn E table cn).db = (content cn.db).map (encodeRow E) := by
  unfold UrlEncodeFilenameColumn
  dsimp only
  have hsel : E.filenameRows table (noteSelect ("SELECT ROWID, filename FROM " ++ table) cn).db
      = Except.ok (content cn.db) := h.select cn.db
  rw [hsel]
  have := urlEncodeRows_content E table content h (content cn.db) []
    (noteSelect ("SELECT ROWID, filename FROM " ++ table) cn) (by simp [noteSelect])
    (by simpa using hnd)
  simpa using this

/-- C27, counterexample.  A table with the one row `(1, music/a.mp3)`, a
relative file name, for which Qt gives the URL `file:music/a.mp3`: it does not
contain `://`, so a second application encodes it again and the row changes
once more. -/
theorem C27_relative_name_encoded_twice :
    (UrlEncodeFilenameColumn tableEngine "songs" ⟨[(1, "music/a.mp3")], [], []⟩).db
      = [(1, "file:music/a.mp3")]
    ∧ qContains "file:music/a.mp3" "://" = false
    ∧ (UrlEncodeFilenameColumn tableEngine "songs"
        (UrlEncodeFilenameColumn tableEngine "songs" ⟨[(1, "music/a.mp3")], [], []⟩)).db
      = [(1, "file:file:music/a.mp3")] := by
  decide

/-- C27, as amended.  On a table whose row ids are distinct, one application
leaves every row whose file name is empty or contains `://` and gives every
other row the encoded URL of its file name; when each of these URLs contains
`://`, a second application changes no row. -/
theorem C27_idempotent_when_urls_have_authority (E : SqlEngine σ) (table : String)
    (content : σ → List (Int × String)) (h : FilenameTable E table content) (cn : Conn σ)
    (hnd : ((content cn.db).map Prod.fst).Nodup) :
    content (UrlEncodeFilenameColumn E table cn).db = (content cn.db).map (encodeRow E)
    ∧ (∀ row, (row.2.isEmpty || qContains row.2 "://") = true → encodeRow E row = row)
    ∧ (∀ row, (row.2.isEmpty || qContains row.2 "://") = false →
        encodeRow E row = (row.1, E.fromLocalFile row.2))
    ∧ ((∀ row ∈ content cn.db, (row.2.isEmpty || qContains row.2 "://") = false →
          qContains (E.fromLocalFile row.2) "://" = true) →
        content (UrlEncodeFilenameColumn E table (UrlEncodeFilenameColumn E table cn)).db
          = content (UrlEncodeFilenameColumn E table cn).db) := by
  have h1 := urlEncodeFilenameColumn_content E table content h cn hnd
  refine ⟨h1, ?_, ?_, ?_⟩
  · intro row hs
    unfold encodeRow
    rw [if_pos hs]
  · intro row hs
    unfold encodeRow
    rw [if_neg (by rw [hs]; decide)]
  · intro hurl
    have hid : ∀ row : Int × String, (encodeRow E row).1 = row.1 := by
      intro row
      unfold encodeRow
      split <;> rfl
    have hnd2 : ((content (UrlEncodeFilenameColumn E table cn).db).map Prod.fst).Nodup := by
      rw [h1, List.map_map]
      have : (Prod.fst ∘ encodeRow E) = Prod.fst := funext hid
      rw [this]
      exact hnd
    rw [urlEncodeFilenameColumn_content E table content h _ hnd2, h1, List.map_map]
    apply List.map_congr_left
    intro row hrow
    show encodeRow E (encodeRow E row) = encodeRow E row
    by_cases hs : (row.2.isEmpty || qContains row.2 "://") = true
    · have : encodeRow E row = row := by unfold encodeRow; rw [if_pos hs]
      rw [this, this]
    · have hs2 : (row.2.isEmpty || qContains row.2 "://") = false := by simpa using hs
      have henc : encodeRow E row = (row.1, E.fromLocalFile row.2) := by
        unfold encodeRow; rw [if_neg hs]
      rw [henc]
      unfold encodeRow
      rw [if_pos (by simp [hurl row hrow hs2])]

theorem tableEngine_table (table : String) : FilenameTable tableEngine table id where
  select := fun _ => rfl
  update := fun _ _ _ => rfl

/-- C27, witness: a table with an absolute file name, an empty one and a URL. -/
theorem C27_idempotent_witness :
    (UrlEncodeFilenameColumn tableEngine "songs"
        ⟨[(1, "/music/a.mp3"), (2, ""), (3, "http://host/b.mp3")], [], []⟩).db
      = [(1, "file:///music/a.mp3"), (2, ""), (3, "http://host/b.mp3")]
    ∧ (UrlEncodeFilenameColumn tableEngine "songs"
        (UrlEncodeFilenameColumn tableEngine "songs"
          ⟨[(1, "/music/a.mp3"), (2, ""), (3, "http://host/b.mp3")], [], []⟩)).db
      = (UrlEncodeFilenameColumn tableEngine "songs"
          ⟨[(1, "/music/a.mp3"), (2, ""), (3, "http://host/b.mp3")], [], []⟩).db := by
  obtain ⟨h1, _, _, h4⟩ := C27_idempotent_when_urls_have_authority tableEngine "songs" id
    (tableEngine_table "songs") ⟨[(1, "/music/a.mp3"), (2, ""), (3, "http://host/b.mp3")], [], []⟩
    (by decide)
  exact ⟨by rw [show (UrlEncodeFilenameColumn tableEngine "songs"
      ⟨[(1, "/music/a.mp3"), (2, ""), (3, "http://host/b.mp3")], [], []⟩).db = _ from h1]; decide,
    h4 (by decide)⟩

end urlEncodeClaims

/-! ## Traces and the states they leave -/

section extProofs
variable {σ : Type}

theorem replay_append (E : SqlEngine σ) (l m : List DbAction) (db : σ) :
    replay E (l ++ m) db = replay E m (replay E l db) := by
  unfold replay
  rw [List.foldl_append]

theorem replay_not_issued (E : SqlEngine σ) (l : List DbAction) (db : σ)
    (h : ∀ a ∈ l, a.issued = false) : replay E l db = db := by
  induction l generalizing db with
  | nil => rfl
  | cons a l ih =>
    show replay E l (if a.issued = true then (E.run a db).1 else db) = db
    rw [h a (List.mem_cons_self _ _), if_neg (by decide)]
    exact ih db (fun b hb => h b (List.mem_cons_of_mem _ hb))

theorem ext_refl (E : SqlEngine σ) (P : DbAction → Prop) (cn : Conn σ) : Ext E P cn cn :=
  ⟨[], by simp, rfl, by simp⟩

theorem ext_trans {E : SqlEngine σ} {P : DbAction → Prop} {a b c : Conn σ}
    (h1 : Ext E P a b) (h2 : Ext E P b c) : Ext E P a c := by
  obtain ⟨l1, e1, d1, p1⟩ := h1
  obtain ⟨l2, e2, d2, p2⟩ := h2
  refine ⟨l1 ++ l2, by rw [e2, e1, List.append_assoc], by rw [d2, d1, replay_append], ?_⟩
  intro x hx
  rcases List.mem_append.1 hx with hx | hx
  · exact p1 x hx
  · exact p2 x hx

theorem ext_mono {E : SqlEngine σ} {P Q : DbAction → Prop} {a b : Conn σ}
    (hPQ : ∀ x, P x → Q x) (h : Ext E P a b) : Ext E Q a b := by
  obtain ⟨l, e, d, p⟩ := h
  exact ⟨l, e, d, fun x hx => hPQ x (p x hx)⟩

/-- An action that is recorded only. -/
theorem ext_noted (E : SqlEngine σ) (P : DbAction → Prop) (cn cn2 : Conn σ) (x : DbAction)
    (hx : x.issued = false) (hP : P x) (ht : cn2.trace = cn.trace ++ [x]) (hd : cn2.db = cn.db) :
    Ext E P cn cn2 :=
  ⟨[x], ht, by rw [hd, replay_not_issued E [x] cn.db (by simpa using hx)], by simpa using hP⟩

/-- An action the engine runs. -/
theorem ext_issue (E : SqlEngine σ) (P : DbAction → Prop) (cn : Conn σ) (x : DbAction)
    (hx : x.issued = true) (hP : P x) : Ext E P cn (issue E x cn).1 :=
  ⟨[x], rfl, by simp [issue, replay, hx], by simpa using hP⟩

theorem ext_checkErrors (E : SqlEngine σ) (P : DbAction → Prop) (err : Option String)
    (cn : Conn σ) : Ext E P cn (CheckErrors err cn).1 := by
  cases err <;> exact ⟨[], by simp [CheckErrors], rfl, by simp⟩

theorem ext_foldl {α : Type} (E : SqlEngine σ) (P : DbAction → Prop) (f : Conn σ → α → Conn σ)
    (hf : ∀ cn x, Ext E P cn (f cn x)) (l : List α) (cn : Conn σ) :
    Ext E P cn (l.foldl f cn) := by
  induction l generalizing cn with
  | nil => exact ext_refl E P cn
  | cons x l ih => exact ext_trans (hf cn x) (ih (f cn x))

theorem ext_songsTables (E : SqlEngine σ) (D : DatabaseState) (sv : Int) (cn : Conn σ) :
    Ext E StepAction cn (SongsTables E D sv cn).2 := by
  have h : (SongsTables E D sv cn).2
      = { cn with trace := cn.trace
            ++ D.attached_databases_.map (fun kv => DbAction.select (attachedQuery kv.1)) } := by
    rw [songsTables_eq, songsTablesStep_foldl]
    split <;> rfl
  rw [h]
  refine ⟨_, rfl, ?_, ?_⟩
  · rw [replay_not_issued]
    intro a ha
    obtain ⟨kv, _, rfl⟩ := List.mem_map.1 ha
    rfl
  · intro a ha
    obtain ⟨kv, _, rfl⟩ := List.mem_map.1 ha
    exact Or.inr (Or.inr (Or.inr (Or.inr (Or.inr (Or.inl ⟨kv.1, rfl⟩)))))

theorem ext_execOrDie (E : SqlEngine σ) (command : String) (cn cn2 : Conn σ)
    (h : execOrDie E command cn = Except.ok cn2) : Ext E StepAction cn cn2 := by
  unfold execOrDie at h
  dsimp only at h
  split at h
  · exact absurd h (by simp)
  · injection h with h
    subst h
    exact ext_trans
      (ext_issue E StepAction cn (DbAction.exec command) rfl (Or.inr (Or.inr (Or.inl ⟨_, rfl⟩))))
      (ext_checkErrors E StepAction _ _)

theorem ext_execForTables (E : SqlEngine σ) (command : String) (tables : List String)
    (cn cn2 : Conn σ) (h : execForTables E command tables cn = Except.ok cn2) :
    Ext E StepAction cn cn2 := by
  induction tables generalizing cn with
  | nil =>
    simp only [execForTables, Except.ok.injEq] at h
    subst h
    exact ext_refl E _ cn
  | cons t rest ih =>
    unfold execForTables at h
    cases hs : execOrDie E (qReplace command kMagicAllSongsTables t) cn with
    | error e => rw [hs] at h; exact absurd h (by simp)
    | ok cn1 =>
      rw [hs] at h
      exact ext_trans (ext_execOrDie E _ cn cn1 hs) (ih cn1 h)

theorem ext_execEach (E : SqlEngine σ) (tables commands : List String)
    (cn cn2 : Conn σ) (h : execEach E tables commands cn = Except.ok cn2) :
    Ext E StepAction cn cn2 := by
  induction commands generalizing cn with
  | nil =>
    simp only [execEach, Except.ok.injEq] at h
    subst h
    exact ext_refl E _ cn
  | cons c rest ih =>
    unfold execEach at h
    cases hs : (if qContains c kMagicAllSongsTables then execForTables E c tables cn
           else execOrDie E c cn) with
    | error e => rw [hs] at h; exact absurd h (by simp)
    | ok cn1 =>
      rw [hs] at h
      refine ext_trans ?_ (ih cn1 h)
      split at hs
      · exact ext_execForTables E c tables cn cn1 hs
      · exact ext_execOrDie E c cn cn1 hs

theorem ext_execCommands (E : SqlEngine σ) (D : DatabaseState) (schema : String) (sv : Int)
    (cn cn2 : Conn σ) (h : ExecCommands E D schema sv cn = Except.ok cn2) :
    Ext E StepAction cn cn2 :=
  ext_trans (ext_songsTables E D sv cn) (ext_execEach E _ _ _ cn2 h)

theorem ext_execFromFile (E : SqlEngine σ) (D : DatabaseState) (filename : String) (sv : Int)
    (cn cn2 : Conn σ) (h : ExecFromFile E D filename sv cn = Except.ok cn2) :
    Ext E StepAction cn cn2 := by
  unfold ExecFromFile at h
  dsimp only at h
  cases hr : E.resource filename with
  | none => rw [hr] at h; exact absurd h (by simp)
  | some schema =>
    rw [hr] at h
    exact ext_trans
      (ext_noted E StepAction cn
        { cn with trace := cn.trace ++ [DbAction.openResource filename] }
        (DbAction.openResource filename) rfl
        (Or.inr (Or.inr (Or.inr (Or.inr (Or.inl ⟨_, rfl⟩))))) rfl rfl)
      (ext_execCommands E D schema sv _ cn2 h)

theorem ext_urlEncodeRow (E : SqlEngine σ) (table : String) (cn : Conn σ)
    (row : Int × String) : Ext E StepAction cn (urlEncodeRow E table cn row) := by
  unfold urlEncodeRow
  split
  · exact ext_refl E _ cn
  · exact ext_trans
      (ext_issue E StepAction cn (DbAction.update _ _ _) rfl
        (Or.inr (Or.inr (Or.inr (Or.inl ⟨_, _, _, rfl⟩)))))
      (ext_checkErrors E _ _ _)

theorem ext_urlEncodeFilenameColumn (E : SqlEngine σ) (table : String) (cn : Conn σ) :
    Ext E StepAction cn (UrlEncodeFilenameColumn E table cn) := by
  unfold UrlEncodeFilenameColumn
  dsimp only
  have hsel : Ext E StepAction cn (noteSelect ("SELECT ROWID, filename FROM " ++ table) cn) :=
    ext_noted E StepAction cn _ (DbAction.select (filenameQuery table)) rfl
      (Or.inr (Or.inr (Or.inr (Or.inr (Or.inr (Or.inr ⟨table, rfl⟩)))))) rfl rfl
  split
  · exact ext_trans hsel (ext_checkErrors E _ _ _)
  · exact ext_trans hsel (ext_foldl E _ _ (ext_urlEncodeRow E table) _ _)

theorem ext_urlEncodeAll (E : SqlEngine σ) (cn : Conn σ) :
    Ext E StepAction cn (urlEncodeAll E cn) := by
  unfold urlEncodeAll
  dsimp only
  refine ext_trans (ext_urlEncodeFilenameColumn E "songs" cn)
    (ext_trans (ext_urlEncodeFilenameColumn E "playlist_items" _) ?_)
  apply ext_foldl
  intro c table
  dsimp only
  split
  · exact ext_urlEncodeFilenameColumn E table c
  · exact ext_refl E _ c

theorem ext_stepStart (E : SqlEngine σ) (v : Int) (cn : Conn σ) :
    Ext E StepAction cn (stepStart E v cn) := by
  unfold stepStart
  dsimp only
  have ht : Ext E StepAction cn (ScopedTransaction E cn) :=
    ext_issue E StepAction cn DbAction.transaction rfl (Or.inl rfl)
  have h1 : Ext E StepAction cn
      (if v = 31 then urlEncodeAll E (ScopedTransaction E cn) else ScopedTransaction E cn) := by
    split
    · exact ext_trans ht (ext_urlEncodeAll E _)
    · exact ht
  exact ext_trans h1 (ext_noted E StepAction _ _ (DbAction.openResource (schemaFilename v)) rfl
    (Or.inr (Or.inr (Or.inr (Or.inr (Or.inl ⟨_, rfl⟩))))) rfl rfl)

theorem ext_updateDatabaseSchema (E : SqlEngine σ) (D : DatabaseState) (v : Int)
    (cn cn2 : Conn σ) (h : UpdateDatabaseSchema E D v cn = Except.ok cn2) :
    Ext E StepAction cn cn2 := by
  rw [updateDatabaseSchema_eq] at h
  cases hr : E.resource (schemaFilename v) with
  | none => rw [hr] at h; exact absurd h (by simp)
  | some schema =>
    rw [hr] at h
    dsimp only at h
    cases hx : ExecCommands E D schema (v - 1) (stepStart E v cn) with
    | error e => rw [hx] at h; exact absurd h (by simp)
    | ok b =>
      rw [hx] at h
      simp only [Except.ok.injEq] at h
      subst h
      exact ext_trans (ext_stepStart E v cn)
        (ext_trans (ext_execCommands E D schema (v - 1) _ b hx)
          (ext_issue E StepAction b DbAction.commit rfl (Or.inr (Or.inl rfl))))

theorem ext_updateLoopN (E : SqlEngine σ) (D : DatabaseState) (fuel : Nat) :
    ∀ (v : Int) (cn cn2 : Conn σ), updateLoopN E D fuel v cn = Except.ok cn2 →
      Ext E StepAction cn cn2 := by
  induction fuel with
  | zero =>
    intro v cn cn2 h
    simp only [updateLoopN, Except.ok.injEq] at h
    subst h
    exact ext_refl E _ cn
  | succ fuel ih =>
    intro v cn cn2 h
    unfold updateLoopN at h
    split at h
    · cases hs : UpdateDatabaseSchema E D v cn with
      | error e => rw [hs] at h; exact absurd h (by simp)
      | ok cn1 =>
        rw [hs] at h
        exact ext_trans (ext_updateDatabaseSchema E D v cn cn1 hs) (ih _ cn1 cn2 h)
    · simp only [Except.ok.injEq] at h
      subst h
      exact ext_refl E _ cn

/-- A run of `UpdateMainSchema`: the version is recorded in the object, and the
trace gains the version query and then actions of version steps only. -/
theorem updateMainSchema_ext (E : SqlEngine σ) (D D1 : DatabaseState) (cn cn2 : Conn σ)
    (h : UpdateMainSchema E D cn = Except.ok (D1, cn2)) :
    D1 = { D with startup_schema_version_ := (E.versionRows cn.db).headD 0 }
    ∧ Ext E StepAction (noteSelect kVersionQuery cn) cn2 := by
  unfold UpdateMainSchema at h
  dsimp only at h
  split at h
  · simp only [Except.ok.injEq, Prod.mk.injEq] at h
    obtain ⟨hD, hcn⟩ := h
    subst hD hcn
    exact ⟨rfl, ext_refl E _ _⟩
  · split at h
    · cases hl : updateLoop E
          { D with startup_schema_version_ :=
              (E.versionRows (noteSelect "SELECT version FROM schema_version" cn).db).headD 0 }
          ((E.versionRows (noteSelect "SELECT version FROM schema_version" cn).db).headD 0 + 1)
          (noteSelect "SELECT version FROM schema_version" cn) with
      | error e => rw [hl] at h; exact absurd h (by simp)
      | ok cn3 =>
        rw [hl] at h
        simp only [Except.ok.injEq, Prod.mk.injEq] at h
        obtain ⟨hD, hcn⟩ := h
        subst hD hcn
        exact ⟨rfl, ext_updateLoopN E _ _ _ _ _ hl⟩
    · simp only [Except.ok.injEq, Prod.mk.injEq] at h
      obtain ⟨hD, hcn⟩ := h
      subst hD hcn
      exact ⟨rfl, ext_refl E _ _⟩

end extProofs

/-! ## Claims about the rewriting of file names in `UpdateDatabaseSchema` -/

section rewriteProofs
variable {σ : Type}

/-- The texts of the two queries differ in their eighth character. -/
theorem attachedQuery_ne_filenameQuery (key table : String) :
    attachedQuery key ≠ filenameQuery table := by
  intro h
  have h2 := congrArg (fun s => s.data.take 8) h
  simp only [attachedQuery, filenameQuery, String.data_append] at h2
  simp at h2

/-- The loop over the rows adds bound `UPDATE`s of the table only. -/
theorem urlEncodeRows_trace (E : SqlEngine σ) (table : String) (rows : List (Int × String)) :
    ∀ cn : Conn σ, ∃ ups, (rows.foldl (urlEncodeRow E table) cn).trace = cn.trace ++ ups
      ∧ ∀ a ∈ ups, ∃ filename rowid,
          a = DbAction.update (updateFilenameSql table) filename rowid := by
  induction rows with
  | nil => intro cn; exact ⟨[], by simp, by simp⟩
  | cons r rest ih =>
    intro cn
    rw [List.foldl_cons]
    obtain ⟨ups, ht, hu⟩ := ih (urlEncodeRow E table cn r)
    unfold urlEncodeRow at ht ⊢
    by_cases hs : (r.2.isEmpty || qContains r.2 "://") = true
    · rw [if_pos hs] at ht ⊢
      exact ⟨ups, ht, hu⟩
    · rw [if_neg hs] at ht ⊢
      refine ⟨DbAction.update (updateFilenameSql table) (E.fromLocalFile r.2) r.1 :: ups, ?_, ?_⟩
      · rw [ht]
        cases hr : (E.run (DbAction.update
            ("UPDATE " ++ table ++ " SET filename=:filename WHERE ROWID=:id")
            (E.fromLocalFile r.2) r.1) cn.db).2 <;>
          simp [CheckErrors, issue, hr, updateFilenameSql]
      · intro a ha
        rcases List.mem_cons.1 ha with rfl | ha
        · exact ⟨_, _, rfl⟩
        · exact hu a ha

theorem urlEncodeFilenameColumn_shape (E : SqlEngine σ) (table : String) (cn : Conn σ) :
    ∃ seg, (UrlEncodeFilenameColumn E table cn).trace = cn.trace ++ seg
      ∧ RewriteShape table seg := by
  unfold UrlEncodeFilenameColumn
  dsimp only
  cases hr : E.filenameRows table (noteSelect ("SELECT ROWID, filename FROM " ++ table) cn).db with
  | error text =>
    exact ⟨[DbAction.select (filenameQuery table)], by simp [CheckErrors, noteSelect, filenameQuery],
      [], rfl, by simp⟩
  | ok rows =>
    dsimp only
    obtain ⟨ups, ht, hu⟩ := urlEncodeRows_trace E table rows
      (noteSelect ("SELECT ROWID, filename FROM " ++ table) cn)
    exact ⟨DbAction.select (filenameQuery table) :: ups,
      by rw [ht]; simp [noteSelect, filenameQuery], ups, rfl, hu⟩

/-- The loop of lines 490-494 over a list of tables rewrites those that start
with `device_` and end with `_songs`, in the order of the list. -/
theorem urlEncodeDevices_shape (E : SqlEngine σ) (tables : List String) :
    ∀ cn : Conn σ, ∃ segs,
      (tables.foldl
          (fun c table =>
            if qStartsWith table "device_" && qEndsWith table "_songs" then
              UrlEncodeFilenameColumn E table c
            else c) cn).trace = cn.trace ++ segs.flatten
      ∧ List.Forall₂ RewriteShape (deviceSongsTables tables) segs := by
  induction tables with
  | nil => intro cn; exact ⟨[], by simp, by simp [deviceSongsTables]⟩
  | cons t rest ih =>
    intro cn
    rw [List.foldl_cons]
    by_cases hp : (qStartsWith t "device_" && qEndsWith t "_songs") = true
    · obtain ⟨segs, ht, hs⟩ := ih (UrlEncodeFilenameColumn E t cn)
      obtain ⟨seg, ht1, hs1⟩ := urlEncodeFilenameColumn_shape E t cn
      refine ⟨seg :: segs, ?_, ?_⟩
      · rw [if_pos hp, ht, ht1]
        simp
      · have hf : deviceSongsTables (t :: rest) = t :: deviceSongsTables rest := by
          unfold deviceSongsTables
          simp [List.filter_cons, hp]
        rw [hf]
        exact List.Forall₂.cons hs1 hs
    · obtain ⟨segs, ht, hs⟩ := ih cn
      refine ⟨segs, ?_, ?_⟩
      · rw [if_neg hp, ht]
      · have hf : deviceSongsTables (t :: rest) = deviceSongsTables rest := by
          unfold deviceSongsTables
          simp [List.filter_cons, hp]
        rw [hf]
        exact hs

/-- The rewriting for version 31: `songs`, `playlist_items`, then the device
tables that `db.tables()` lists once these two are rewritten, each table in
turn. -/
theorem urlEncodeAll_shape (E : SqlEngine σ) (cn : Conn σ) :
    ∃ segs, (urlEncodeAll E cn).trace = cn.trace ++ segs.flatten
      ∧ List.Forall₂ RewriteShape
          ("songs" :: "playlist_items" :: deviceSongsTables (E.tables
            (UrlEncodeFilenameColumn E "playlist_items"
              (UrlEncodeFilenameColumn E "songs" cn)).db)) segs := by
  obtain ⟨s1, ht1, hs1⟩ := urlEncodeFilenameColumn_shape E "songs" cn
  obtain ⟨s2, ht2, hs2⟩ := urlEncodeFilenameColumn_shape E "playlist_items"
    (UrlEncodeFilenameColumn E "songs" cn)
  obtain ⟨segs, ht3, hs3⟩ := urlEncodeDevices_shape E
    (E.tables (UrlEncodeFilenameColumn E "playlist_items"
      (UrlEncodeFilenameColumn E "songs" cn)).db)
    (UrlEncodeFilenameColumn E "playlist_items" (UrlEncodeFilenameColumn E "songs" cn))
  refine ⟨s1 :: s2 :: segs, ?_, List.Forall₂.cons hs1 (List.Forall₂.cons hs2 hs3)⟩
  unfold urlEncodeAll
  dsimp only
  rw [ht3, ht2, ht1]
  simp

/-- The trace of a run of a script: the queries of `SongsTables`, one per
attached database, then the statements of the script. -/
theorem execCommands_trace (E : SqlEngine σ) (D : DatabaseState) (schema : String) (sv : Int)
    (cn cn2 : Conn σ) (h : ExecCommands E D schema sv cn = Except.ok cn2) :
    cn2.trace = cn.trace
      ++ D.attached_databases_.map (fun kv => DbAction.select (attachedQuery kv.1))
      ++ (scriptStatements (SongsTables E D sv cn).1 schema).map DbAction.exec := by
  have ht := execEach_trace E _ _ _ cn2 h
  rw [ht]
  have h2 : (SongsTables E D sv cn).2.trace = cn.trace
      ++ D.attached_databases_.map (fun kv => DbAction.select (attachedQuery kv.1)) := by
    rw [songsTables_eq, songsTablesStep_foldl]
    split <;> rfl
  rw [h2]
  rfl

/-- A segment of a rewriting holds a rewriting action: its query. -/
theorem rewriteShape_action (table : String) (seg : List DbAction) (h : RewriteShape table seg) :
    (∃ a ∈ seg, RewriteAction a) ∧ ∀ a ∈ seg, RewriteAction a := by
  obtain ⟨ups, rfl, hu⟩ := h
  refine ⟨⟨_, List.mem_cons_self _ _, Or.inl ⟨table, rfl⟩⟩, ?_⟩
  intro a ha
  rcases List.mem_cons.1 ha with rfl | ha
  · exact Or.inl ⟨table, rfl⟩
  · obtain ⟨f, i, rfl⟩ := hu a ha
    exact Or.inr ⟨_, _, _, rfl⟩

end rewriteProofs

section rewriteClaims
variable {σ : Type}

/-- C22.  Whenever `UpdateDatabaseSchema(v)` returns, what it added to the trace
is: the opening of the transaction, actions `pre`, the opening of the script
of `v`, actions `ex`, the commit.  The actions `ex` are the queries of
`SongsTables` and the statements of the script; none of them is a rewriting
action.  The actions `pre` are none unless `v = 31`; for `v = 31` they are
the rewriting of `songs`, of `playlist_items` and then of every table that
starts with `device_` and ends with `_songs`, as `db.tables()` lists them
once the first two are rewritten, each table in turn.  So a rewriting action
is issued exactly when `v = 31`, and every one of them before the script is
opened.  And it does return when the engine reports no error and the script
can be opened. -/
theorem C22_rewrite_at_31_only (E : SqlEngine σ) (D : DatabaseState) (v : Int) (cn : Conn σ) :
    (∀ cn2, UpdateDatabaseSchema E D v cn = Except.ok cn2 →
      ∃ pre ex,
        cn2.trace = cn.trace ++ [DbAction.transaction] ++ pre
            ++ [DbAction.openResource (schemaFilename v)] ++ ex ++ [DbAction.commit]
        ∧ (∀ a ∈ ex, (∃ key, a = DbAction.select (attachedQuery key))
              ∨ ∃ sql, a = DbAction.exec sql)
        ∧ (∀ a ∈ ex, ¬ RewriteAction a)
        ∧ (v ≠ 31 → pre = [])
        ∧ (v = 31 → ∃ segs, pre = segs.flatten
            ∧ List.Forall₂ RewriteShape
                ("songs" :: "playlist_items" :: deviceSongsTables (E.tables
                  (UrlEncodeFilenameColumn E "playlist_items"
                    (UrlEncodeFilenameColumn E "songs" (ScopedTransaction E cn))).db)) segs)
        ∧ ((∃ a ∈ pre ++ ex, RewriteAction a) ↔ v = 31))
    ∧ ((∀ a s, (E.run a s).2 = none) → (E.resource (schemaFilename v)).isSome = true →
        ∃ cn2, UpdateDatabaseSchema E D v cn = Except.ok cn2) := by
  refine ⟨?_, fun hok hres => updateDatabaseSchema_returns E D hok v hres cn⟩
  intro cn2 h
  rw [updateDatabaseSchema_eq] at h
  cases hr : E.resource (schemaFilename v) with
  | none => rw [hr] at h; exact absurd h (by simp)
  | some schema =>
    rw [hr] at h
    dsimp only at h
    cases hx : ExecCommands E D schema (v - 1) (stepStart E v cn) with
    | error e => rw [hx] at h; exact absurd h (by simp)
    | ok b =>
      rw [hx] at h
      simp only [Except.ok.injEq] at h
      subst h
      have hb := execCommands_trace E D schema (v - 1) _ b hx
      have hex : ∀ a ∈ D.attached_databases_.map (fun kv => DbAction.select (attachedQuery kv.1))
          ++ (scriptStatements (SongsTables E D (v - 1) (stepStart E v cn)).1 schema).map
              DbAction.exec,
          (∃ key, a = DbAction.select (attachedQuery key)) ∨ ∃ sql, a = DbAction.exec sql := by
        intro a ha
        rcases List.mem_append.1 ha with ha | ha
        · obtain ⟨kv, _, rfl⟩ := List.mem_map.1 ha
          exact Or.inl ⟨_, rfl⟩
        · obtain ⟨s, _, rfl⟩ := List.mem_map.1 ha
          exact Or.inr ⟨_, rfl⟩
      have hnr : ∀ a ∈ D.attached_databases_.map
            (fun kv => DbAction.select (attachedQuery kv.1))
          ++ (scriptStatements (SongsTables E D (v - 1) (stepStart E v cn)).1 schema).map
              DbAction.exec, ¬ RewriteAction a := by
        intro a ha hra
        rcases hex a ha with ⟨key, rfl⟩ | ⟨sql, rfl⟩
        · rcases hra with ⟨t, ht⟩ | ⟨_, _, _, ht⟩
          · injection ht with ht
            exact attachedQuery_ne_filenameQuery key t ht
          · exact DbAction.noConfusion ht
        · rcases hra with ⟨t, ht⟩ | ⟨_, _, _, ht⟩
          · exact DbAction.noConfusion ht
          · exact DbAction.noConfusion ht
      by_cases hv : v = 31
      · obtain ⟨segs, hts, hss⟩ := urlEncodeAll_shape E (ScopedTransaction E cn)
        refine ⟨segs.flatten, _, ?_, hex, hnr, fun h => absurd hv h, fun _ => ⟨segs, rfl, hss⟩, ?_⟩
        · show (issue E DbAction.commit b).1.trace = _
          simp only [issue]
          rw [hb]
          unfold stepStart
          dsimp only
          rw [if_pos hv, hts]
          simp [ScopedTransaction, issue, List.append_assoc]
        · refine ⟨fun _ => hv, fun _ => ?_⟩
          cases hss with
          | cons h1 _ =>
            obtain ⟨⟨a, ha, hra⟩, _⟩ := rewriteShape_action _ _ h1
            exact ⟨a, List.mem_append_left _ (by
              rw [List.flatten_cons]
              exact List.mem_append_left _ ha), hra⟩
      · refine ⟨[], _, ?_, hex, hnr, fun _ => rfl, fun h => absurd h hv, ?_⟩
        · show (issue E DbAction.commit b).1.trace = _
          simp only [issue]
          rw [hb]
          unfold stepStart
          dsimp only
          rw [if_neg hv]
          simp [ScopedTransaction, issue, List.append_assoc]
        · refine ⟨fun ⟨a, ha, hra⟩ => ?_, fun h => absurd h hv⟩
          rw [List.nil_append] at ha
          exact absurd hra (hnr a ha)

/-- C22, witness: step 31 on a database with the tables `devices`,
`device_1_songs` and `songs` and the one row `(1, /a.mp3)`: the three tables
are rewritten before the script is opened. -/
theorem C22_rewrite_witness :
    ∃ cn2, UpdateDatabaseSchema deviceEngine refDatabase 31 ⟨[(1, "/a.mp3")], [], []⟩
        = Except.ok cn2
      ∧ cn2.trace = [DbAction.transaction,
          DbAction.select "SELECT ROWID, filename FROM songs",
          DbAction.update "UPDATE songs SET filename=:filename WHERE ROWID=:id"
            "file:///a.mp3" 1,
          DbAction.select "SELECT ROWID, filename FROM playlist_items",
          DbAction.select "SELECT ROWID, filename FROM device_1_songs",
          DbAction.openResource ":/schema/schema-31.sql",
          DbAction.select (attachedQuery "jamendo"),
          DbAction.exec "bump",
          DbAction.commit]
      ∧ cn2.db = [(1, "file:///a.mp3")] := by
  obtain ⟨cn2, h⟩ := (C22_rewrite_at_31_only deviceEngine refDatabase 31
    ⟨[(1, "/a.mp3")], [], []⟩).2 (fun _ _ => rfl) rfl
  refine ⟨cn2, h, ?_⟩
  have h2 : UpdateDatabaseSchema deviceEngine refDatabase 31 ⟨[(1, "/a.mp3")], [], []⟩
      = Except.ok ⟨[(1, "file:///a.mp3")], [DbAction.transaction,
          DbAction.select "SELECT ROWID, filename FROM songs",
          DbAction.update "UPDATE songs SET filename=:filename WHERE ROWID=:id"
            "file:///a.mp3" 1,
          DbAction.select "SELECT ROWID, filename FROM playlist_items",
          DbAction.select "SELECT ROWID, filename FROM device_1_songs",
          DbAction.openResource ":/schema/schema-31.sql",
          DbAction.select (attachedQuery "jamendo"),
          DbAction.exec "bump",
          DbAction.commit], []⟩ := by
    rfl
  rw [h2] at h
  injection h with h
  subst h
  exact ⟨rfl, rfl⟩

end rewriteClaims

/-! ## Claims about the migration in sequences of `Connect` calls -/

section onceProofs
variable {σ : Type}

theorem attachedQuery_ne_versionQuery (key : String) : attachedQuery key ≠ kVersionQuery := by
  intro h
  have h2 := congrArg (fun s => s.data.take 8) h
  simp only [attachedQuery, kVersionQuery, String.data_append] at h2
  simp at h2

theorem filenameQuery_ne_versionQuery (table : String) :
    filenameQuery table ≠ kVersionQuery := by
  intro h
  have h2 := congrArg (fun s => s.data.take 8) h
  simp only [filenameQuery, kVersionQuery, String.data_append] at h2
  simp at h2

theorem attachedTablesQuery_ne_versionQuery (key : String) :
    attachedTablesQuery key ≠ kVersionQuery := by
  intro h
  have h2 := congrArg (fun s => s.data.take 8) h
  simp only [attachedTablesQuery, kVersionQuery, String.data_append] at h2
  simp at h2

/-- No action of a version step or of a bootstrap is the version query. -/
theorem bootAction_ne_versionQuery (a : DbAction) (h : BootAction a) :
    a ≠ DbAction.select kVersionQuery := by
  intro ha
  subst ha
  rcases h with h | ⟨key, h⟩
  · rcases h with h | h | ⟨_, h⟩ | ⟨_, _, _, h⟩ | ⟨_, h⟩ | ⟨key, h⟩ | ⟨table, h⟩
    · exact DbAction.noConfusion h
    · exact DbAction.noConfusion h
    · exact DbAction.noConfusion h
    · exact DbAction.noConfusion h
    · exact DbAction.noConfusion h
    · injection h with h
      exact attachedQuery_ne_versionQuery key h.symm
    · injection h with h
      exact filenameQuery_ne_versionQuery table h.symm
  · injection h with h
    exact attachedTablesQuery_ne_versionQuery key h.symm

/-- Actions other than the version query leave the count as it is. -/
theorem versionQueries_ext (E : SqlEngine σ) (cn cn2 : Conn σ) (h : Ext E BootAction cn cn2) :
    versionQueries cn2.trace = versionQueries cn.trace := by
  obtain ⟨l, ht, _, hp⟩ := h
  unfold versionQueries
  rw [ht, List.count_append]
  have : l.count (DbAction.select kVersionQuery) = 0 := by
    rw [List.count_eq_zero]
    intro hmem
    exact bootAction_ne_versionQuery _ (hp _ hmem) rfl
  rw [this]
  rfl

theorem ext_initAttached (E : SqlEngine σ) (D : DatabaseState)
    (l : List (String × AttachedDatabase)) :
    ∀ (cn cn2 : Conn σ), initAttached E D l cn = Except.ok cn2 → Ext E BootAction cn cn2 := by
  induction l with
  | nil =>
    intro cn cn2 h
    simp only [initAttached, Except.ok.injEq] at h
    subst h
    exact ext_refl E _ cn
  | cons kv rest ih =>
    intro cn cn2 h
    unfold initAttached at h
    dsimp only at h
    have hsel : Ext E BootAction cn (noteSelect (attachedTablesQuery kv.1) cn) :=
      ext_noted E BootAction cn _ (DbAction.select (attachedTablesQuery kv.1)) rfl
        (Or.inr ⟨kv.1, rfl⟩) rfl rfl
    split at h
    · cases hx : ExecFromFile E D kv.2.schema_ 0
          (ScopedTransaction E (noteSelect (attachedTablesQuery kv.1) cn)) with
      | error e => rw [hx] at h; exact absurd h (by simp)
      | ok cn3 =>
        rw [hx] at h
        refine ext_trans hsel (ext_trans ?_ (ih _ cn2 h))
        exact ext_mono (fun x hx => Or.inl hx)
          (ext_trans (ext_issue E StepAction _ DbAction.transaction rfl (Or.inl rfl))
            (ext_trans (ext_execFromFile E D _ _ _ cn3 hx)
              (ext_issue E StepAction cn3 DbAction.commit rfl (Or.inr (Or.inl rfl)))))
    · exact ext_trans hsel (ih _ cn2 h)

theorem versionQueries_attachAll (E : SqlEngine σ) (D : DatabaseState)
    (l : List (String × AttachedDatabase)) (cn cn2 : Conn σ)
    (h : attachAll E D l cn = Except.ok cn2) :
    versionQueries cn2.trace = versionQueries cn.trace := by
  unfold versionQueries
  rw [attachAll_trace E D l cn cn2 h, List.count_append]
  have : (l.map (fun kv => DbAction.attach (attachedFilename D kv) kv.1)).count
      (DbAction.select kVersionQuery) = 0 := by
    rw [List.count_eq_zero]
    intro hmem
    obtain ⟨kv, _, hkv⟩ := List.mem_map.1 hmem
    exact DbAction.noConfusion hkv
  rw [this]
  rfl

/-- A new connection and the version query: with `startup_schema_version_`
other than -1 the object is left and the query is not issued; with -1 the
query is issued once and the version read is recorded, unless the database
does not open. -/
theorem connectNew_versionQueries (E : SqlEngine σ) (Q : QtEnv σ) (D D1 : DatabaseState)
    (connection_id : String) (w w1 : World σ) (db : QSqlDatabase)
    (h : connectNew E Q D connection_id w = Except.ok (db, D1, w1)) :
    (D.startup_schema_version_ ≠ -1 →
      D1 = D ∧ versionQueries w1.cn.trace = versionQueries w.cn.trace)
    ∧ (D.startup_schema_version_ = -1 →
      (D1 = D ∧ versionQueries w1.cn.trace = versionQueries w.cn.trace)
      ∨ ((∃ s, D1.startup_schema_version_ = (E.versionRows s).headD 0)
          ∧ versionQueries w1.cn.trace = versionQueries w.cn.trace + 1)) := by
  unfold connectNew at h
  dsimp only at h
  cases ho : Q.openError (mainDatabaseName D) w.cn.db with
  | some text =>
    rw [ho] at h
    simp only [Except.ok.injEq, Prod.mk.injEq] at h
    obtain ⟨_, hD, hw⟩ := h
    subst hD hw
    have hv : versionQueries (AddError ("Database: " ++ text)
        (register ⟨connection_id, mainDatabaseName D, false⟩
          (noteOpen (mainDatabaseName D) w))).cn.trace = versionQueries w.cn.trace := by
      show versionQueries (w.cn.trace ++ [DbAction.openDatabase (mainDatabaseName D)]) = _
      unfold versionQueries
      rw [List.count_append]
      rfl
    exact ⟨fun _ => ⟨rfl, hv⟩, fun _ => Or.inl ⟨rfl, hv⟩⟩
  | none =>
    rw [ho] at h
    dsimp only at h
    generalize hcn3 : (issue E DbAction.registerTokenizer
      (noteOpen (mainDatabaseName D) w).cn).1 = cn3 at h
    have hv3 : versionQueries cn3.trace = versionQueries w.cn.trace := by
      rw [← hcn3]
      show versionQueries (w.cn.trace ++ [DbAction.openDatabase (mainDatabaseName D)]
        ++ [DbAction.registerTokenizer]) = _
      unfold versionQueries
      rw [List.count_append, List.count_append]
      rfl
    simp only [register, noteOpen] at h hcn3
    rw [hcn3] at h
    cases h4 : (if (E.tables cn3.db).length = 0 then UpdateDatabaseSchema E D 0 cn3
        else Except.ok cn3) with
    | error e => rw [h4] at h; exact absurd h (by simp)
    | ok cn4 =>
      rw [h4] at h
      dsimp only at h
      have hv4 : versionQueries cn4.trace = versionQueries cn3.trace := by
        split at h4
        · exact versionQueries_ext E cn3 cn4
            (ext_mono (fun x hx => Or.inl hx) (ext_updateDatabaseSchema E D 0 cn3 cn4 h4))
        · simp only [Except.ok.injEq] at h4
          subst h4
          rfl
      cases h5 : attachAll E D D.attached_databases_ cn4 with
      | error e => rw [h5] at h; exact absurd h (by simp)
      | ok cn5 =>
        rw [h5] at h
        dsimp only at h
        have hv5 := versionQueries_attachAll E D _ cn4 cn5 h5
        cases h6 : (if D.startup_schema_version_ = -1 then UpdateMainSchema E D cn5
            else Except.ok (D, cn5)) with
        | error e => rw [h6] at h; exact absurd h (by simp)
        | ok r6 =>
          obtain ⟨D6, cn6⟩ := r6
          rw [h6] at h
          dsimp only at h
          cases h7 : initAttached E D6 D6.attached_databases_ cn6 with
          | error e => rw [h7] at h; exact absurd h (by simp)
          | ok cn7 =>
            rw [h7] at h
            simp only [Except.ok.injEq, Prod.mk.injEq] at h
            obtain ⟨_, hD, hw⟩ := h
            subst hD hw
            have hv7 := versionQueries_ext E cn6 cn7 (ext_initAttached E D6 _ cn6 cn7 h7)
            show (D.startup_schema_version_ ≠ -1 →
                D6 = D ∧ versionQueries cn7.trace = versionQueries w.cn.trace)
              ∧ (D.startup_schema_version_ = -1 →
                (D6 = D ∧ versionQueries cn7.trace = versionQueries w.cn.trace)
                ∨ ((∃ s, D6.startup_schema_version_ = (E.versionRows s).headD 0)
                    ∧ versionQueries cn7.trace = versionQueries w.cn.trace + 1))
            by_cases hs : D.startup_schema_version_ = -1
            · rw [if_pos hs] at h6
              obtain ⟨hD6, hext⟩ := updateMainSchema_ext E D D6 cn5 cn6 h6
              have hv6 : versionQueries cn6.trace = versionQueries cn5.trace + 1 := by
                rw [versionQueries_ext E _ cn6 (ext_mono (fun x hx => Or.inl hx) hext)]
                show versionQueries (cn5.trace ++ [DbAction.select kVersionQuery]) = _
                unfold versionQueries
                rw [List.count_append]
                simp
              refine ⟨fun hne => absurd hs hne, fun _ => Or.inr ⟨⟨cn5.db, ?_⟩, ?_⟩⟩
              · rw [hD6]
              · rw [hv7, hv6, hv5, hv4, hv3]
            · rw [if_neg hs] at h6
              simp only [Except.ok.injEq, Prod.mk.injEq] at h6
              obtain ⟨hD6, hcn6⟩ := h6
              subst hD6 hcn6
              exact ⟨fun _ => ⟨rfl, by rw [hv7, hv5, hv4, hv3]⟩, fun h => absurd h hs⟩

/-- The same for `Connect`: a connection found open adds nothing. -/
theorem connect_versionQueries (E : SqlEngine σ) (Q : QtEnv σ) (D D1 : DatabaseState)
    (thread : Nat) (w w1 : World σ) (db : QSqlDatabase)
    (h : Connect E Q D thread w = Except.ok (db, D1, w1)) :
    (D.startup_schema_version_ ≠ -1 →
      D1 = D ∧ versionQueries w1.cn.trace = versionQueries w.cn.trace)
    ∧ (D.startup_schema_version_ = -1 →
      (D1 = D ∧ versionQueries w1.cn.trace = versionQueries w.cn.trace)
      ∨ ((∃ s, D1.startup_schema_version_ = (E.versionRows s).headD 0)
          ∧ versionQueries w1.cn.trace = versionQueries w.cn.trace + 1)) := by
  have hfound : versionQueries
      (QSqlDatabase.database Q (connectionName D thread) (makeDirectory Q D w)).2.cn.trace
        = versionQueries w.cn.trace := by
    have h0 := (makeDirectory_keeps Q D w).1
    unfold QSqlDatabase.database
    split
    · rw [h0]
    · split
      · rw [h0]
      · split
        · show versionQueries ((makeDirectory Q D w).cn.trace ++ [DbAction.openDatabase _]) = _
          rw [h0]
          unfold versionQueries
          rw [List.count_append]
          rfl
        · show versionQueries ((makeDirectory Q D w).cn.trace ++ [DbAction.openDatabase _]) = _
          rw [h0]
          unfold versionQueries
          rw [List.count_append]
          rfl
  unfold Connect at h
  dsimp only at h
  split at h
  · split at h
    · simp only [Except.ok.injEq, Prod.mk.injEq] at h
      obtain ⟨_, hD, hw⟩ := h
      subst hD hw
      exact ⟨fun _ => ⟨rfl, hfound⟩, fun _ => Or.inl ⟨rfl, hfound⟩⟩
    · have := connectNew_versionQueries E Q D D1 _ _ w1 db h
      rw [hfound] at this
      exact this
  · have := connectNew_versionQueries E Q D D1 _ _ w1 db h
    rw [hfound] at this
    exact this

end onceProofs

/-- Over a sequence of calls: an object whose `startup_schema_version_` is not
-1 is left as it is and no version query is issued; from -1, either nothing
is issued, or the query is issued once and the object records a version other
than -1, when no database records -1. -/
theorem runCalls_versionQueries {σ : Type} (E : SqlEngine σ) (Q : QtEnv σ)
    (hver : ∀ s, (E.versionRows s).headD 0 ≠ -1) (calls : List Call) :
    ∀ (D D1 : DatabaseState) (w w1 : World σ),
      runCalls E Q calls (D, w) = Except.ok (D1, w1) →
      (D.startup_schema_version_ ≠ -1 →
        D1 = D ∧ versionQueries w1.cn.trace = versionQueries w.cn.trace)
      ∧ (D.startup_schema_version_ = -1 →
        (D1 = D ∧ versionQueries w1.cn.trace = versionQueries w.cn.trace)
        ∨ (D1.startup_schema_version_ ≠ -1
            ∧ versionQueries w1.cn.trace = versionQueries w.cn.trace + 1)) := by
  induction calls with
  | nil =>
    intro D D1 w w1 h
    simp only [runCalls, Except.ok.injEq, Prod.mk.injEq] at h
    obtain ⟨hD, hw⟩ := h
    subst hD hw
    exact ⟨fun _ => ⟨rfl, rfl⟩, fun _ => Or.inl ⟨rfl, rfl⟩⟩
  | cons c rest ih =>
    intro D D1 w w1 h
    cases c with
    | invalidate registry =>
      exact ih D D1 { w with registry := registry } w1 h
    | connect thread =>
      unfold runCalls at h
      dsimp only at h
      cases hc : Connect E Q D thread w with
      | error e => rw [hc] at h; exact absurd h (by simp)
      | ok r =>
        obtain ⟨db, D2, w2⟩ := r
        rw [hc] at h
        dsimp only at h
        have h1 := connect_versionQueries E Q D D2 thread w w2 db hc
        have h2 := ih D2 D1 w2 w1 h
        constructor
        · intro hne
          obtain ⟨hD2, hv2⟩ := h1.1 hne
          subst hD2
          obtain ⟨hD1, hv1⟩ := h2.1 hne
          exact ⟨hD1, hv1.trans hv2⟩
        · intro heq
          rcases h1.2 heq with ⟨hD2, hv2⟩ | ⟨⟨s, hs⟩, hv2⟩
          · subst hD2
            rcases h2.2 heq with ⟨hD1, hv1⟩ | ⟨hD1, hv1⟩
            · exact Or.inl ⟨hD1, hv1.trans hv2⟩
            · exact Or.inr ⟨hD1, by rw [hv1, hv2]⟩
          · have hne : D2.startup_schema_version_ ≠ -1 := by
              rw [hs]
              exact hver s
            obtain ⟨hD1, hv1⟩ := h2.1 hne
            refine Or.inr ⟨by rw [hD1]; exact hne, by rw [hv1, hv2]⟩

/-- With an engine that reports no error and resources that all open, every
sequence of calls comes back. -/
theorem runCalls_returns {σ : Type} (E : SqlEngine σ) (Q : QtEnv σ)
    (hok : ∀ a s, (E.run a s).2 = none) (hres : ∀ f, (E.resource f).isSome = true)
    (calls : List Call) :
    ∀ s : DatabaseState × World σ, ∃ r, runCalls E Q calls s = Except.ok r := by
  induction calls with
  | nil => intro s; exact ⟨s, rfl⟩
  | cons c rest ih =>
    intro s
    cases c with
    | invalidate registry => exact ih (s.1, { s.2 with registry := registry })
    | connect thread =>
      obtain ⟨r, hr⟩ := connect_returns E Q s.1 hok hres thread s.2
      unfold runCalls
      rw [hr]
      exact ih (r.2.1, r.2.2)

/-- Claim C25.  The version a database records is not negative.  Then every
sequence of `Connect` calls on one object, from any threads and with Qt's
connections changed in between, has, when it comes back, issued the version
query of `UpdateMainSchema` at most once; an object whose
`startup_schema_version_` is not -1 is left as it is and issues none; and once
the query has been issued `startup_schema_version_` is not -1.  The sequence
does come back when the engine reports no error and the scripts open. -/
theorem C25_migration_once {σ : Type} (E : SqlEngine σ) (Q : QtEnv σ)
    (hver : ∀ s, ∀ v ∈ E.versionRows s, 0 ≤ v) (calls : List Call)
    (D : DatabaseState) (w : World σ) :
    (∀ D1 w1, runCalls E Q calls (D, w) = Except.ok (D1, w1) →
      versionQueries w1.cn.trace ≤ versionQueries w.cn.trace + 1
      ∧ (D.startup_schema_version_ ≠ -1 →
          D1 = D ∧ versionQueries w1.cn.trace = versionQueries w.cn.trace)
      ∧ (versionQueries w1.cn.trace = versionQueries w.cn.trace + 1 →
          D1.startup_schema_version_ ≠ -1))
    ∧ ((∀ a s, (E.run a s).2 = none) → (∀ f, (E.resource f).isSome = true) →
        ∃ r, runCalls E Q calls (D, w) = Except.ok r) := by
  refine ⟨?_, fun hok hres => runCalls_returns E Q hok hres calls (D, w)⟩
  intro D1 w1 h
  have hne : ∀ s, (E.versionRows s).headD 0 ≠ -1 := by
    intro s
    cases hrows : E.versionRows s with
    | nil => decide
    | cons v rest =>
      have := hver s v (by rw [hrows]; exact List.mem_cons_self _ _)
      show v ≠ -1
      omega
  have hr := runCalls_versionQueries E Q hne calls D D1 w w1 h
  refine ⟨?_, hr.1, ?_⟩
  · by_cases hs : D.startup_schema_version_ = -1
    · rcases hr.2 hs with ⟨_, hv⟩ | ⟨_, hv⟩ <;> omega
    · have := (hr.1 hs).2
      omega
  · intro hv
    by_cases hs : D.startup_schema_version_ = -1
    · rcases hr.2 hs with ⟨_, hv2⟩ | ⟨hD, _⟩
      · omega
      · exact hD
    · have := (hr.1 hs).2
      omega

set_option maxRecDepth 100000 in
/-- Witness for C25: a database at version 40; thread 7 connects (the three
steps to 43 run), Qt's connections are all removed, thread 7 and thread 8
connect again. The version query was issued once. -/
theorem C25_migration_witness :
    ∃ D1 w1,
      runCalls countingEngine (refQtEnv [])
        [Call.connect 7, Call.invalidate [], Call.connect 7, Call.connect 8]
        (refDatabase, startWorld 40) = Except.ok (D1, w1)
      ∧ D1.startup_schema_version_ = 40
      ∧ w1.cn.db = 43
      ∧ versionQueries w1.cn.trace = 1
      ∧ (versionQueries w1.cn.trace ≤ versionQueries (startWorld 40).cn.trace + 1
        ∧ (refDatabase.startup_schema_version_ ≠ -1 →
            D1 = refDatabase
            ∧ versionQueries w1.cn.trace = versionQueries (startWorld 40).cn.trace)
        ∧ (versionQueries w1.cn.trace = versionQueries (startWorld 40).cn.trace + 1 →
            D1.startup_schema_version_ ≠ -1)) :=
  ⟨_, _, rfl, rfl, rfl, by decide,
    (C25_migration_once countingEngine (refQtEnv [])
      (fun s v hv => by simp [countingEngine] at hv; omega)
      [Call.connect 7, Call.invalidate [], Call.connect 7, Call.connect 8]
      refDatabase (startWorld 40)).1 _ _ rfl⟩

/-! ## Claims about `RecreateAttachedDb` -/

section recreateProofs
variable {σ : Type}

theorem lookup_split (k : String) (v : AttachedDatabase) :
    ∀ l : List (String × AttachedDatabase), l.lookup k = some v →
      ∃ l1 l2, l = l1 ++ (k, v) :: l2 := by
  intro l
  induction l with
  | nil => intro h; simp [List.lookup] at h
  | cons kv rest ih =>
    intro h
    obtain ⟨k1, v1⟩ := kv
    by_cases hk : k = k1
    · subst hk
      simp [List.lookup] at h
      subst h
      exact ⟨[], rest, rfl⟩
    · have hb : (k == k1) = false := by simpa using hk
      simp only [List.lookup, hb] at h
      obtain ⟨l1, l2, e⟩ := ih h
      exact ⟨(k1, v1) :: l1, l2, by rw [e]; rfl⟩

/-- One round of the loop of lines 408-417: the query, and when it finds no
table the transaction, the script and the commit. -/
theorem initAttached_step (E : SqlEngine σ) (D : DatabaseState) (kv : String × AttachedDatabase)
    (rest : List (String × AttachedDatabase)) (cn cn2 : Conn σ)
    (h : initAttached E D (kv :: rest) cn = Except.ok cn2) :
    ∃ seg cn1, initAttached E D rest cn1 = Except.ok cn2
      ∧ cn1.trace = cn.trace ++ [DbAction.select (attachedTablesQuery kv.1)] ++ seg
      ∧ cn1.db = replay E seg cn.db
      ∧ (hasTables E kv.1 cn.db = true → seg = [])
      ∧ (hasTables E kv.1 cn.db = false →
          ∃ ex schema a b,
            seg = [DbAction.transaction, DbAction.openResource kv.2.schema_] ++ ex
                    ++ [DbAction.commit]
            ∧ ex.all DbAction.plain = true
            ∧ E.resource kv.2.schema_ = some schema
            ∧ a.trace = cn.trace ++ [DbAction.select (attachedTablesQuery kv.1),
                DbAction.transaction, DbAction.openResource kv.2.schema_]
            ∧ ExecCommands E D schema 0 a = Except.ok b
            ∧ b.trace = a.trace ++ ex) := by
  unfold initAttached at h
  dsimp only at h
  replace h : (if (!hasTables E kv.1 cn.db) = true then
        match ExecFromFile E D kv.2.schema_ 0
            (ScopedTransaction E (noteSelect (attachedTablesQuery kv.1) cn)) with
        | Except.error e => Except.error e
        | Except.ok cn3 => initAttached E D rest (ScopedTransaction.Commit E cn3)
      else initAttached E D rest (noteSelect (attachedTablesQuery kv.1) cn))
      = Except.ok cn2 := h
  by_cases hf : hasTables E kv.1 cn.db = true
  · rw [hf] at h
    simp only [Bool.not_true, Bool.false_eq_true, if_false] at h
    refine ⟨[], _, h, by simp [noteSelect], rfl, fun _ => rfl, fun hn => ?_⟩
    rw [hf] at hn
    exact absurd hn (by simp)
  · have hf1 : hasTables E kv.1 cn.db = false := by simpa using hf
    rw [hf1] at h
    simp only [Bool.not_false, if_true] at h
    cases hx : ExecFromFile E D kv.2.schema_ 0
        (ScopedTransaction E (noteSelect (attachedTablesQuery kv.1) cn)) with
    | error e => rw [hx] at h; exact absurd h (by simp)
    | ok cn3 =>
      rw [hx] at h
      dsimp only at h
      unfold ExecFromFile at hx
      dsimp only at hx
      cases hr : E.resource kv.2.schema_ with
      | none => rw [hr] at hx; exact absurd hx (by simp)
      | some schema =>
        rw [hr] at hx
        dsimp only at hx
        obtain ⟨ex, hex, hplain⟩ := execCommands_ok E D schema 0 _ cn3 hx
        obtain ⟨l, hl, hdb, _⟩ := ext_execCommands E D schema 0 _ cn3 hx
        have hlex : l = ex := List.append_cancel_left (hl.symm.trans hex)
        subst hlex
        refine ⟨[DbAction.transaction, DbAction.openResource kv.2.schema_] ++ l
            ++ [DbAction.commit], _, h, ?_, ?_, fun ht => ?_, fun _ => ?_⟩
        · show cn3.trace ++ [DbAction.commit] = _
          rw [hl]
          simp [ScopedTransaction, issue, noteSelect]
        · show (E.run DbAction.commit cn3.db).1 = _
          rw [hdb, replay_append, replay_append]
          simp [replay, DbAction.issued, ScopedTransaction, issue, noteSelect]
        · rw [hf1] at ht
          exact absurd ht (by simp)
        · refine ⟨l, schema, _, cn3, rfl, hplain, rfl, ?_, hx, hl⟩
          simp [ScopedTransaction, issue, noteSelect]

/-- The loop of lines 408-417 at one of the entries: what comes before, the
query for the entry, and, decided by the state the actions before it leave,
nothing or the script of the entry in a transaction. -/
theorem initAttached_shape (E : SqlEngine σ) (D : DatabaseState) (kv : String × AttachedDatabase)
    (l2 : List (String × AttachedDatabase)) :
    ∀ (l1 : List (String × AttachedDatabase)) (cn cn2 : Conn σ),
      initAttached E D (l1 ++ kv :: l2) cn = Except.ok cn2 →
      ∃ p1 seg p2,
        cn2.trace = cn.trace ++ p1 ++ [DbAction.select (attachedTablesQuery kv.1)] ++ seg ++ p2
        ∧ (hasTables E kv.1 (replay E p1 cn.db) = true → seg = [])
        ∧ (hasTables E kv.1 (replay E p1 cn.db) = false →
            ∃ ex schema a b,
              seg = [DbAction.transaction, DbAction.openResource kv.2.schema_] ++ ex
                      ++ [DbAction.commit]
              ∧ ex.all DbAction.plain = true
              ∧ E.resource kv.2.schema_ = some schema
              ∧ a.trace = cn.trace ++ p1 ++ [DbAction.select (attachedTablesQuery kv.1),
                  DbAction.transaction, DbAction.openResource kv.2.schema_]
              ∧ ExecCommands E D schema 0 a = Except.ok b
              ∧ b.trace = a.trace ++ ex) := by
  intro l1
  induction l1 with
  | nil =>
    intro cn cn2 h
    obtain ⟨seg, cn1, hrest, ht, _, hyes, hno⟩ := initAttached_step E D kv l2 cn cn2 h
    obtain ⟨p2, hp2, _, _⟩ := ext_initAttached E D l2 cn1 cn2 hrest
    refine ⟨[], seg, p2, ?_, hyes, ?_⟩
    · rw [hp2, ht]
      simp
    · intro hn
      obtain ⟨ex, schema, a, b, h1, h2, h3, h4, h5, h6⟩ := hno hn
      exact ⟨ex, schema, a, b, h1, h2, h3, by rw [h4]; simp, h5, h6⟩
  | cons kv1 rest ih =>
    intro cn cn2 h
    obtain ⟨seg1, cn1, hrest, ht, hd, _, _⟩ :=
      initAttached_step E D kv1 (rest ++ kv :: l2) cn cn2 h
    obtain ⟨p1, seg, p2, htr, hyes, hno⟩ := ih cn1 cn2 hrest
    have hrep : replay E ([DbAction.select (attachedTablesQuery kv1.1)] ++ seg1 ++ p1) cn.db
        = replay E p1 cn1.db := by
      rw [replay_append, replay_append, hd]
      rfl
    refine ⟨[DbAction.select (attachedTablesQuery kv1.1)] ++ seg1 ++ p1, seg, p2, ?_, ?_, ?_⟩
    · rw [htr, ht]
      simp
    · rw [hrep]
      exact hyes
    · rw [hrep]
      intro hn
      obtain ⟨ex, schema, a, b, h1, h2, h3, h4, h5, h6⟩ := hno hn
      exact ⟨ex, schema, a, b, h1, h2, h3, by rw [h4, ht]; simp, h5, h6⟩

/-- The state the attaching loop leaves is that of its `ATTACH` statements. -/
theorem attachAll_db (E : SqlEngine σ) (D : DatabaseState)
    (l : List (String × AttachedDatabase)) :
    ∀ (cn cn2 : Conn σ), attachAll E D l cn = Except.ok cn2 →
      cn2.db = replay E (l.map (fun kv => DbAction.attach (attachedFilename D kv) kv.1)) cn.db := by
  induction l with
  | nil =>
    intro cn cn2 h
    simp only [attachAll, Except.ok.injEq] at h
    subst h
    rfl
  | cons kv rest ih =>
    intro cn cn2 h
    unfold attachAll at h
    dsimp only at h
    split at h
    · exact absurd h (by simp)
    · rw [ih _ cn2 h]
      simp [issue, replay, DbAction.issued]

end recreateProofs

section recreateClaims
variable {σ : Type}

/-- A new connection that opens, at one of the declared entries: after the
opening come actions among which is the `ATTACH` of the entry, then the query
for the tables of the entry, and, decided by the state the actions before it
leave, nothing or the script of the entry in a transaction. -/
theorem connectNew_shape (E : SqlEngine σ) (Q : QtEnv σ) (D D1 : DatabaseState)
    (connection_id : String) (w w1 : World σ) (db : QSqlDatabase)
    (h : connectNew E Q D connection_id w = Except.ok (db, D1, w1)) (hopen : db.isOpen = true)
    (l1 l2 : List (String × AttachedDatabase)) (kv : String × AttachedDatabase)
    (hl : D.attached_databases_ = l1 ++ kv :: l2) :
    ∃ pre seg post,
      w1.cn.trace = w.cn.trace ++ DbAction.openDatabase (mainDatabaseName D) :: pre
          ++ [DbAction.select (attachedTablesQuery kv.1)] ++ seg ++ post
      ∧ DbAction.attach (attachedFilename D kv) kv.1 ∈ pre
      ∧ (hasTables E kv.1 (replay E pre w.cn.db) = true → seg = [])
      ∧ (hasTables E kv.1 (replay E pre w.cn.db) = false →
          ∃ ex schema a b,
            seg = [DbAction.transaction, DbAction.openResource kv.2.schema_] ++ ex
                    ++ [DbAction.commit]
            ∧ ex.all DbAction.plain = true
            ∧ E.resource kv.2.schema_ = some schema
            ∧ a.trace = w.cn.trace ++ DbAction.openDatabase (mainDatabaseName D) :: pre
                ++ [DbAction.select (attachedTablesQuery kv.1),
                  DbAction.transaction, DbAction.openResource kv.2.schema_]
            ∧ ExecCommands E D1 schema 0 a = Except.ok b
            ∧ b.trace = a.trace ++ ex) := by
  unfold connectNew at h
  dsimp only at h
  cases ho : Q.openError (mainDatabaseName D) w.cn.db with
  | some text =>
    rw [ho] at h
    simp only [Except.ok.injEq, Prod.mk.injEq] at h
    obtain ⟨hdb, _, _⟩ := h
    subst hdb
    exact absurd hopen (by simp)
  | none =>
    rw [ho] at h
    dsimp only at h
    generalize hcn3 : (issue E DbAction.registerTokenizer
      (noteOpen (mainDatabaseName D) w).cn).1 = cn3 at h
    have ht3 : cn3.trace = w.cn.trace ++ [DbAction.openDatabase (mainDatabaseName D),
        DbAction.registerTokenizer] := by
      rw [← hcn3]; simp [issue, noteOpen]
    have hd3 : cn3.db = replay E [DbAction.registerTokenizer] w.cn.db := by
      rw [← hcn3]; simp [issue, noteOpen, replay, DbAction.issued]
    simp only [register, noteOpen] at h hcn3
    rw [hcn3] at h
    cases h4 : (if (E.tables cn3.db).length = 0 then UpdateDatabaseSchema E D 0 cn3
        else Except.ok cn3) with
    | error e => rw [h4] at h; exact absurd h (by simp)
    | ok cn4 =>
      rw [h4] at h
      dsimp only at h
      have hq4 : ∃ l4, cn4.trace = cn3.trace ++ l4 ∧ cn4.db = replay E l4 cn3.db := by
        split at h4
        · obtain ⟨l, e, d, _⟩ := ext_updateDatabaseSchema E D 0 cn3 cn4 h4
          exact ⟨l, e, d⟩
        · simp only [Except.ok.injEq] at h4
          subst h4
          exact ⟨[], by simp, rfl⟩
      obtain ⟨l4, ht4, hd4⟩ := hq4
      cases h5 : attachAll E D D.attached_databases_ cn4 with
      | error e => rw [h5] at h; exact absurd h (by simp)
      | ok cn5 =>
        rw [h5] at h
        dsimp only at h
        have ht5 := attachAll_trace E D D.attached_databases_ cn4 cn5 h5
        have hd5 := attachAll_db E D D.attached_databases_ cn4 cn5 h5
        cases h6 : (if D.startup_schema_version_ = -1 then UpdateMainSchema E D cn5
            else Except.ok (D, cn5)) with
        | error e => rw [h6] at h; exact absurd h (by simp)
        | ok r6 =>
          obtain ⟨D6, cn6⟩ := r6
          rw [h6] at h
          dsimp only at h
          have hq6 : (∃ l6, cn6.trace = cn5.trace ++ l6 ∧ cn6.db = replay E l6 cn5.db)
              ∧ D6.attached_databases_ = D.attached_databases_ := by
            split at h6
            · obtain ⟨hD, l, e, d, _⟩ := updateMainSchema_ext E D D6 cn5 cn6 h6
              refine ⟨⟨DbAction.select kVersionQuery :: l, ?_, ?_⟩, by rw [hD]⟩
              · rw [e]
                simp [noteSelect]
              · rw [d]
                rfl
            · simp only [Except.ok.injEq, Prod.mk.injEq] at h6
              obtain ⟨hD, hcn⟩ := h6
              subst hD hcn
              exact ⟨⟨[], by simp, rfl⟩, rfl⟩
          obtain ⟨⟨l6, ht6, hd6⟩, hatt⟩ := hq6
          cases h7 : initAttached E D6 D6.attached_databases_ cn6 with
          | error e => rw [h7] at h; exact absurd h (by simp)
          | ok cn7 =>
            rw [h7] at h
            simp only [Except.ok.injEq, Prod.mk.injEq] at h
            obtain ⟨_, hD, hw⟩ := h
            subst hD hw
            rw [hatt, hl] at h7
            obtain ⟨p1, seg, p2, htr, hyes, hno⟩ := initAttached_shape E D6 kv l2 l1 cn6 cn7 h7
            have hrep : replay E ([DbAction.registerTokenizer] ++ l4
                ++ D.attached_databases_.map
                    (fun kv => DbAction.attach (attachedFilename D kv) kv.1)
                ++ l6 ++ p1) w.cn.db = replay E p1 cn6.db := by
              rw [replay_append, replay_append, replay_append, replay_append, ← hd3, ← hd4,
                ← hd5, ← hd6]
            have htr6 : cn6.trace = w.cn.trace ++ DbAction.openDatabase (mainDatabaseName D)
                :: ([DbAction.registerTokenizer] ++ l4
                  ++ D.attached_databases_.map
                      (fun kv => DbAction.attach (attachedFilename D kv) kv.1)
                  ++ l6) := by
              rw [ht6, ht5, ht4, ht3]
              simp
            refine ⟨[DbAction.registerTokenizer] ++ l4
                ++ D.attached_databases_.map
                    (fun kv => DbAction.attach (attachedFilename D kv) kv.1)
                ++ l6 ++ p1, seg, p2, ?_, ?_, ?_, ?_⟩
            · show cn7.trace = _
              rw [htr, htr6]
              simp
            · have hmem : DbAction.attach (attachedFilename D kv) kv.1
                  ∈ D.attached_databases_.map
                      (fun kv => DbAction.attach (attachedFilename D kv) kv.1) := by
                rw [hl]
                exact List.mem_map.2 ⟨kv, by simp, rfl⟩
              simp only [List.mem_append]
              exact Or.inl (Or.inl (Or.inr hmem))
            · rw [hrep]
              exact hyes
            · rw [hrep]
              intro hn
              obtain ⟨ex, schema, a, b, e1, e2, e3, e4, e5, e6⟩ := hno hn
              exact ⟨ex, schema, a, b, e1, e2, e3, by rw [e4, htr6]; simp, e5, e6⟩

/-- What `Connect` does to the object: at most `startup_schema_version_`
changes. -/
theorem connect_object (E : SqlEngine σ) (Q : QtEnv σ) (D D1 : DatabaseState) (thread : Nat)
    (w w1 : World σ) (db : QSqlDatabase)
    (h : Connect E Q D thread w = Except.ok (db, D1, w1)) :
    ∃ s, D1 = { D with startup_schema_version_ := s } := by
  unfold Connect at h
  dsimp only at h
  split at h
  · split at h
    · simp only [Except.ok.injEq, Prod.mk.injEq] at h
      exact ⟨D.startup_schema_version_, h.2.1.symm⟩
    · exact (connectNew_ok E Q D D1 _ _ w1 db h).2.2.2.2.1
  · exact (connectNew_ok E Q D D1 _ _ w1 db h).2.2.2.2.1

/-- With no connection registered, `Connect` is the making of a new one. -/
theorem connect_fresh (E : SqlEngine σ) (Q : QtEnv σ) (D : DatabaseState) (thread : Nat)
    (w : World σ) (hreg : w.registry = []) :
    Connect E Q D thread w = connectNew E Q D (connectionName D thread) (makeDirectory Q D w) := by
  have hr : (makeDirectory Q D w).registry = [] := by
    rw [(makeDirectory_keeps Q D w).2, hreg]
  unfold Connect
  dsimp only
  have hfound : QSqlDatabase.database Q (connectionName D thread) (makeDirectory Q D w)
      = (none, makeDirectory Q D w) := by
    unfold QSqlDatabase.database
    rw [hr]
    rfl
  rw [hfound]

/-- A call of `RecreateAttachedDb` that reaches its end: the alias is declared,
the object changed at most in `startup_schema_version_`, and no connection is
registered any more. -/
theorem recreate_detached (E : SqlEngine σ) (Q : QtEnv σ) (D D1 : DatabaseState)
    (database_name : String) (thread : Nat) (w w1 : World σ)
    (h : RecreateAttachedDb E Q D database_name thread w
          = Except.ok (Recreated.detached, D1, w1)) :
    (∃ entry, D.attached_databases_.lookup database_name = some entry)
    ∧ D1.attached_databases_ = D.attached_databases_
    ∧ D1.injected_database_name_ = D.injected_database_name_
    ∧ w1.registry = [] := by
  unfold RecreateAttachedDb at h
  cases hlk : D.attached_databases_.lookup database_name with
  | none =>
    rw [hlk] at h
    simp only [Except.ok.injEq, Prod.mk.injEq] at h
    exact absurd h.1 (by decide)
  | some entry =>
    rw [hlk] at h
    dsimp only at h
    cases hc : Connect E Q D thread w with
    | error e => rw [hc] at h; exact absurd h (by simp)
    | ok r =>
      obtain ⟨db, D2, w2⟩ := r
      rw [hc] at h
      dsimp only at h
      obtain ⟨s, hs⟩ := connect_object E Q D D2 thread w w2 db hc
      split at h
      · simp only [Except.ok.injEq, Prod.mk.injEq] at h
        exact absurd h.1 (by decide)
      · split at h
        · simp only [Except.ok.injEq, Prod.mk.injEq] at h
          exact absurd h.1 (by decide)
        · simp only [Except.ok.injEq, Prod.mk.injEq] at h
          obtain ⟨_, hD, hw⟩ := h
          subst hD hw
          exact ⟨⟨entry, rfl⟩, by rw [hs], by rw [hs], rfl⟩

end recreateClaims

/-- Claim C21: when `RecreateAttachedDb` has detached a declared alias, no
connection is registered any more; and `Connect` called next on any thread
comes back when nothing fails, and whenever it comes back it has made a new
handle under the name of that thread, the only one registered, open exactly
when the database could be opened.  When the handle is open, the trace holds
after the opening the `ATTACH` of the alias, then the query for the tables of
the alias, and, when the state the actions before the query leave has no table
in the alias, the transaction, the opening and the statements of the script of
the alias, and the commit. -/
theorem C21_recreate_then_connect {σ : Type} (E : SqlEngine σ) (Q : QtEnv σ)
    (D D1 : DatabaseState) (database_name : String) (thread : Nat) (w w1 : World σ)
    (entry : AttachedDatabase)
    (hentry : D.attached_databases_.lookup database_name = some entry)
    (h : RecreateAttachedDb E Q D database_name thread w
          = Except.ok (Recreated.detached, D1, w1)) :
    w1.registry = []
    ∧ ∀ thread2 : Nat,
      ((∀ a s, (E.run a s).2 = none) → (∀ f, (E.resource f).isSome = true) →
          ∃ r, Connect E Q D1 thread2 w1 = Except.ok r)
      ∧ ∀ db D2 w2, Connect E Q D1 thread2 w1 = Except.ok (db, D2, w2) →
          db.connectionName = connectionName D1 thread2
          ∧ w2.registry = [db]
          ∧ db.isOpen = (Q.openError (mainDatabaseName D1) w1.cn.db).isNone
          ∧ (db.isOpen = true →
              ∃ pre seg post,
                w2.cn.trace = w1.cn.trace ++ DbAction.openDatabase (mainDatabaseName D1) :: pre
                    ++ [DbAction.select (attachedTablesQuery database_name)] ++ seg ++ post
                ∧ DbAction.attach (attachedFilename D1 (database_name, entry)) database_name
                    ∈ pre
                ∧ (hasTables E database_name (replay E pre w1.cn.db) = false →
                    ∃ ex schema a b,
                      seg = [DbAction.transaction, DbAction.openResource entry.schema_] ++ ex
                              ++ [DbAction.commit]
                      ∧ ex.all DbAction.plain = true
                      ∧ E.resource entry.schema_ = some schema
                      ∧ a.trace = w1.cn.trace
                          ++ DbAction.openDatabase (mainDatabaseName D1) :: pre
                          ++ [DbAction.select (attachedTablesQuery database_name),
                            DbAction.transaction, DbAction.openResource entry.schema_]
                      ∧ ExecCommands E D2 schema 0 a = Except.ok b
                      ∧ b.trace = a.trace ++ ex)) := by
  obtain ⟨_, hatt, _, hreg⟩ := recreate_detached E Q D D1 database_name thread w w1 h
  obtain ⟨l1, l2, hl⟩ := lookup_split database_name entry _ hentry
  rw [← hatt] at hl
  refine ⟨hreg, fun thread2 => ⟨fun hok hres => connect_returns E Q D1 hok hres thread2 w1, ?_⟩⟩
  intro db D2 w2 hc
  rw [connect_fresh E Q D1 thread2 w1 hreg] at hc
  have hcn := (makeDirectory_keeps Q D1 w1).1
  have hrg := (makeDirectory_keeps Q D1 w1).2
  obtain ⟨hname, _, hopen, hregistry, _, _, _, _⟩ := connectNew_ok E Q D1 D2 _ _ w2 db hc
  refine ⟨hname, ?_, ?_, ?_⟩
  · rw [hregistry, hrg, hreg]
    rfl
  · rw [hopen, hcn]
  · intro hisopen
    obtain ⟨pre, seg, post, htr, hmem, _, hno⟩ :=
      connectNew_shape E Q D1 D2 _ _ w2 db hc hisopen l1 l2 (database_name, entry) hl
    rw [hcn] at htr hno
    refine ⟨pre, seg, post, htr, hmem, fun hn => ?_⟩
    obtain ⟨ex, schema, a, b, e1, e2, e3, e4, e5, e6⟩ := hno hn
    exact ⟨ex, schema, a, b, e1, e2, e3, e4, e5, e6⟩

set_option maxRecDepth 100000 in
/-- Witness for C21: thread 7 has a connection; `RecreateAttachedDb("jamendo")`
on thread 8 detaches, removes the file and every connection; the next `Connect`
of thread 7 makes a new handle, attaches `jamendo`, finds it without tables and
runs its script in a transaction, after which the table is there again. -/
theorem C21_recreate_witness :
    ∃ D1 w1,
      RecreateAttachedDb fileEngine fileQtEnv refDatabase "jamendo" 8 cachedWorld
        = Except.ok (Recreated.detached, D1, w1)
      ∧ w1.registry = []
      ∧ w1.cn.db = (43, [])
      ∧ ∃ db D2 w2,
          Connect fileEngine fileQtEnv D1 7 w1 = Except.ok (db, D2, w2)
          ∧ db.isOpen = true
          ∧ w2.registry = [db]
          ∧ w2.cn.db = (43, ["songs"])
          ∧ w2.cn.trace = w1.cn.trace
              ++ [DbAction.openDatabase (mainDatabaseName refDatabase),
                  DbAction.registerTokenizer,
                  DbAction.attach "/jamendo.db" "jamendo",
                  DbAction.select (attachedTablesQuery "jamendo"),
                  DbAction.transaction,
                  DbAction.openResource ":/schema/jamendo.sql",
                  DbAction.select (attachedQuery "jamendo"),
                  DbAction.exec "CREATE TABLE jamendo.songs",
                  DbAction.commit] :=
  ⟨_, _, rfl,
    (C21_recreate_then_connect fileEngine fileQtEnv refDatabase _ "jamendo" 8 cachedWorld _
      ⟨"/jamendo.db", ":/schema/jamendo.sql"⟩ rfl rfl).1,
    rfl, _, _, _, rfl, rfl,
    (((C21_recreate_then_connect fileEngine fileQtEnv refDatabase _ "jamendo" 8 cachedWorld _
      ⟨"/jamendo.db", ":/schema/jamendo.sql"⟩ rfl rfl).2 7).2 _ _ _ rfl).2.1,
    rfl, by decide⟩

/-! ## Claims about the resolved symbols and the backup -/

/-- After the first `StaticInit` of a process, `sLoadedSqliteSymbols` is true
exactly when SQLite is linked statically, or the library loaded and each of
the thirteen symbols was resolved. -/
theorem staticInit_loaded_iff {σ : Type} (Q : QtEnv σ) (s : Statics)
    (h1 : s.sStaticInitDone = false) (h2 : s.sLoadedSqliteSymbols = false) :
    (StaticInit Q s).sLoadedSqliteSymbols = true
      ↔ (Q.haveStaticSqlite = true
          ∨ (Q.libraryLoads = true ∧ ∀ symbol ∈ sqliteSymbols, Q.resolves symbol = true)) := by
  unfold StaticInit
  rw [h1]
  simp only [Bool.false_eq_true, if_false]
  by_cases hs : Q.haveStaticSqlite = true
  · simp [hs]
  · by_cases hl : Q.libraryLoads = true
    · simp only [hs, hl, if_false, Bool.not_true, Bool.false_eq_true, false_or, true_and]
      by_cases hall : ∀ symbol ∈ sqliteSymbols, Q.resolves symbol = true
      · have hany : (sqliteSymbols.any
            (fun symbol => !((sqliteSymbols.filter Q.resolves).contains symbol))) = false := by
          rw [List.any_eq_false]
          intro symbol hmem
          simp [List.mem_filter, hmem, hall symbol hmem]
        rw [hany]
        simpa using hall
      · have hany : (sqliteSymbols.any
            (fun symbol => !((sqliteSymbols.filter Q.resolves).contains symbol))) = true := by
          rw [List.any_eq_true]
          push_neg at hall
          obtain ⟨symbol, hmem, hres⟩ := hall
          exact ⟨symbol, hmem, by simp [List.mem_filter, hres]⟩
        rw [hany]
        simp [hall]
    · simp [hs, hl, h2]

/-- C26, the code where a symbol is missing.  On a build without static SQLite
whose library loads but lacks `sqlite3_user_data`, `StaticInit` leaves
`sLoadedSqliteSymbols` false; `BackupFile` then runs the whole backup through
the pointers that were resolved, and `DoBackup`, which connects, checks the
integrity and calls `BackupFile`, calls `_sqlite3_open` and `_sqlite3_close`,
the flag still false.  Where the library does not load, `DoBackup` calls
`_sqlite3_open` through the `NULL` pointer. -/
theorem C26_backup_runs_without_symbols :
    (StaticInit (partialEnv : QtEnv BackupState) ⟨false, false, false, []⟩).sLoadedSqliteSymbols
      = false
    ∧ (∃ w, BackupFile (idealSqlite 20) partialEnv "clementine.db" 3
              { backupWorld with
                statics := StaticInit (partialEnv : QtEnv BackupState) ⟨false, false, false, []⟩ }
            = Except.ok (some w)
        ∧ w.statics.sLoadedSqliteSymbols = false
        ∧ w.log =
            [Event.startTask "Backing up database" 1,
             Event.sqlite3_open "clementine.db",
             Event.sqlite3_open "clementine.db.bak",
             Event.sqlite3_backup_init (some 2) (some 1),
             Event.sqlite3_backup_step 1 16, Event.sqlite3_backup_pagecount 1,
             Event.sqlite3_backup_remaining 1, Event.setTaskProgress 1 16 20,
             Event.sqlite3_backup_step 1 16, Event.sqlite3_backup_pagecount 1,
             Event.sqlite3_backup_remaining 1, Event.setTaskProgress 1 20 20,
             Event.sqlite3_backup_finish 1,
             Event.sqlite3_close none, Event.sqlite3_close none,
             Event.setTaskFinished 1])
    ∧ (∃ D w, DoBackup populatedEngine closedSqlite partialEnv refDatabase 7 3
                (refWorld (some 43)) = Except.ok (some (D, w))
        ∧ w.statics.sLoadedSqliteSymbols = false
        ∧ w.log =
            [Event.startTask "Integrity check" 1,
             Event.setTaskFinished 1,
             Event.startTask "Backing up database" 2,
             Event.sqlite3_open "/clementine.db",
             Event.sqlite3_close none, Event.sqlite3_close none,
             Event.setTaskFinished 2])
    ∧ DoBackup populatedEngine closedSqlite noLibraryEnv refDatabase 7 3 (refWorld (some 43))
        = Except.error "call through the NULL pointer _sqlite3_open" :=
  ⟨rfl, ⟨_, rfl, rfl, rfl⟩, ⟨_, _, rfl, rfl, rfl⟩, rfl⟩

end Database

/-! # Claims about `CommandlineOptions` -/

namespace CommandlineOptions

theorem shiftArgs_length (count : Int) (rounds j : Nat) (argv : List (Option String)) :
    (shiftArgs count rounds j argv).length = argv.length := by
  induction rounds generalizing j argv with
  | zero => rfl
  | succ r ih => rw [shiftArgs, ih, List.length_set]

/-- The inner loop, for a count that is not negative: the entries from `j` on,
as many as there are rounds, take the value found `count` places further. -/
theorem shiftArgs_getElem? (c rounds j : Nat) (argv : List (Option String)) (k : Nat) :
    (shiftArgs (c : Int) rounds j argv)[k]?
      = if j ≤ k ∧ k < j + rounds ∧ k < argv.length then some (argv.getD (k + c) none)
        else argv[k]? := by
  induction rounds generalizing j argv with
  | zero =>
    rw [shiftArgs, if_neg (by omega)]
  | succ r ih =>
    rw [shiftArgs, ih, List.length_set]
    have hidx : ((j : Int) + (c : Int)).toNat = j + c := by omega
    rw [hidx]
    by_cases h1 : j + 1 ≤ k ∧ k < j + 1 + r ∧ k < argv.length
    · rw [if_pos h1, if_pos ⟨by omega, by omega, h1.2.2⟩]
      congr 1
      by_cases hc : j = k + c
      · omega
      · simp [List.getD_eq_getElem?_getD, List.getElem?_set, hc]
    · rw [if_neg h1]
      by_cases h2 : j = k
      · subst h2
        by_cases h3 : j < argv.length
        · rw [if_pos ⟨le_refl _, by omega, h3⟩]
          simp [List.getElem?_set, h3]
        · rw [if_neg (by omega)]
          simp [List.getElem?_set, h3]
          omega
      · rw [List.getElem?_set, if_neg h2]
        by_cases h4 : j ≤ k ∧ k < j + (r + 1) ∧ k < argv.length
        · omega
        · rw [if_neg h4]

end CommandlineOptions
namespace CommandlineOptions

/-- The outer loop stops at `i` when the argument at `i` is the first that
starts with the text. -/
theorem find_first (f : Nat → Bool) (n i : Nat) (hi : i < n) (hf : f i = true)
    (hmin : ∀ j, j < i → f j = false) : (List.range n).find? f = some i := by
  induction n with
  | zero => omega
  | succ n ih =>
    rw [List.range_succ, List.find?_append]
    by_cases h : i < n
    · rw [ih h]; rfl
    · have hin : i = n := by omega
      subst hin
      have : (List.range i).find? f = none := by
        rw [List.find?_eq_none]
        intro x hx
        rw [hmin x (List.mem_range.1 hx)]
        decide
      rw [this]
      simp [hf]

/-- When `count` arguments remain from the match on, `RemoveArg` is right: the
arguments at `i, …, i + count - 1` are removed and the others are kept in
their order.  The vector has `argc_ + 1` entries, as that of `main` has. -/
theorem removeArg_spec (starts_with : String) (c : Nat) (a : CommandlineOptions) (i : Nat)
    (hargc : 0 ≤ a.argc_) (hlen : a.argv_.length = a.argc_.toNat + 1)
    (hfind : (List.range a.argc_.toNat).find?
      (fun i => Database.qStartsWith ((a.argv_.getD i none).getD "") starts_with) = some i)
    (hroom : i + c ≤ a.argc_.toNat) :
    (RemoveArg starts_with c a).args = a.args.take i ++ a.args.drop (i + c)
    ∧ (RemoveArg starts_with c a).argc_ = a.argc_ - c := by
  unfold RemoveArg
  rw [hfind]
  refine ⟨?_, rfl⟩
  unfold args
  dsimp only
  have h1 : (a.argc_ - (c : Int)).toNat = a.argc_.toNat - c := by omega
  have h2 : (a.argc_ - (c : Int) + 1 - (i : Int)).toNat = a.argc_.toNat - c + 1 - i := by omega
  rw [h1, h2]
  apply List.ext_getElem?
  intro k
  rw [List.getElem?_take, shiftArgs_getElem?, List.getElem?_append]
  simp only [List.length_take, List.getElem?_take, List.getElem?_drop, hlen]
  by_cases hk : k < a.argc_.toNat - c
  · rw [if_pos hk]
    by_cases hki : k < i
    · rw [if_neg (by omega), if_pos (by omega), if_pos (by omega), if_pos (by omega)]
    · rw [if_pos ⟨by omega, by omega, by omega⟩, if_neg (by omega)]
      rw [if_pos (by omega)]
      have hlt : k + c < a.argv_.length := by omega
      rw [List.getD_eq_getElem?_getD, List.getElem?_eq_getElem hlt]
      have : i + c + (k - min i (min a.argc_.toNat (a.argc_.toNat + 1))) = k + c := by omega
      rw [this, List.getElem?_eq_getElem hlt]
      rfl
  · rw [if_neg hk]
    by_cases hki : k < i
    · omega
    · rw [if_neg (by omega), if_neg (by omega)]

end CommandlineOptions
namespace CommandlineOptions

/-- C29, the code on the arguments `clementine a.mp3 -session`, where the
argument that matches is the last one (position 2): `argc_` drops from 3 to 1
and nothing is moved, so the arguments left are `clementine` alone.  The
argument `a.mp3` at position 1, which does not match and is not among the
positions 2 and 3, is gone; removing the positions from 2 on would leave
`clementine a.mp3`. -/
theorem C29_last_argument_takes_neighbour :
    (List.range 3).find? (fun i => Database.qStartsWith
        (((mainVector ["clementine", "a.mp3", "-session"]).getD i none).getD "") "-session")
      = some 2
    ∧ (construct false "" 3 (mainVector ["clementine", "a.mp3", "-session"])).argc_ = 1
    ∧ (construct false "" 3 (mainVector ["clementine", "a.mp3", "-session"])).args
        = [some "clementine"]
    ∧ ([some "clementine", some "a.mp3", some "-session"].take 2
        ++ [some "clementine", some "a.mp3", some "-session"].drop (2 + 2))
        = [some "clementine", some "a.mp3"] := by
  decide

end CommandlineOptions
theorem refReadString_write (s : String) (rest : List Nat) :
    refReadString (refWriteString s ++ rest) = (s, rest) := by
  have hlen : (s.data.map Char.toNat).length = s.length := by
    rw [List.length_map]
    rfl
  unfold refWriteString refReadString
  simp only [List.cons_append]
  rw [List.take_left' hlen, List.drop_left' hlen, List.map_map]
  have : (Char.ofNat ∘ Char.toNat) = id := by
    funext c
    simp
  rw [this, List.map_id]

theorem readMany_write {α : Type} (readOne : List Nat → α × List Nat)
    (writeOne : α → List Nat) (l : List α) (rest : List Nat)
    (h : ∀ x ∈ l, ∀ r, readOne (writeOne x ++ r) = (x, r)) :
    readMany readOne l.length (l.flatMap writeOne ++ rest) = (l, rest) := by
  induction l with
  | nil => rfl
  | cons x l ih =>
    simp only [List.length_cons, readMany, List.flatMap_cons, List.append_assoc]
    rw [h x (List.mem_cons_self _ _), ih (fun y hy => h y (List.mem_cons_of_mem _ hy))]

/-- The reference stream does what Qt guarantees. -/
theorem refStream_lawful : refStream.Lawful where
  readInt32_write := by
    intro v rest h1 h2
    show (if (v % 4294967296).toNat < 2147483648 then ((v % 4294967296).toNat : Int)
      else ((v % 4294967296).toNat : Int) - 4294967296, rest) = (v, rest)
    split <;> (congr 1; omega)
  readUInt32_write := fun _ _ _ _ => rfl
  readBool_write := by
    intro b rest
    cases b <;> rfl
  readString_write := fun s rest _ => refReadString_write s rest
  readUrls_write := by
    intro l rest _ _
    show readMany (fun r => (QUrl.mk (refReadString r).1, (refReadString r).2)) l.length
      (l.flatMap (fun u => refWriteString u.encoded) ++ rest) = (l, rest)
    exact readMany_write (fun r => (QUrl.mk (refReadString r).1, (refReadString r).2))
      (fun u => refWriteString u.encoded) l rest
      (fun u _ r => by
        show (QUrl.mk (refReadString (refWriteString u.encoded ++ r)).1,
          (refReadString (refWriteString u.encoded ++ r)).2) = (u, r)
        rw [refReadString_write])

namespace CommandlineOptions

/-- C28.  For every object `a` whose members lie in the ranges of their types
and every object `b`, loading `Serialize(a)` into `b` gives `a` in every
member but `language_` and the argument vector, which are those of `b`. -/
theorem C28_load_serialize (S : QDataStream) (hS : S.Lawful) (a b : CommandlineOptions)
    (h : InRange a) :
    Load S (Serialize S a) b
      = { a with language_ := b.language_, argc_ := b.argc_, argv_ := b.argv_ } := by
  unfold Load Serialize read write
  simp only [List.append_assoc]
  rw [hS.readUInt32_write _ _ (le_trans (by norm_num) h.player_action.1) h.player_action.2]
  simp only []
  rw [hS.readUInt32_write _ _ (le_trans (by norm_num) h.url_list_action.1) h.url_list_action.2]
  simp only []
  rw [hS.readInt32_write _ _ h.set_volume.1 h.set_volume.2]
  simp only []
  rw [hS.readInt32_write _ _ h.volume_modifier.1 h.volume_modifier.2]
  simp only []
  rw [hS.readInt32_write _ _ h.seek_to.1 h.seek_to.2]
  simp only []
  rw [hS.readInt32_write _ _ h.seek_by.1 h.seek_by.2]
  simp only []
  rw [hS.readInt32_write _ _ h.play_track_at.1 h.play_track_at.2]
  simp only []
  rw [hS.readBool_write]
  simp only []
  rw [hS.readUrls_write _ _ h.urls.1 h.urls.2]
  simp only []
  rw [hS.readString_write _ _ h.log_levels]
  simp only []
  have hb := hS.readBool_write a.toggle_pretty_osd_ []
  rw [List.append_nil] at hb
  rw [hb]
  have h1 : ((a.player_action_ % 4294967296).toNat : Int) = a.player_action_ := by
    have := h.player_action
    omega
  have h2 : ((a.url_list_action_ % 4294967296).toNat : Int) = a.url_list_action_ := by
    have := h.url_list_action
    omega
  simp only [h1, h2]

/-- C28, witness: on the reference stream, an object with the action 1, the
volume -1, one URL and the log levels `3` is loaded into an object whose
language is `fr`. -/
theorem C28_load_witness :
    Load refStream
        (Serialize refStream
          { construct false "" 1 (mainVector ["clementine"]) with
            player_action_ := 1, show_osd_ := true, urls_ := [⟨"file:///a.mp3"⟩],
            log_levels_ := "3" })
        { construct false "" 1 (mainVector ["clementine"]) with language_ := "fr" }
      = { construct false "" 1 (mainVector ["clementine"]) with
          player_action_ := 1, show_osd_ := true, urls_ := [⟨"file:///a.mp3"⟩],
          log_levels_ := "3", language_ := "fr" } :=
  C28_load_serialize refStream refStream_lawful _ _
    ⟨by decide, by decide, by decide, by decide, by decide, by decide, by decide, by decide,
      by decide⟩

end CommandlineOptions

/-! # Claims about `MtpLister` -/

namespace MtpLister

theorem foldl_removeAll (l2 l1 : List String) :
    l2.foldl removeAll l1 = l1.filter (fun x => !l2.contains x) := by
  induction l2 generalizing l1 with
  | nil => simp
  | cons y l2 ih =>
    rw [List.foldl_cons, ih, removeAll, List.filter_filter]
    congr 1
    funext x
    by_cases h : x = y
    · subst h; simp
    · simp [h]

theorem scanDevice_foldl (rawdevices : List RawDevice)
    (acc : List String × List (String × RawDevice)) :
    (rawdevices.foldl scanDevice acc).1 = acc.1 ++ rawdevices.map deviceId := by
  induction rawdevices generalizing acc with
  | nil => simp
  | cons d l ih => rw [List.foldl_cons, ih]; simp [scanDevice]

theorem mem_removeDuplicates (l : List String) (x : String) :
    x ∈ removeDuplicates l ↔ x ∈ l := by
  have key : ∀ (l acc : List String),
      x ∈ l.foldl (fun acc x => if acc.contains x then acc else acc ++ [x]) acc
        ↔ x ∈ acc ∨ x ∈ l := by
    intro l
    induction l with
    | nil => intro acc; simp
    | cons y l ih =>
      intro acc
      rw [List.foldl_cons, ih]
      by_cases hy : acc.contains y = true
      · rw [if_pos hy]
        have : y ∈ acc := by simpa using hy
        constructor
        · rintro (h | h)
          · exact Or.inl h
          · exact Or.inr (List.mem_cons_of_mem _ h)
        · rintro (h | h)
          · exact Or.inl h
          · rcases List.mem_cons.1 h with rfl | h
            · exact Or.inl this
            · exact Or.inr h
      · rw [if_neg hy]
        simp only [List.mem_append, List.mem_singleton, List.mem_cons]
        tauto
  simpa [removeDuplicates] using key l []

/-- What `refreshInternalList` does: `DeviceAdded` is emitted for every id of
the scan, once each, whether or not the id was in the previous list, and then
`DeviceRemoved` for the previous ids that are not in the scan; `ids` becomes
the scan without duplicates. -/
theorem refreshInternalList_spec (rawdevices : List RawDevice) (m : MtpLister) :
    (refreshInternalList rawdevices m).1
      = (removeDuplicates (rawdevices.map deviceId)).map Signal.DeviceAdded
        ++ (m.ids.filter (fun id => !(rawdevices.map deviceId).contains id)).map
            Signal.DeviceRemoved
    ∧ (refreshInternalList rawdevices m).2.ids = removeDuplicates (rawdevices.map deviceId) := by
  unfold refreshInternalList
  dsimp only
  rw [scanDevice_foldl, List.nil_append, foldl_removeAll, foldl_removeAll]
  refine ⟨?_, rfl⟩
  have hold : (m.ids.filter (fun x => !(removeDuplicates (rawdevices.map deviceId)).contains x))
      = m.ids.filter (fun id => !(rawdevices.map deviceId).contains id) := by
    apply List.filter_congr
    intro x _
    have := mem_removeDuplicates (rawdevices.map deviceId) x
    by_cases h : x ∈ rawdevices.map deviceId
    · have h2 := this.2 h
      simp [h, h2]
    · have h2 : x ∉ removeDuplicates (rawdevices.map deviceId) := fun h3 => h (this.1 h3)
      simp [h, h2]
  rw [hold]
  congr 2
  rw [List.filter_eq_self]
  intro x hx
  have hx2 := (mem_removeDuplicates _ x).1 hx
  have h3 : (rawdevices.map deviceId).contains x = true := by simpa using hx2
  have hnot : x ∉ m.ids.filter (fun id => !(rawdevices.map deviceId).contains id) := by
    intro hmem
    have h2 := (List.mem_filter.1 hmem).2
    rw [h3] at h2
    exact absurd h2 (by decide)
  have hc : (m.ids.filter (fun id => !(rawdevices.map deviceId).contains id)).contains x
      = false := by
    rw [Bool.eq_false_iff]
    intro hc
    exact hnot (by simpa using hc)
  rw [hc]
  rfl

/-- C30, the code on a scan that finds again the one device of the previous
list: `DeviceAdded` is emitted for its id although the id is in both lists. -/
theorem C30_known_device_added_again :
    refreshInternalList [⟨1256, 26720, "4df1"⟩]
        ⟨["1256/26720/4df1"], [("1256/26720/4df1", ⟨1256, 26720, "4df1"⟩)]⟩
      = ([Signal.DeviceAdded "1256/26720/4df1"],
         ⟨["1256/26720/4df1"], [("1256/26720/4df1", ⟨1256, 26720, "4df1"⟩)]⟩) := by
  decide

end MtpLister
